import Mathlib

/-!
# gonum: `stat.ROC` and the `Dtrevc3` test oracle

A shallow embedding of `stat/roc.go` and of the helpers of `lapack/testlapack/dtrevc3.go`,
over an executable model of IEEE-754 binary64 arithmetic (round to nearest, ties to even).
A Go panic is the result `none`.
-/

set_option autoImplicit false
set_option exponentiation.threshold 9000

/-! ## binary64 -/

/-- IEEE-754 binary64 value. A finite value is a sign and a magnitude `k` counted in units of
`2^-1074` (the smallest subnormal): `fin neg k` stands for `(-1)^neg * k * 2^-1074`. -/
inductive F64 where
  | nan : F64
  | inf (neg : Bool) : F64
  | fin (neg : Bool) (k : Nat) : F64
deriving DecidableEq

namespace F64

/-- Binary search for the position of the leading bit: `ilog2Aux i K acc` refines `acc` with the
steps `2^(i-1), ..., 2, 1`. -/
def ilog2Aux : Nat → Nat → Nat → Nat
  | 0, _, acc => acc
  | i + 1, K, acc =>
    if 2 ^ (acc + 2 ^ i) ≤ K then ilog2Aux i K (acc + 2 ^ i) else ilog2Aux i K acc

/-- Position of the leading bit of `K` (`0` for `K = 0`), saturating at `8191`. -/
def ilog2 (K : Nat) : Nat := ilog2Aux 13 K 0

/-- Whether `K / 2^s` rounds up to the next integer under round-to-nearest, ties-to-even. -/
def roundUp (s K : Nat) : Bool :=
  decide (2 ^ s < 2 * (K % 2 ^ s)) ||
    (decide (2 ^ s = 2 * (K % 2 ^ s)) && decide (K / 2 ^ s % 2 = 1))

/-- The integer nearest to `K / 2^s`, ties to even. -/
def roundShift (s K : Nat) : Nat := if roundUp s K then K / 2 ^ s + 1 else K / 2 ^ s

/-- Number of low bits of `K` dropped when `K / 2^t` is rounded to binary64: all but the 53
leading bits, and at least the `t` bits below one unit. -/
def dropBits (K t : Nat) : Nat := max (ilog2 K - 52) t

/-- Round-to-nearest, ties-to-even, of the real `K / 2^t` (in units of `2^-1074`) to 53
significant bits and to no finer than one unit. The result is the rounded magnitude in the same
units. -/
def roundNat (K t : Nat) : Nat := roundShift (dropBits K t) K * 2 ^ (dropBits K t - t)

/-- First magnitude beyond the finite range: `2^1024` in units of `2^-1074`. -/
@[irreducible] def huge : Nat := 2 ^ 2098

/-- Magnitude of `1.0`: `2^1074` units of `2^-1074`. -/
@[irreducible] def unit : Nat := 2 ^ 1074

/-- Position given to `+Inf` on the number line of `ord`, beyond every finite magnitude. -/
@[irreducible] def top : Int := 2 ^ 2100

/-- Packs a rounded magnitude, overflowing to infinity. -/
def mk (neg : Bool) (r : Nat) : F64 := if huge ≤ r then inf neg else fin neg r

/-- The value `+0`. -/
def zero : F64 := fin false 0

/-- The value `1.0`. -/
def one : F64 := fin false unit

/-- The float64 value `2^j`, for `j ≤ 1023`. -/
def pow2 (j : Nat) : F64 := fin false (unit * 2 ^ j)

/-- The float64 value of the natural number `n` (exact for `n < 2^53`). -/
def ofNat (n : Nat) : F64 := mk false (roundNat (n * unit) 0)

/-- The float64 value `m / 2^e`, for `e ≤ 1074`. -/
def dy (m e : Nat) : F64 := mk false (roundNat (m * 2 ^ (1074 - e)) 0)

/-- Go `-x` on float64. -/
def neg : F64 → F64
  | nan => nan
  | inf s => inf (!s)
  | fin s k => fin (!s) k

/-- Go `x + y` on float64: the exact sum, rounded to nearest. A zero sum of opposite signs is
`+0`. -/
def add : F64 → F64 → F64
  | nan, _ => nan
  | _, nan => nan
  | inf s, inf s' => if s = s' then inf s else nan
  | inf s, fin _ _ => inf s
  | fin _ _, inf s => inf s
  | fin s a, fin s' b =>
    if s = s' then mk s (roundNat (a + b) 0)
    else if a = b then fin false 0
    else if b < a then mk s (roundNat (a - b) 0)
    else mk s' (roundNat (b - a) 0)

/-- Go `x - y` on float64. -/
def sub (x y : F64) : F64 := add x (neg y)

/-- Go `x * y` on float64: the exact product, rounded to nearest. The product of two magnitudes
is counted in units of `2^-2148`, hence the `1074` bits below one unit. -/
def mul : F64 → F64 → F64
  | nan, _ => nan
  | _, nan => nan
  | inf s, inf s' => inf (xor s s')
  | inf s, fin s' k => if k = 0 then nan else inf (xor s s')
  | fin s k, inf s' => if k = 0 then nan else inf (xor s s')
  | fin s a, fin s' b => mk (xor s s') (roundNat (a * b) 1074)

/-- Number of quotient bits that `div` keeps beyond the leading bit of the divisor. -/
def divBits : Nat := 1200

/-- Quotient `a / b` of two magnitudes, in the form expected by `roundNat`: the quotient
`a * 2^d / b` with one more bit that records whether the division left a remainder. -/
def quotient (a b d : Nat) : Nat := 2 * (a * 2 ^ d / b) + (if a * 2 ^ d % b = 0 then 0 else 1)

/-- Go `x / y` on float64: the exact quotient, rounded to nearest. -/
def div : F64 → F64 → F64
  | nan, _ => nan
  | _, nan => nan
  | inf _, inf _ => nan
  | inf s, fin s' _ => inf (xor s s')
  | fin s _, inf s' => fin (xor s s') 0
  | fin s a, fin s' b =>
    if b = 0 then (if a = 0 then nan else inf (xor s s'))
    else
      mk (xor s s')
        (roundNat (quotient a b (divBits + ilog2 b)) (divBits + ilog2 b + 1 - 1074))

/-- Function `math.Abs` of the Go standard library. -/
def abs : F64 → F64
  | nan => nan
  | inf _ => inf false
  | fin _ k => fin false k

/-- Function `math.IsNaN` of the Go standard library. -/
def isNaN : F64 → Bool
  | nan => true
  | _ => false

/-- Whether the value is neither NaN nor an infinity. -/
def isFinite : F64 → Bool
  | fin _ _ => true
  | _ => false

/-- Position on the extended number line, for values other than NaN. Both zeros sit at `0`. -/
def ord : F64 → Int
  | nan => 0
  | inf s => if s then -top else top
  | fin s k => if s then -(k : Int) else k

/-- The operator `<` of Go on float64. -/
def lt (x y : F64) : Bool := !x.isNaN && !y.isNaN && decide (x.ord < y.ord)

/-- The operator `<=` of Go on float64. -/
def le (x y : F64) : Bool := !x.isNaN && !y.isNaN && decide (x.ord ≤ y.ord)

/-- The operator `==` of Go on float64. -/
def eq (x y : F64) : Bool := !x.isNaN && !y.isNaN && decide (x.ord = y.ord)

/-- The operator `!=` of Go on float64. -/
def ne (x y : F64) : Bool := !(eq x y)

/-- Function `math.Signbit` of the Go standard library. -/
def signbit : F64 → Bool
  | nan => false
  | inf s => s
  | fin s _ => s

/-- Function `math.Max` of the Go standard library. -/
def max (x y : F64) : F64 :=
  if x = inf false ∨ y = inf false then inf false
  else if x.isNaN || y.isNaN then nan
  else if eq x zero && eq x y then (if signbit x then y else x)
  else if lt y x then x else y

/-- Function `math.Min` of the Go standard library. -/
def min (x y : F64) : F64 :=
  if x = inf true ∨ y = inf true then inf true
  else if x.isNaN || y.isNaN then nan
  else if eq x zero && eq x y then (if signbit x then x else y)
  else if lt x y then x else y

end F64

/-! ## Go control flow -/

/-- Go assignment `a[i] = v`, which panics when `i` is out of range. -/
def setAt {α : Type} (l : List α) (i : Nat) (v : α) : Option (List α) :=
  if i < l.length then some (l.set i v) else none

/-- Go loop `for i := lo; i < lo + n; i++ { body }` over a state, stopping at the first panic. -/
def forLoop {σ : Type} (body : Nat → σ → Option σ) : Nat → Nat → σ → Option σ
  | 0, _, s => some s
  | n + 1, i, s => (body i s).bind (forLoop body n (i + 1))

/-! ## stat.ROC -/

/-- Local variables of `ROC` during its first loop. -/
structure RocState where
  tpr : List F64
  fpr : List F64
  nPos : F64
  nNeg : F64

/-- The weight `w` of entry `i`: `1.0` when `weights` is nil, `weights[i]` otherwise. -/
def weightAt (weights : Option (List F64)) (i : Nat) : Option F64 :=
  match weights with
  | none => some F64.one
  | some ws => ws[i]?

/-- Body of `for i, u := range classes` (roc.go lines 45-60). -/
def sweepBody (classes : List Bool) (weights : Option (List F64)) (i : Nat) (st : RocState) :
    Option RocState := do
  let u ← classes[i]?
  let t ← st.tpr[i]?
  let tpr ← setAt st.tpr (i + 1) t
  let f ← st.fpr[i]?
  let fpr ← setAt st.fpr (i + 1) f
  let w ← weightAt weights i
  if u then do
    let t1 ← tpr[i + 1]?
    let tpr ← setAt tpr (i + 1) (F64.add t1 w)
    pure { tpr := tpr, fpr := fpr, nPos := F64.add st.nPos w, nNeg := st.nNeg }
  else do
    let f1 ← fpr[i + 1]?
    let fpr ← setAt fpr (i + 1) (F64.add f1 w)
    pure { tpr := tpr, fpr := fpr, nPos := st.nPos, nNeg := F64.add st.nNeg w }

/-- Body of `for i := range tpr` (roc.go lines 67-72). -/
def normBody (invPos invNeg : F64) (i : Nat) (p : List F64 × List F64) :
    Option (List F64 × List F64) := do
  let t ← p.1[i]?
  let tpr ← setAt p.1 i (F64.sub F64.one (F64.mul t invPos))
  let f ← p.2[i]?
  let fpr ← setAt p.2 i (F64.sub F64.one (F64.mul f invNeg))
  pure (tpr, fpr)

/-- Go statement `a[i], a[j] = a[j], a[i]`. -/
def swapAt (l : List F64) (i j : Nat) : Option (List F64) := do
  let x ← l[i]?
  let y ← l[j]?
  let l1 ← setAt l i y
  setAt l1 j x

/-- Loop `for i, j := 0, len(tpr)-1; i < j; i, j = i+1, j-1` (roc.go lines 73-76). The first
argument bounds the number of iterations. -/
def swapLoop : Nat → Nat → Nat → List F64 × List F64 → Option (List F64 × List F64)
  | 0, i, j, p => if i < j then none else some p
  | n + 1, i, j, p =>
    if i < j then
      (swapAt p.1 i j).bind fun tpr =>
      (swapAt p.2 i j).bind fun fpr => swapLoop n (i + 1) (j - 1) (tpr, fpr)
    else some p

/-- The test `weights != nil && len(classes) != len(weights)`. -/
def lengthMismatch (classes : List Bool) (weights : Option (List F64)) : Bool :=
  match weights with
  | none => false
  | some ws => classes.length != ws.length

/-- Function `ROC` of `stat/roc.go`; `weights = none` is the nil slice. The result is
`(tpr, fpr)`, or `none` when the call panics. -/
def ROC (classes : List Bool) (weights : Option (List F64)) : Option (List F64 × List F64) :=
  if lengthMismatch classes weights then none
  else if classes.length = 0 then some ([], [])
  else do
    let st0 : RocState :=
      { tpr := List.replicate (classes.length + 1) F64.zero
        fpr := List.replicate (classes.length + 1) F64.zero
        nPos := F64.zero
        nNeg := F64.zero }
    let st ← forLoop (sweepBody classes weights) classes.length 0 st0
    let invNeg := F64.div F64.one st.nNeg
    let invPos := F64.div F64.one st.nPos
    let p ← forLoop (normBody invPos invNeg) st.tpr.length 0 (st.tpr, st.fpr)
    swapLoop p.1.length 0 (p.1.length - 1) p

/-! ## Closed form of the loops of `ROC` -/

/-- Value of `tpr[m]` (for `b = true`) or `fpr[m]` (for `b = false`) after the first loop of
`ROC`: the float64 sum, accumulated from index `0` upwards, of the weights of the entries
`i < m` labelled `b`. -/
def cum (classes : List Bool) (weights : Option (List F64)) (b : Bool) : Nat → F64
  | 0 => F64.zero
  | m + 1 =>
    if classes[m]? = some b then
      F64.add (cum classes weights b m) ((weightAt weights m).getD F64.zero)
    else cum classes weights b m

/-- The total `nPos` (for `b = true`) or `nNeg` (for `b = false`) of `ROC`. -/
def total (classes : List Bool) (weights : Option (List F64)) (b : Bool) : F64 :=
  cum classes weights b classes.length

/-- The normalisation `1 - x*inv` of roc.go lines 70-71. -/
def complement (inv x : F64) : F64 := F64.sub F64.one (F64.mul x inv)

/-- Entry `k` of the output `tpr` (for `b = true`) or `fpr` (for `b = false`). -/
def rate (classes : List Bool) (weights : Option (List F64)) (b : Bool) (k : Nat) : F64 :=
  complement (F64.div F64.one (total classes weights b))
    (cum classes weights b (classes.length - k))

/-- Invariant of the first loop of `ROC` before iteration `i`. -/
def SweepInv (classes : List Bool) (weights : Option (List F64)) (i : Nat) (st : RocState) : Prop :=
  st.tpr.length = classes.length + 1 ∧ st.fpr.length = classes.length + 1 ∧
  st.nPos = cum classes weights true i ∧ st.nNeg = cum classes weights false i ∧
  (∀ m, m ≤ classes.length →
    st.tpr[m]? = some (if m ≤ i then cum classes weights true m else F64.zero)) ∧
  (∀ m, m ≤ classes.length →
    st.fpr[m]? = some (if m ≤ i then cum classes weights false m else F64.zero))

/-- Invariant of the second loop of `ROC` before iteration `i`. -/
def NormInv (invPos invNeg : F64) (t0 f0 : Nat → F64) (N i : Nat) (p : List F64 × List F64) :
    Prop :=
  p.1.length = N + 1 ∧ p.2.length = N + 1 ∧
  (∀ m, m ≤ N → p.1[m]? = some (if m < i then complement invPos (t0 m) else t0 m)) ∧
  (∀ m, m ≤ N → p.2[m]? = some (if m < i then complement invNeg (f0 m) else f0 m))

/-- Invariant of the reversal loop of `ROC` on one slice, before the iteration with index `i`:
the outer `i` entries on both sides are already exchanged. -/
def RevInv (l0 : List F64) (i : Nat) (l : List F64) : Prop :=
  l.length = l0.length ∧
  ∀ x, x < l0.length →
    l[x]? = if x < i ∨ l0.length - 1 - i < x then l0[l0.length - 1 - x]? else l0[x]?

/-- Every supplied weight `w` satisfies `w >= 0`. -/
def NonNegWeights (weights : Option (List F64)) : Prop :=
  ∀ ws, weights = some ws → ∀ w ∈ ws, F64.le F64.zero w = true

/-- Shape of a running sum of nonnegative weights: `+Inf`, or a finite nonnegative representable
value. -/
def IsSum (x : F64) : Prop :=
  x = F64.inf false ∨ ∃ a, x = F64.fin false a ∧ a < F64.huge ∧ F64.roundNat a 0 = a

namespace F64

/-- Position of `mk false r` on the extended number line. -/
def mag (r : Nat) : Int := if huge ≤ r then top else r

end F64

namespace F64
/-- The real number denoted by a finite value (`0` for NaN and the infinities). -/
def toRat : F64 → ℚ
  | fin s k => (if s then -(k : ℚ) else k) / 2 ^ 1074
  | _ => 0
end F64

/-- Exact (unrounded) total weight of the entries `i < m` labelled `b`. -/
def exactWeight (classes : List Bool) (weights : Option (List F64)) (b : Bool) : Nat → ℚ
  | 0 => 0
  | m + 1 =>
    exactWeight classes weights b m +
      (if classes[m]? = some b then ((weightAt weights m).getD F64.zero).toRat else 0)

/-- The ratio of claim C1: exact weight of the entries labelled `b` at indices `≥ N - k`, divided
by the exact weight of all entries labelled `b`. -/
def exactShare (classes : List Bool) (weights : Option (List F64)) (b : Bool) (k : Nat) : ℚ :=
  (exactWeight classes weights b classes.length -
      exactWeight classes weights b (classes.length - k)) /
    exactWeight classes weights b classes.length


/-! ## lapack/testlapack/dtrevc3.go -/

/-- Go index expression `a[i]` with an `int` index, which panics when `i` is out of range. -/
def indexAt {α : Type} (l : List α) (i : Int) : Option α :=
  if i < 0 then none else l[i.toNat]?

/-- Go assignment `a[i] = v` with an `int` index, which panics when `i` is out of range. -/
def assignAt {α : Type} (l : List α) (i : Int) (v : α) : Option (List α) :=
  if i < 0 then none else setAt l i.toNat v

/-- Modelled from the spec: type `blas64.General`, declared outside `src/`, the rectangular
matrix view of the data model: `Rows × Cols` entries in the buffer `Data`, entry `(i, j)` at
offset `i*Stride + j`. -/
structure General where
  Rows : Int
  Cols : Int
  Data : List F64
  Stride : Int

/-- Modelled from the spec: helper `max` on `int` of package `testlapack`, declared outside
`src/` and used as `max(1, n/4)`. -/
def imax (a b : Nat) : Nat := if a < b then b else a

/-- Local variables of `residualEVNormalization` in its loop over the columns. -/
structure NormState where
  enrmin : F64
  enrmax : F64
  ipair : Nat

/-- Body of the loop over rows for a real eigenvector (dtrevc3.go lines 284-286). -/
def realNormBody (e : General) (j : Nat) (i : Nat) (nrm : F64) : Option F64 := do
  let x ← indexAt e.Data (i * e.Stride + j)
  pure (F64.max nrm (F64.abs x))

/-- Body of the loop over rows for a complex eigenvector (dtrevc3.go lines 291-293). -/
def pairNormBody (e : General) (j : Nat) (i : Nat) (nrm : F64) : Option F64 := do
  let x ← indexAt e.Data (i * e.Stride + j)
  let y ← indexAt e.Data (i * e.Stride + j + 1)
  pure (F64.max nrm (F64.add (F64.abs x) (F64.abs y)))

/-- Body of the loop `for j := 0; j < n; j++` (dtrevc3.go lines 276-300). -/
def columnBody (e : General) (wi : List F64) (j : Nat) (st : NormState) : Option NormState := do
  let ipair ←
    if st.ipair = 0 ∧ (j : Int) < e.Rows - 1 then do
      let w ← wi[j]?
      pure (if F64.ne w F64.zero then 1 else st.ipair)
    else pure st.ipair
  match ipair with
  | 0 => do
    let nrm ← forLoop (realNormBody e j) e.Rows.toNat 0 F64.zero
    pure { enrmin := F64.min st.enrmin nrm, enrmax := F64.max st.enrmax nrm, ipair := 0 }
  | 1 => do
    let nrm ← forLoop (pairNormBody e j) e.Rows.toNat 0 F64.zero
    pure { enrmin := F64.min st.enrmin nrm, enrmax := F64.max st.enrmax nrm, ipair := 2 }
  | 2 => pure { enrmin := st.enrmin, enrmax := st.enrmax, ipair := 0 }
  | k + 3 => pure { enrmin := st.enrmin, enrmax := st.enrmax, ipair := k + 3 }

/-- Function `residualEVNormalization` of dtrevc3.go; `none` when an index is out of range. -/
def residualEVNormalization (e : General) (wi : List F64) : Option F64 :=
  if e.Rows = 0 then some F64.zero
  else do
    let st ← forLoop (columnBody e wi) e.Rows.toNat 0
      { enrmin := F64.inf false, enrmax := F64.zero, ipair := 0 }
    pure (F64.max (F64.abs (F64.sub st.enrmin F64.one)) (F64.abs (F64.sub st.enrmin F64.one)))

/-- Local variables of the mask construction of `dtrevc3Test` (dtrevc3.go lines 127-148). -/
structure MaskState where
  selected : List Bool
  selectedWant : List Bool
  nselr : Nat
  nselc : Nat
  j : Int

/-- Body of the loop `for j := n - 1; j > 0;` (dtrevc3.go lines 131-147). -/
def maskBody (n : Nat) (wi : List F64) (st : MaskState) : Option MaskState := do
  let w ← indexAt wi st.j
  if F64.eq w F64.zero then
    if st.nselr < imax 1 (n / 4) then do
      let selected ← assignAt st.selected st.j true
      let selectedWant ← assignAt st.selectedWant st.j true
      pure { selected := selected, selectedWant := selectedWant, nselr := st.nselr + 1,
             nselc := st.nselc, j := st.j - 1 }
    else pure { st with j := st.j - 1 }
  else
    if st.nselc < imax 1 (n / 4) then do
      let selected ← assignAt st.selected st.j true
      let selected ← assignAt selected (st.j - 1) true
      let selectedWant ← assignAt st.selectedWant st.j false
      let selectedWant ← assignAt selectedWant (st.j - 1) true
      pure { selected := selected, selectedWant := selectedWant, nselr := st.nselr,
             nselc := st.nselc + 1, j := st.j - 2 }
    else pure { st with j := st.j - 2 }

/-- The loop `for j := n - 1; j > 0;`; the first argument bounds the number of iterations. -/
def maskLoop : Nat → Nat → List F64 → MaskState → Option MaskState
  | 0, _, _, st => if 0 < st.j then none else some st
  | fuel + 1, n, wi, st =>
    if 0 < st.j then (maskBody n wi st).bind (maskLoop fuel n wi) else some st

/-- The mask construction of `dtrevc3Test` (dtrevc3.go lines 127-148) for the size `n` and the
imaginary parts `wi`; `none` when an index is out of range. -/
def selectMask (n : Nat) (wi : List F64) : Option MaskState :=
  maskLoop n n wi
    { selected := List.replicate n false, selectedWant := List.replicate n false,
      nselr := 0, nselc := 0, j := (n : Int) - 1 }

/-- The value `mWant = nselr + 2*nselc` of dtrevc3.go line 149. -/
def mWant (st : MaskState) : Nat := st.nselr + 2 * st.nselc

/-- Schur pairing form of `wi`: a concatenation of blocks `[0]` and `[p, -p]` with `p > 0`. -/
def isSchurForm : List F64 → Bool
  | [] => true
  | [z] => F64.eq z F64.zero
  | a :: b :: rest =>
    (F64.eq a F64.zero && isSchurForm (b :: rest)) ||
      (F64.lt F64.zero a && decide (b = F64.neg a) && isSchurForm rest)

/-- The eigenvector max-norms of `e` in column order, following the data model: `max_i |E[i,j]|`
for a real column `j`, `max_i (|E[i,j]| + |E[i,j+1]|)` for a pair at columns `(j, j+1)`. The
first argument bounds the number of columns visited. -/
def eigenvectorNorms (e : General) : Nat → Nat → List F64 → Option (List F64)
  | 0, _, _ => some []
  | _ + 1, _, [] => some []
  | fuel + 1, j, [_] => do
    let nrm ← forLoop (realNormBody e j) e.Rows.toNat 0 F64.zero
    let rest ← eigenvectorNorms e fuel (j + 1) []
    pure (nrm :: rest)
  | fuel + 1, j, w :: w1 :: ws =>
    if F64.ne w F64.zero then do
      let nrm ← forLoop (pairNormBody e j) e.Rows.toNat 0 F64.zero
      let rest ← eigenvectorNorms e fuel (j + 2) ws
      pure (nrm :: rest)
    else do
      let nrm ← forLoop (realNormBody e j) e.Rows.toNat 0 F64.zero
      let rest ← eigenvectorNorms e fuel (j + 1) (w1 :: ws)
      pure (nrm :: rest)

/-- The normalization residual as documented (dtrevc3.go lines 264-265) and as the spec states
it: the maximum over the eigenvectors of `|max-norm - 1|`. -/
def maxNormError (e : General) (wi : List F64) : Option F64 := do
  let norms ← eigenvectorNorms e wi.length 0 wi
  pure (norms.foldl (fun acc nrm => F64.max acc (F64.abs (F64.sub nrm F64.one))) F64.zero)

/-- What the mask construction leaves at a complex pair at columns `(a, a+1)`: the expected mask
is false at `a+1`, the input mask agrees on both columns, and the expected mask at `a` says
whether the pair was selected. -/
def PairMarked (st : MaskState) (a : Nat) : Prop :=
  st.selectedWant[a + 1]? = some false ∧ st.selected[a]? = st.selected[a + 1]? ∧
    st.selectedWant[a]? = st.selected[a]?

/-- Invariant of the mask construction when the columns `0..m-1` are still to be visited. -/
def MaskInv (n : Nat) (wi : List F64) (m : Nat) (st : MaskState) : Prop :=
  (∃ pre post, wi = pre ++ post ∧ pre.length = m ∧ isSchurForm pre = true) ∧
  st.j = (m : Int) - 1 ∧ st.selected.length = n ∧ st.selectedWant.length = n ∧
  (∀ i, i < m → st.selected[i]? = some false ∧ st.selectedWant[i]? = some false) ∧
  (∀ a, m ≤ a → a + 1 < n → (∃ p, wi[a]? = some p ∧ F64.lt F64.zero p = true) →
    PairMarked st a)

/-- The loop over rows for a selected real eigenvalue in `loopVR` and `loopVL` (dtrevc3.go lines
196-201 and 223-228), started at row `i` with the given number of rows left: `some false` at the
first row where column `k` of `sel` differs from column `j` of `full`, `some true` when no row
differs, `none` when an index is out of range. -/
def realColumnEq (sel full : General) (k j : Nat) : Nat → Nat → Option Bool
  | 0, _ => some true
  | rows + 1, i => do
    let x ← indexAt sel.Data (i * sel.Stride + k)
    let y ← indexAt full.Data (i * full.Stride + j)
    if F64.ne x y then some false else realColumnEq sel full k j rows (i + 1)

/-- The loop over rows for a selected complex pair in `loopVR` and `loopVL` (dtrevc3.go lines
204-210 and 231-237); the second comparison of `||` is evaluated only when the first is false. -/
def pairColumnEq (sel full : General) (k j : Nat) : Nat → Nat → Option Bool
  | 0, _ => some true
  | rows + 1, i => do
    let x ← indexAt sel.Data (i * sel.Stride + k)
    let y ← indexAt full.Data (i * full.Stride + j)
    if F64.ne x y then some false
    else do
      let x1 ← indexAt sel.Data (i * sel.Stride + k + 1)
      let y1 ← indexAt full.Data (i * full.Stride + j + 1)
      if F64.ne x1 y1 then some false else pairColumnEq sel full k j rows (i + 1)

/-- The labelled loop `loopVR` (and `loopVL`) of `dtrevc3Test` (dtrevc3.go lines 194-214 and
221-241) from column `j` on, with the given number of columns left and the output column counter
`k`: the value of `match` and of `k` when the loop is left, `none` when an index is out of
range. -/
def matchLoop (sel full : General) (n : Nat) (selected : List Bool) (wi : List F64) :
    Nat → Nat → Nat → Option (Bool × Nat)
  | 0, _, k => some (true, k)
  | cols + 1, j, k => do
    let s ← selected[j]?
    if s then do
      let w ← wi[j]?
      if F64.eq w F64.zero then do
        let ok ← realColumnEq sel full k j n 0
        if ok then matchLoop sel full n selected wi cols (j + 1) (k + 1) else some (false, k)
      else if F64.ne w F64.zero then do
        let ok ← pairColumnEq sel full k j n 0
        if ok then matchLoop sel full n selected wi cols (j + 1) (k + 2) else some (false, k)
      else matchLoop sel full n selected wi cols (j + 1) k
    else matchLoop sel full n selected wi cols (j + 1) k

/-- Number of output columns that a list of pairs `(wi[j], selected[j])` takes: one for a selected
`j` with `wi[j] = 0`, two for a selected `j` with `wi[j] ≠ 0`. -/
def widthSum (l : List (F64 × Bool)) : Nat :=
  (l.map (fun p => if p.2 then (if F64.eq p.1 F64.zero then 1 else 2) else 0)).sum

/-- The output column at which the column matching arrives at index `j`: the number of output
columns taken by the indices below `j`. -/
def columnBefore (selected : List Bool) (wi : List F64) (j : Nat) : Nat :=
  widthSum ((wi.zip selected).take j)

/-- Counting part of the invariant of the mask construction when the columns `0..m-1` are still
to be visited: `nselc` against the number of pairs visited, `nselr` and `nselc` against the
input mask, `nselr + 2*nselc` against the expected mask, and the status of every pair visited. -/
def MaskCount (n : Nat) (wi : List F64) (m : Nat) (st : MaskState) : Prop :=
  st.nselc = min (imax 1 (n / 4)) ((wi.drop m).countP (fun w => F64.lt F64.zero w)) ∧
  st.nselr = ((wi.drop m).zip (st.selected.drop m)).countP
    (fun p => F64.eq p.1 F64.zero && p.2) ∧
  st.nselc = ((wi.drop m).zip (st.selected.drop m)).countP
    (fun p => F64.lt F64.zero p.1 && p.2) ∧
  widthSum ((wi.drop m).zip (st.selectedWant.drop m)) = st.nselr + 2 * st.nselc ∧
  (∀ a p, m ≤ a → wi[a]? = some p → F64.lt F64.zero p = true →
    st.selected[a]? =
      some (decide ((wi.drop (a + 1)).countP (fun w => F64.lt F64.zero w) < imax 1 (n / 4)))) ∧
  (∀ a w, m ≤ a → st.selectedWant[a]? = some true → wi[a]? = some w →
    F64.ne w F64.zero = true → a + 1 < n)

/-- Modelled from the spec: entry `(i, j)` of a matrix, at offset `i*Stride + j` of its buffer;
`none` when the offset lies outside the buffer. -/
def entryAt (e : General) (i j : Nat) : Option F64 := indexAt e.Data (i * e.Stride + j)

/-- Magnitude of a finite value in units of `2^-1074`; `0` for NaN and the infinities. -/
def F64.units : F64 → Nat
  | F64.fin _ k => k
  | _ => 0

/-- Modelled from the spec: the maximum `max_i v_i` of float64 values `v_i` that are not
negative: `+Inf` when some `v_i` is `+Inf`, otherwise NaN when some `v_i` is NaN, otherwise the
finite value of the largest magnitude (`0` when there is no value). -/
def largest (vals : List F64) : F64 :=
  if vals.any (fun v => decide (v = F64.inf false)) then F64.inf false
  else if vals.any F64.isNaN then F64.nan
  else F64.fin false ((vals.map F64.units).foldr Nat.max 0)

/-- Modelled from the spec: the values `|E[i,j]|` of column `j` for the rows from `i` on, with
the given number of rows left. -/
def columnAbs (e : General) (j : Nat) : Nat → Nat → Option (List F64)
  | 0, _ => some []
  | rows + 1, i => do
    let x ← entryAt e i j
    let rest ← columnAbs e j rows (i + 1)
    pure (F64.abs x :: rest)

/-- Modelled from the spec: the values `|E[i,j]| + |E[i,j+1]|` of the complex pair at columns
`(j, j+1)` for the rows from `i` on, with the given number of rows left. -/
def pairAbs (e : General) (j : Nat) : Nat → Nat → Option (List F64)
  | 0, _ => some []
  | rows + 1, i => do
    let x ← entryAt e i j
    let y ← entryAt e i (j + 1)
    let rest ← pairAbs e j rows (i + 1)
    pure (F64.add (F64.abs x) (F64.abs y) :: rest)

/-- Modelled from the spec: the max-norms of the eigenvectors stored in the `n` rows of `e`, in
column order from column `j` on, for the imaginary parts `wi[j..]`: an index with `wi = 0` is a
real eigenvector of norm `max_i |E[i,j]|`, an index with `wi ≠ 0` starts a complex pair at
columns `(j, j+1)` of norm `max_i (|E[i,j]| + |E[i,j+1]|)`. `none` when an entry lies outside
the buffer or a pair lacks its second column. -/
def maxNorms (e : General) (n : Nat) : Nat → List F64 → Option (List F64)
  | _, [] => some []
  | j, [w] =>
    if F64.eq w F64.zero then do
      let vals ← columnAbs e j n 0
      pure [largest vals]
    else none
  | j, w :: w1 :: ws =>
    if F64.eq w F64.zero then do
      let vals ← columnAbs e j n 0
      let rest ← maxNorms e n (j + 1) (w1 :: ws)
      pure (largest vals :: rest)
    else do
      let vals ← pairAbs e j n 0
      let rest ← maxNorms e n (j + 2) ws
      pure (largest vals :: rest)


/-! ## The arithmetic on known values -/

namespace F64

/-- The sum `0.1 + 0.2` is `0.30000000000000004`. -/
theorem add_tenths :
    add (dy 3602879701896397 55) (dy 3602879701896397 54) = dy 1351079888211149 52 := by
  decide!

/-- The quotient `1 / 3` is `0.3333333333333333`, and `1 / 49` times `49` is
`0.9999999999999999`. -/
theorem div_thirds :
    div one (ofNat 3) = dy 6004799503160661 54 ∧
    mul (ofNat 49) (div one (ofNat 49)) = dy 9007199254740991 53 := by
  refine ⟨by decide!, by decide!⟩

/-- Overflow gives `+Inf`; half of the smallest subnormal is a tie and rounds to the even `0`,
three halves of it round to the even `2 * 2^-1074`. -/
theorem overflow_and_underflow :
    add (pow2 1023) (pow2 1023) = inf false ∧
    mul (dy 1 1074) (dy 1 1) = zero ∧
    mul (dy 3 1074) (dy 1 1) = dy 2 1074 := by
  refine ⟨by decide!, by decide!, by decide!⟩

/-- Division by zero and the invalid operations. -/
theorem special_values :
    div one zero = inf false ∧ div zero zero = nan ∧ mul zero (inf false) = nan ∧
    sub (inf false) (inf false) = nan ∧ sub one nan = nan ∧ add zero (neg zero) = zero ∧
    add (neg zero) (neg zero) = neg zero := by
  refine ⟨by decide!, by decide!, by decide!, by decide!, by decide!, by decide!, by decide!⟩

end F64

/-! ## Facts on rounding -/

namespace F64

theorem huge_eq : huge = 2 ^ 2098 := by unfold huge; rfl

theorem unit_eq : unit = 2 ^ 1074 := by unfold unit; rfl

theorem top_eq : top = 2 ^ 2100 := by unfold top; rfl

theorem unit_lt_huge : unit < huge := by
  rw [unit_eq, huge_eq]
  exact Nat.pow_lt_pow_right (by norm_num) (by norm_num)

theorem huge_lt_top : (huge : Int) < top := by
  rw [huge_eq, top_eq]
  exact_mod_cast Nat.pow_lt_pow_right (a := 2) (by norm_num) (show 2098 < 2100 by norm_num)

theorem top_pos : 0 < top := by
  rw [top_eq]; exact_mod_cast Nat.two_pow_pos 2100

theorem ilog2Aux_lb (K : Nat) : ∀ (i acc : Nat), 2 ^ acc ≤ K → 2 ^ ilog2Aux i K acc ≤ K := by
  intro i
  induction i with
  | zero => intro acc h; simpa [ilog2Aux] using h
  | succ i ih =>
    intro acc h
    unfold ilog2Aux
    split
    · next h1 => exact ih _ h1
    · exact ih _ h

theorem ilog2Aux_ub (K : Nat) :
    ∀ (i acc : Nat), K < 2 ^ (acc + 2 ^ i) → K < 2 ^ (ilog2Aux i K acc + 1) := by
  intro i
  induction i with
  | zero => intro acc h; simpa [ilog2Aux] using h
  | succ i ih =>
    intro acc h
    unfold ilog2Aux
    split
    · apply ih
      have : acc + 2 ^ i + 2 ^ i = acc + 2 ^ (i + 1) := by rw [pow_succ]; omega
      rw [this]; exact h
    · next h1 => exact ih _ (by omega)

theorem ilog2Aux_sat (K : Nat) :
    ∀ (i acc : Nat), 2 ^ (acc + 2 ^ i) ≤ K → ilog2Aux i K acc = acc + 2 ^ i - 1 := by
  intro i
  induction i with
  | zero => intro acc h; simp [ilog2Aux]
  | succ i ih =>
    intro acc h
    have e : acc + 2 ^ i + 2 ^ i = acc + 2 ^ (i + 1) := by rw [pow_succ]; omega
    have h1 : 2 ^ (acc + 2 ^ i) ≤ K :=
      le_trans (Nat.pow_le_pow_right (by norm_num) (by rw [← e]; exact Nat.le_add_right _ _)) h
    unfold ilog2Aux
    rw [if_pos h1, ih _ (by rw [e]; exact h), e]

theorem ilog2Aux_small (K : Nat) :
    ∀ (i acc : Nat), K < 2 ^ (acc + 1) → ilog2Aux i K acc = acc := by
  intro i
  induction i with
  | zero => intro acc _; simp [ilog2Aux]
  | succ i ih =>
    intro acc h
    have h1 : ¬ 2 ^ (acc + 2 ^ i) ≤ K := by
      have : 2 ^ (acc + 1) ≤ 2 ^ (acc + 2 ^ i) :=
        Nat.pow_le_pow_right (by norm_num) (by have := Nat.one_le_two_pow (n := i); omega)
      omega
    unfold ilog2Aux
    rw [if_neg h1]
    exact ih _ h

theorem ilog2_zero : ilog2 0 = 0 := ilog2Aux_small 0 13 0 (by norm_num)

theorem ilog2_lb (K : Nat) (h : 0 < K) : 2 ^ ilog2 K ≤ K :=
  ilog2Aux_lb K 13 0 (by simpa using h)

theorem ilog2_le (K : Nat) : ilog2 K ≤ 8191 := by
  by_cases h : K < 2 ^ 8192
  · have h1 := ilog2Aux_ub K 13 0 (by rw [show (0 + 2 ^ 13 : Nat) = 8192 from rfl]; exact h)
    by_cases h0 : 0 < K
    · have h2 := ilog2_lb K h0
      have h3 : 2 ^ ilog2 K < 2 ^ 8192 := lt_of_le_of_lt h2 h
      have := (Nat.pow_lt_pow_iff_right (a := 2) (by norm_num)).1 h3
      omega
    · have : K = 0 := by omega
      subst this; rw [ilog2_zero]; omega
  · have := ilog2Aux_sat K 13 0 (by rw [show (0 + 2 ^ 13 : Nat) = 8192 from rfl]; omega)
    simp [ilog2, this]

theorem ilog2_ub (K : Nat) (h : ilog2 K < 8191) : K < 2 ^ (ilog2 K + 1) := by
  by_cases h1 : K < 2 ^ 8192
  · exact ilog2Aux_ub K 13 0 (by rw [show (0 + 2 ^ 13 : Nat) = 8192 from rfl]; exact h1)
  · have := ilog2Aux_sat K 13 0 (by rw [show (0 + 2 ^ 13 : Nat) = 8192 from rfl]; omega)
    simp [ilog2, this] at h

theorem ilog2_mono {K1 K2 : Nat} (h : K1 ≤ K2) : ilog2 K1 ≤ ilog2 K2 := by
  by_contra hc
  have hlt : ilog2 K2 < ilog2 K1 := by omega
  have h8 := ilog2_le K1
  by_cases h0 : 0 < K1
  · have h1 := ilog2_lb K1 h0
    have h2 := ilog2_ub K2 (by omega)
    have h3 : 2 ^ (ilog2 K2 + 1) ≤ 2 ^ ilog2 K1 := Nat.pow_le_pow_right (by norm_num) hlt
    omega
  · have : K1 = 0 := by omega
    subst this; rw [ilog2_zero] at hlt; omega

theorem ilog2_eq (K e : Nat) (h1 : 2 ^ e ≤ K) (h2 : K < 2 ^ (e + 1)) (he : e ≤ 8191) :
    ilog2 K = e := by
  have h0 : 0 < K := lt_of_lt_of_le (Nat.two_pow_pos e) h1
  have hl := ilog2_lb K h0
  have h3 : 2 ^ ilog2 K < 2 ^ (e + 1) := lt_of_le_of_lt hl h2
  have h4 := (Nat.pow_lt_pow_iff_right (a := 2) (by norm_num)).1 h3
  by_contra hne
  have h5 : ilog2 K < e := by omega
  have h6 := ilog2_ub K (by omega)
  have h7 : 2 ^ (ilog2 K + 1) ≤ 2 ^ e := Nat.pow_le_pow_right (by norm_num) h5
  omega

end F64

namespace F64

theorem roundShift_ge (s K : Nat) : K / 2 ^ s ≤ roundShift s K := by
  unfold roundShift; split <;> omega

theorem roundShift_le (s K : Nat) : roundShift s K ≤ K / 2 ^ s + 1 := by
  unfold roundShift; split <;> omega

theorem roundShift_exact (s K : Nat) (h : K % 2 ^ s = 0) : roundShift s K = K / 2 ^ s := by
  have hp : 0 < 2 ^ s := Nat.two_pow_pos s
  have : roundUp s K = false := by
    simp only [roundUp, h, Nat.mul_zero]
    simp
  simp [roundShift, this]

theorem roundShift_mono (s : Nat) {K1 K2 : Nat} (h : K1 ≤ K2) :
    roundShift s K1 ≤ roundShift s K2 := by
  have hq : K1 / 2 ^ s ≤ K2 / 2 ^ s := Nat.div_le_div_right h
  rcases Nat.lt_or_eq_of_le hq with hlt | heq
  · exact le_trans (roundShift_le s K1) (le_trans hlt (roundShift_ge s K2))
  · have e1 := Nat.div_add_mod K1 (2 ^ s)
    have e2 := Nat.div_add_mod K2 (2 ^ s)
    have hr : K1 % 2 ^ s ≤ K2 % 2 ^ s := by
      rw [heq] at e1
      omega
    unfold roundShift
    by_cases u1 : roundUp s K1 = true
    · have u2 : roundUp s K2 = true := by
        simp only [roundUp, Bool.or_eq_true, Bool.and_eq_true, decide_eq_true_eq] at u1 ⊢
        rw [← heq]
        rcases u1 with u | ⟨u, v⟩
        · left; omega
        · by_cases c : 2 ^ s = 2 * (K2 % 2 ^ s)
          · right; exact ⟨c, v⟩
          · left; omega
      rw [if_pos u1, if_pos u2]; omega
    · rw [if_neg u1]
      split <;> omega

theorem dropBits_mono (t : Nat) {K1 K2 : Nat} (h : K1 ≤ K2) : dropBits K1 t ≤ dropBits K2 t := by
  have := ilog2_mono h
  unfold dropBits
  omega

/-- Rounding to nearest is monotone. -/
theorem roundNat_mono (t : Nat) {K1 K2 : Nat} (h : K1 ≤ K2) : roundNat K1 t ≤ roundNat K2 t := by
  have hs := dropBits_mono t h
  rcases Nat.lt_or_eq_of_le hs with hlt | heq
  · -- the exponent grows: compare both with a power of two
    have ht1 : t ≤ dropBits K1 t := by unfold dropBits; omega
    have hs2 : dropBits K2 t = ilog2 K2 - 52 := by unfold dropBits at hlt ⊢; omega
    have hL2 : 53 ≤ ilog2 K2 := by unfold dropBits at hlt; omega
    have hK2 : 0 < K2 := by
      rcases Nat.eq_zero_or_pos K2 with h0 | h0
      · subst h0; rw [ilog2_zero] at hL2; omega
      · exact h0
    have hL1 : ilog2 K1 < 8191 := by
      have := ilog2_le K2
      unfold dropBits at hlt; omega
    have hub := ilog2_ub K1 hL1
    have hlb := ilog2_lb K2 hK2
    -- upper bound on the first
    have hq1 : K1 / 2 ^ dropBits K1 t < 2 ^ 53 := by
      rw [Nat.div_lt_iff_lt_mul (Nat.two_pow_pos _), ← pow_add]
      refine lt_of_lt_of_le hub (Nat.pow_le_pow_right (by norm_num) ?_)
      unfold dropBits; omega
    have hR1 : roundNat K1 t ≤ 2 ^ 53 * 2 ^ (dropBits K1 t - t) :=
      Nat.mul_le_mul_right _ (le_trans (roundShift_le _ _) hq1)
    -- lower bound on the second
    have hq2 : 2 ^ 52 ≤ K2 / 2 ^ dropBits K2 t := by
      rw [Nat.le_div_iff_mul_le (Nat.two_pow_pos _), ← pow_add]
      refine le_trans (Nat.pow_le_pow_right (by norm_num) ?_) hlb
      rw [hs2]; omega
    have hR2 : 2 ^ 52 * 2 ^ (dropBits K2 t - t) ≤ roundNat K2 t :=
      Nat.mul_le_mul_right _ (le_trans hq2 (roundShift_ge _ _))
    refine le_trans hR1 (le_trans ?_ hR2)
    rw [← pow_add, ← pow_add]
    exact Nat.pow_le_pow_right (by norm_num) (by omega)
  · unfold roundNat
    rw [heq]
    exact Nat.mul_le_mul_right _ (roundShift_mono _ h)

end F64

namespace F64

theorem ilog2_lt_of_lt {K e : Nat} (h : K < 2 ^ e) : ilog2 K < e ∨ K = 0 := by
  rcases Nat.eq_zero_or_pos K with h0 | h0
  · right; exact h0
  · left
    have h1 := ilog2_lb K h0
    exact (Nat.pow_lt_pow_iff_right (a := 2) (by norm_num)).1 (lt_of_le_of_lt h1 h)

theorem dropBits_small {K : Nat} (h : K < 2 ^ 53) : dropBits K 0 = 0 := by
  rcases ilog2_lt_of_lt h with h1 | h1
  · unfold dropBits; omega
  · subst h1; unfold dropBits; rw [ilog2_zero]; rfl

/-- Magnitudes below `2^53` units are representable: rounding leaves them alone. -/
theorem roundNat_small {K : Nat} (h : K < 2 ^ 53) : roundNat K 0 = K := by
  unfold roundNat
  rw [dropBits_small h, roundShift_exact 0 K (by rw [pow_zero]; exact Nat.mod_one K)]
  simp

/-- Magnitudes with a 53-bit significand are representable: rounding leaves them alone. -/
theorem roundNat_rep (m e : Nat) (h1 : 2 ^ 52 ≤ m) (h2 : m < 2 ^ 53) (he : e + 52 ≤ 8191) :
    roundNat (m * 2 ^ e) 0 = m * 2 ^ e := by
  have hL : ilog2 (m * 2 ^ e) = e + 52 := by
    apply ilog2_eq _ _ _ _ he
    · rw [Nat.add_comm, pow_add]; exact Nat.mul_le_mul_right _ h1
    · rw [show e + 52 + 1 = 53 + e by omega, pow_add]
      exact Nat.mul_lt_mul_of_lt_of_le h2 (le_refl _) (Nat.two_pow_pos e)
  have hd : dropBits (m * 2 ^ e) 0 = e := by unfold dropBits; rw [hL]; omega
  unfold roundNat
  rw [hd, roundShift_exact e _ (Nat.mul_mod_left _ _),
    Nat.mul_div_cancel _ (Nat.two_pow_pos e)]
  simp

theorem roundNat_pos {K : Nat} (h : 0 < K) : 0 < roundNat K 0 := by
  have h1 := ilog2_lb K h
  have hd : dropBits K 0 ≤ ilog2 K := by unfold dropBits; omega
  have hq : 1 ≤ K / 2 ^ dropBits K 0 := by
    rw [Nat.le_div_iff_mul_le (Nat.two_pow_pos _), Nat.one_mul]
    exact le_trans (Nat.pow_le_pow_right (by norm_num) hd) h1
  unfold roundNat
  exact Nat.mul_pos (lt_of_lt_of_le hq (roundShift_ge _ _)) (Nat.two_pow_pos _)

theorem roundNat_zero (t : Nat) : roundNat 0 t = 0 := by
  unfold roundNat
  rw [roundShift_exact _ 0 (Nat.zero_mod _)]
  simp

/-- A finite result of rounding is representable. -/
theorem roundNat_idem (K : Nat) (h : roundNat K 0 < huge) :
    roundNat (roundNat K 0) 0 = roundNat K 0 := by
  by_cases hL : ilog2 K ≤ 52
  · have hd : dropBits K 0 = 0 := by unfold dropBits; omega
    have e : roundNat K 0 = K := by
      unfold roundNat
      rw [hd, roundShift_exact 0 K (by rw [pow_zero]; exact Nat.mod_one K)]
      simp
    rw [e, e]
  · have hK : 0 < K := by
      rcases Nat.eq_zero_or_pos K with h0 | h0
      · subst h0; rw [ilog2_zero] at hL; omega
      · exact h0
    have hd : dropBits K 0 = ilog2 K - 52 := by unfold dropBits; omega
    have hlb := ilog2_lb K hK
    have hq : 2 ^ 52 ≤ K / 2 ^ (ilog2 K - 52) := by
      rw [Nat.le_div_iff_mul_le (Nat.two_pow_pos _), ← pow_add]
      exact le_trans (Nat.pow_le_pow_right (by norm_num) (by omega)) hlb
    have hR : roundNat K 0 = roundShift (ilog2 K - 52) K * 2 ^ (ilog2 K - 52) := by
      simp only [roundNat, hd, Nat.sub_zero]
    have hL8 : ilog2 K < 8191 := by
      by_contra hc
      have h8 : ilog2 K = 8191 := by have := ilog2_le K; omega
      have h9 : huge ≤ roundNat K 0 := by
        rw [hR]
        refine le_trans ?_ (Nat.mul_le_mul_right _ (le_trans hq (roundShift_ge _ _)))
        rw [← pow_add]
        rw [huge_eq]
        exact Nat.pow_le_pow_right (by norm_num) (by omega)
      exact absurd h (Nat.not_lt.mpr h9)
    have hub := ilog2_ub K hL8
    have hq2 : K / 2 ^ (ilog2 K - 52) < 2 ^ 53 := by
      rw [Nat.div_lt_iff_lt_mul (Nat.two_pow_pos _), ← pow_add]
      exact lt_of_lt_of_le hub (Nat.pow_le_pow_right (by norm_num) (by omega))
    have hQ1 := le_trans hq (roundShift_ge (ilog2 K - 52) K)
    have hQ2 := le_trans (roundShift_le (ilog2 K - 52) K) hq2
    rw [hR]
    rcases Nat.lt_or_eq_of_le hQ2 with hlt | heq
    · exact roundNat_rep _ _ hQ1 hlt (by omega)
    · rw [heq, show (2 : Nat) ^ 53 = 2 ^ 52 * 2 by norm_num, Nat.mul_assoc, ← pow_succ']
      exact roundNat_rep _ _ (le_refl _) (by norm_num) (by omega)

end F64

namespace F64

/-- The integer chosen by `roundShift` is within one half of `K / 2^s`. -/
theorem roundShift_error (s K : Nat) :
    2 * (roundShift s K * 2 ^ s) ≤ 2 * K + 2 ^ s ∧ 2 * K ≤ 2 * (roundShift s K * 2 ^ s) + 2 ^ s := by
  have e := Nat.div_add_mod K (2 ^ s)
  have hr := Nat.mod_lt K (Nat.two_pow_pos s)
  rw [Nat.mul_comm] at e
  unfold roundShift
  by_cases u : roundUp s K = true
  · rw [if_pos u, Nat.add_mul, Nat.one_mul]
    simp only [roundUp, Bool.or_eq_true, Bool.and_eq_true, decide_eq_true_eq] at u
    constructor <;> omega
  · rw [if_neg u]
    simp only [roundUp, Bool.or_eq_true, Bool.and_eq_true, decide_eq_true_eq, not_or] at u
    constructor <;> omega

/-- The rounded magnitude is within half a unit in the last place of `K / 2^t`: the unit in the
last place is `2^(dropBits K t - t)`, that is `2^(dropBits K t)` on the scale of `K`. -/
theorem roundNat_error (K t : Nat) :
    2 * (roundNat K t * 2 ^ t) ≤ 2 * K + 2 ^ dropBits K t ∧
    2 * K ≤ 2 * (roundNat K t * 2 ^ t) + 2 ^ dropBits K t := by
  have ht : t ≤ dropBits K t := by unfold dropBits; omega
  have e : roundNat K t * 2 ^ t = roundShift (dropBits K t) K * 2 ^ dropBits K t := by
    unfold roundNat
    rw [Nat.mul_assoc, ← pow_add, Nat.sub_add_cancel ht]
  rw [e]
  exact roundShift_error _ K

end F64

/-! ## Facts on the order of binary64 values -/

namespace F64

theorem mag_nonneg (r : Nat) : 0 ≤ mag r := by
  unfold mag; split
  · exact le_of_lt top_pos
  · exact Int.ofNat_nonneg r

theorem mag_le (r : Nat) : mag r ≤ top := by
  unfold mag; split
  · exact le_refl _
  · next h =>
    have h1 : (r : Int) < huge := by exact_mod_cast Nat.lt_of_not_le h
    exact le_of_lt (lt_trans h1 huge_lt_top)

theorem mag_mono {r1 r2 : Nat} (h : r1 ≤ r2) : mag r1 ≤ mag r2 := by
  unfold mag
  by_cases h2 : huge ≤ r2
  · rw [if_pos h2]; exact mag_le r1
  · have h1 : ¬ huge ≤ r1 := by omega
    rw [if_neg h1, if_neg h2]; exact_mod_cast h

theorem ord_mk_pos (r : Nat) : ord (mk false r) = mag r := by
  unfold mk mag; split <;> simp [ord]

theorem ord_mk_neg (r : Nat) : ord (mk true r) = -mag r := by
  unfold mk mag; split <;> simp [ord]

theorem isNaN_mk (s : Bool) (r : Nat) : (mk s r).isNaN = false := by
  unfold mk; split <;> rfl

theorem le_iff (x y : F64) : le x y = true ↔ x.isNaN = false ∧ y.isNaN = false ∧ x.ord ≤ y.ord := by
  simp [le, and_assoc]

theorem sub_one_inf : sub one (inf false) = inf true := rfl

theorem sub_one_fin (r : Nat) :
    sub one (fin false r) =
      if unit = r then fin false 0
      else if r < unit then mk false (roundNat (unit - r) 0)
      else mk true (roundNat (r - unit) 0) := by
  simp [sub, neg, one, add]

/-- Position of `1 - x` for a product `x = mk false r`. -/
theorem sub_one_mk (r : Nat) :
    (sub one (mk false r)).isNaN = false ∧
    ord (sub one (mk false r)) =
      if huge ≤ r then -top
      else if unit = r then 0
      else if r < unit then mag (roundNat (unit - r) 0)
      else -mag (roundNat (r - unit) 0) := by
  by_cases c1 : huge ≤ r
  · rw [mk, if_pos c1, if_pos c1, sub_one_inf]; simp [isNaN, ord]
  · rw [mk, if_neg c1, if_neg c1, sub_one_fin]
    by_cases c2 : unit = r
    · rw [if_pos c2, if_pos c2]; simp [isNaN, ord]
    · rw [if_neg c2, if_neg c2]
      by_cases c3 : r < unit
      · rw [if_pos c3, if_pos c3]; exact ⟨isNaN_mk _ _, ord_mk_pos _⟩
      · rw [if_neg c3, if_neg c3]; exact ⟨isNaN_mk _ _, ord_mk_neg _⟩

/-- The subtraction `1 - x` of roc.go lines 70-71 is antitone on the products `x = mk false r`. -/
theorem sub_one_mk_antitone {r1 r2 : Nat} (h : r1 ≤ r2) :
    le (sub one (mk false r2)) (sub one (mk false r1)) = true := by
  rw [le_iff]
  refine ⟨(sub_one_mk r2).1, (sub_one_mk r1).1, ?_⟩
  rw [(sub_one_mk r2).2, (sub_one_mk r1).2]
  have n1 := mag_nonneg (roundNat (unit - r1) 0)
  have n2 := mag_nonneg (roundNat (r2 - unit) 0)
  have t1 := mag_le (roundNat (r1 - unit) 0)
  have tp := top_pos
  by_cases d2 : huge ≤ r2
  · rw [if_pos d2]
    split
    · exact le_refl _
    · split
      · omega
      · split <;> omega
  · have d1 : ¬ huge ≤ r1 := by omega
    rw [if_neg d2, if_neg d1]
    by_cases e2 : unit = r2
    · rw [if_pos e2]
      by_cases e1 : unit = r1
      · rw [if_pos e1]
      · rw [if_neg e1, if_pos (by omega)]; exact n1
    · rw [if_neg e2]
      by_cases f2 : r2 < unit
      · rw [if_pos f2, if_neg (by omega), if_pos (by omega)]
        exact mag_mono (roundNat_mono 0 (by omega))
      · rw [if_neg f2]
        by_cases e1 : unit = r1
        · rw [if_pos e1]; omega
        · rw [if_neg e1]
          by_cases f1 : r1 < unit
          · rw [if_pos f1]; omega
          · rw [if_neg f1]
            have := mag_mono (roundNat_mono 0 (show r1 - unit ≤ r2 - unit by omega))
            omega

end F64

/-! ## Scaling by a power of two -/

namespace F64

theorem ilog2_mul_pow (K j : Nat) (hK : 0 < K) (hlt : K * 2 ^ j < 2 ^ 8191) :
    ilog2 (K * 2 ^ j) = ilog2 K + j := by
  have hlb := ilog2_lb K hK
  have hKlt : K < 2 ^ 8191 :=
    lt_of_le_of_lt (Nat.le_mul_of_pos_right K (Nat.two_pow_pos j)) hlt
  have hL : ilog2 K < 8191 := by
    have := lt_of_le_of_lt hlb hKlt
    exact (Nat.pow_lt_pow_iff_right (a := 2) (by norm_num)).1 this
  have hub := ilog2_ub K hL
  have h1 : 2 ^ (ilog2 K + j) ≤ K * 2 ^ j := by
    rw [pow_add]; exact Nat.mul_le_mul_right _ hlb
  have h2 : K * 2 ^ j < 2 ^ (ilog2 K + j + 1) := by
    rw [show ilog2 K + j + 1 = ilog2 K + 1 + j by omega, pow_add]
    exact Nat.mul_lt_mul_of_lt_of_le hub (le_refl _) (Nat.two_pow_pos j)
  have h3 : ilog2 K + j < 8191 := by
    have := lt_of_le_of_lt h1 hlt
    exact (Nat.pow_lt_pow_iff_right (a := 2) (by norm_num)).1 this
  exact ilog2_eq _ _ h1 h2 (by omega)

theorem roundUp_scale (s j K : Nat) : roundUp (s + j) (K * 2 ^ j) = roundUp s K := by
  have hp : 0 < 2 ^ j := Nat.two_pow_pos j
  have e1 : K * 2 ^ j / 2 ^ (s + j) = K / 2 ^ s := by
    rw [pow_add]; exact Nat.mul_div_mul_right _ _ hp
  have e2 : K * 2 ^ j % 2 ^ (s + j) = K % 2 ^ s * 2 ^ j := by
    rw [pow_add]; exact Nat.mul_mod_mul_right _ _ _
  unfold roundUp
  rw [e1, e2]
  have e3 : (2 ^ (s + j) < 2 * (K % 2 ^ s * 2 ^ j)) ↔ (2 ^ s < 2 * (K % 2 ^ s)) := by
    rw [pow_add, ← Nat.mul_assoc]
    exact Nat.mul_lt_mul_right hp
  have e4 : (2 ^ (s + j) = 2 * (K % 2 ^ s * 2 ^ j)) ↔ (2 ^ s = 2 * (K % 2 ^ s)) := by
    rw [pow_add, ← Nat.mul_assoc]
    exact Nat.mul_left_inj (Nat.pos_iff_ne_zero.mp hp)
  simp only [e3, e4]

theorem roundShift_scale (s j K : Nat) : roundShift (s + j) (K * 2 ^ j) = roundShift s K := by
  have hp : 0 < 2 ^ j := Nat.two_pow_pos j
  have e1 : K * 2 ^ j / 2 ^ (s + j) = K / 2 ^ s := by
    rw [pow_add]; exact Nat.mul_div_mul_right _ _ hp
  unfold roundShift
  rw [roundUp_scale, e1]

/-- Rounding commutes with scaling by a power of two. -/
theorem roundNat_scale (K j : Nat) (hlt : K * 2 ^ j < 2 ^ 8191) :
    roundNat (K * 2 ^ j) 0 = roundNat K 0 * 2 ^ j := by
  rcases Nat.eq_zero_or_pos K with h0 | hK
  · subst h0; simp [roundNat_zero]
  · have hL := ilog2_mul_pow K j hK hlt
    by_cases h52 : 52 ≤ ilog2 K
    · have d1 : dropBits (K * 2 ^ j) 0 = dropBits K 0 + j := by
        unfold dropBits; rw [hL]; omega
      unfold roundNat
      rw [d1, roundShift_scale, Nat.sub_zero, Nat.sub_zero, pow_add, Nat.mul_assoc]
    · have hK53 : K < 2 ^ 53 := by
        have := ilog2_ub K (by omega)
        exact lt_of_lt_of_le this (Nat.pow_le_pow_right (by norm_num) (by omega))
      rw [roundNat_small hK53]
      have d1 : dropBits (K * 2 ^ j) 0 ≤ j := by
        unfold dropBits; rw [hL]; omega
      have hdiv : 2 ^ dropBits (K * 2 ^ j) 0 ∣ K * 2 ^ j :=
        Dvd.dvd.mul_left (Nat.pow_dvd_pow 2 d1) K
      unfold roundNat
      rw [roundShift_exact _ _ (Nat.mod_eq_zero_of_dvd hdiv), Nat.sub_zero,
        Nat.div_mul_cancel hdiv]

/-- Rounding `K*2^t / 2^t` is rounding `K`. -/
theorem roundNat_shift (K t : Nat) (hlt : K * 2 ^ t < 2 ^ 8191) :
    roundNat (K * 2 ^ t) t = roundNat K 0 := by
  rcases Nat.eq_zero_or_pos K with h0 | hK
  · subst h0; simp [roundNat_zero]
  · have hL := ilog2_mul_pow K t hK hlt
    have d1 : dropBits (K * 2 ^ t) t = dropBits K 0 + t := by
      unfold dropBits; rw [hL]; omega
    unfold roundNat
    rw [d1, roundShift_scale, Nat.add_sub_cancel, Nat.sub_zero]

/-- When the result is normal, rounding `K / 2^(t+j)` is rounding `K / 2^t`, scaled. -/
theorem roundNat_exp (K t j : Nat) (h : t + j ≤ ilog2 K - 52) :
    roundNat K t = roundNat K (t + j) * 2 ^ j := by
  have d1 : dropBits K t = ilog2 K - 52 := by unfold dropBits; omega
  have d2 : dropBits K (t + j) = ilog2 K - 52 := by unfold dropBits; omega
  have e : ilog2 K - 52 - t = ilog2 K - 52 - (t + j) + j := by omega
  unfold roundNat
  rw [d1, d2, Nat.mul_assoc, ← pow_add, ← e]

theorem lt_of_roundNat_lt (K B : Nat) (h : roundNat K 0 < B) : K < 2 * B := by
  rcases Nat.eq_zero_or_pos K with h0 | hK
  · subst h0; omega
  · have hlb := ilog2_lb K hK
    have hd : dropBits K 0 ≤ ilog2 K := by unfold dropBits; omega
    have hp : 0 < 2 ^ dropBits K 0 := Nat.two_pow_pos _
    have hq : 1 ≤ K / 2 ^ dropBits K 0 := by
      rw [Nat.le_div_iff_mul_le hp, Nat.one_mul]
      exact le_trans (Nat.pow_le_pow_right (by norm_num) hd) hlb
    have hR : K / 2 ^ dropBits K 0 * 2 ^ dropBits K 0 ≤ roundNat K 0 := by
      unfold roundNat
      rw [Nat.sub_zero]
      exact Nat.mul_le_mul_right _ (roundShift_ge _ _)
    have e := Nat.div_add_mod K (2 ^ dropBits K 0)
    have hr := Nat.mod_lt K hp
    have h1 : 2 ^ dropBits K 0 ≤ K / 2 ^ dropBits K 0 * 2 ^ dropBits K 0 :=
      Nat.le_mul_of_pos_left _ hq
    rw [Nat.mul_comm] at e
    omega

end F64

namespace F64

theorem huge_lt_pow : huge * 2 ^ 1074 < 2 ^ 8191 := by
  rw [huge_eq, ← pow_add]
  exact Nat.pow_lt_pow_right (by norm_num) (by norm_num)

theorem lt_huge_of_mul {k j : Nat} (h : k * 2 ^ j < huge) : k < huge :=
  lt_of_le_of_lt (Nat.le_mul_of_pos_right k (Nat.two_pow_pos j)) h

/-- Multiplying a representable magnitude by `2^j` is exact, up to overflow. -/
theorem mul_pow2 (j k : Nat) (hr : roundNat k 0 = k) :
    mul (pow2 j) (fin false k) = mk false (k * 2 ^ j) := by
  by_cases hlt : k * 2 ^ j < huge
  · have h1 : k * 2 ^ j * 2 ^ 1074 < 2 ^ 8191 :=
      lt_trans (Nat.mul_lt_mul_of_pos_right hlt (Nat.two_pow_pos _)) huge_lt_pow
    have h2 : k * 2 ^ j < 2 ^ 8191 :=
      lt_of_le_of_lt (Nat.le_mul_of_pos_right _ (Nat.two_pow_pos 1074)) h1
    have e : unit * 2 ^ j * k = k * 2 ^ j * 2 ^ 1074 := by
      rw [unit_eq, Nat.mul_comm (2 ^ 1074) (2 ^ j), Nat.mul_assoc, Nat.mul_comm (2 ^ 1074) k,
        ← Nat.mul_assoc, Nat.mul_comm (2 ^ j) k]
    simp only [mul, pow2, Bool.xor_false]
    rw [e, roundNat_shift _ _ h1, roundNat_scale _ _ h2, hr]
  · -- overflow on both sides
    have hge : huge ≤ k * 2 ^ j := Nat.le_of_not_lt hlt
    have e : unit * 2 ^ j * k = k * 2 ^ j * 2 ^ 1074 := by
      rw [unit_eq, Nat.mul_comm (2 ^ 1074) (2 ^ j), Nat.mul_assoc, Nat.mul_comm (2 ^ 1074) k,
        ← Nat.mul_assoc, Nat.mul_comm (2 ^ j) k]
    have hmono : roundNat (huge * 2 ^ 1074) 1074 ≤ roundNat (k * 2 ^ j * 2 ^ 1074) 1074 :=
      roundNat_mono 1074 (Nat.mul_le_mul_right _ hge)
    have hh : roundNat (huge * 2 ^ 1074) 1074 = huge := by
      rw [roundNat_shift _ _ huge_lt_pow, huge_eq]
      have := roundNat_rep (2 ^ 52) 2046 (le_refl _) (by norm_num) (by norm_num)
      rw [← pow_add] at this
      exact this
    have h3 : huge ≤ roundNat (k * 2 ^ j * 2 ^ 1074) 1074 := le_trans (le_of_eq hh.symm) hmono
    simp only [mul, pow2, Bool.xor_false]
    rw [e, mk, if_pos h3, mk, if_pos hge]

theorem quotient_scale (a b d j : Nat) :
    quotient a (b * 2 ^ j) (d + j) = quotient a b d := by
  have hp : 0 < 2 ^ j := Nat.two_pow_pos j
  have e1 : a * 2 ^ (d + j) = a * 2 ^ d * 2 ^ j := by rw [pow_add, Nat.mul_assoc]
  have e2 : a * 2 ^ d * 2 ^ j / (b * 2 ^ j) = a * 2 ^ d / b := Nat.mul_div_mul_right _ _ hp
  have e3 : a * 2 ^ d * 2 ^ j % (b * 2 ^ j) = a * 2 ^ d % b * 2 ^ j :=
    Nat.mul_mod_mul_right _ _ _
  have e4 : (a * 2 ^ d % b * 2 ^ j = 0) ↔ (a * 2 ^ d % b = 0) := by
    constructor
    · intro h
      rcases Nat.mul_eq_zero.mp h with h | h
      · exact h
      · omega
    · intro h; rw [h, Nat.zero_mul]
  unfold quotient
  rw [e1, e2, e3]
  simp only [e4]

theorem ilog2_pow (e : Nat) (he : e ≤ 8191) : ilog2 (2 ^ e) = e :=
  ilog2_eq _ _ (le_refl _) (Nat.pow_lt_pow_right (by norm_num) (by omega)) he

theorem quotient_ge (a : Nat) (ha : 0 < a) (hL : ilog2 a < 8191) :
    2 ^ 2274 ≤ quotient unit a (divBits + ilog2 a) := by
  have hub := ilog2_ub a hL
  have h1 : unit * 2 ^ (divBits + ilog2 a) / 2 ^ (ilog2 a + 1) ≤
      unit * 2 ^ (divBits + ilog2 a) / a :=
    Nat.div_le_div_left (le_of_lt hub) ha
  have h2 : unit * 2 ^ (divBits + ilog2 a) / 2 ^ (ilog2 a + 1) = 2 ^ 2273 := by
    rw [unit_eq, ← pow_add, show divBits = 1200 from rfl,
      show 1074 + (1200 + ilog2 a) = 2273 + (ilog2 a + 1) by omega, pow_add,
      Nat.mul_div_cancel _ (Nat.two_pow_pos _)]
  unfold quotient
  rw [h2] at h1
  have : (2 : Nat) ^ 2274 = 2 * 2 ^ 2273 := by rw [pow_succ]; omega
  omega

/-- The reciprocal of a scaled total is the scaled reciprocal, when the total is below
`2^1022`. -/
theorem div_one_scale (a j : Nat) (ha : 0 < a) (hlt : a * 2 ^ j < 2 ^ 2096) :
    ∃ R, div one (fin false (a * 2 ^ j)) = mk false R ∧
      div one (fin false a) = mk false (R * 2 ^ j) := by
  have hlt' : a * 2 ^ j < 2 ^ 8191 :=
    lt_trans hlt (Nat.pow_lt_pow_right (by norm_num) (by norm_num))
  have hL := ilog2_mul_pow a j ha hlt'
  have hL2 : ilog2 (a * 2 ^ j) < 2096 := by
    rcases ilog2_lt_of_lt hlt with h | h
    · exact h
    · have := Nat.mul_pos ha (Nat.two_pow_pos j); omega
  have ha0 : a ≠ 0 := Nat.pos_iff_ne_zero.mp ha
  have haj0 : a * 2 ^ j ≠ 0 := Nat.pos_iff_ne_zero.mp (Nat.mul_pos ha (Nat.two_pow_pos j))
  have hq := quotient_ge a ha (by omega)
  have hLK : 2274 ≤ ilog2 (quotient unit a (divBits + ilog2 a)) := by
    have := ilog2_mono hq
    rw [ilog2_pow 2274 (by norm_num)] at this
    exact this
  have hd : divBits = 1200 := rfl
  have ht : divBits + ilog2 a + 1 - 1074 + j ≤
      ilog2 (quotient unit a (divBits + ilog2 a)) - 52 := by
    clear hq hlt hlt'
    omega
  have ht2 : divBits + ilog2 a + j + 1 - 1074 = divBits + ilog2 a + 1 - 1074 + j := by
    clear hq hlt hlt'
    omega
  refine ⟨roundNat (quotient unit a (divBits + ilog2 a))
    (divBits + ilog2 a + 1 - 1074 + j), ?_, ?_⟩
  · simp only [div, one, if_neg haj0, Bool.xor_false]
    rw [hL, show divBits + (ilog2 a + j) = divBits + ilog2 a + j from (Nat.add_assoc _ _ _).symm,
      quotient_scale, ht2]
  · simp only [div, one, if_neg ha0, Bool.xor_false]
    rw [← roundNat_exp _ _ _ ht]

end F64

/-! ## Closed form of the loops of `ROC` -/

theorem forLoop_inv {σ : Type} (body : Nat → σ → Option σ) (Inv : Nat → σ → Prop) :
    ∀ (n lo : Nat) (s : σ), Inv lo s →
      (∀ i s, lo ≤ i → i < lo + n → Inv i s → ∃ s', body i s = some s' ∧ Inv (i + 1) s') →
      ∃ s', forLoop body n lo s = some s' ∧ Inv (lo + n) s' := by
  intro n
  induction n with
  | zero => intro lo s h _; exact ⟨s, rfl, by simpa using h⟩
  | succ n ih =>
    intro lo s h hstep
    obtain ⟨s1, h1, hI1⟩ := hstep lo s (Nat.le_refl _) (by omega) h
    obtain ⟨s2, h2, hI2⟩ := ih (lo + 1) s1 hI1 (fun i s hi hlt hI => hstep i s (by omega) (by omega) hI)
    refine ⟨s2, ?_, ?_⟩
    · simp [forLoop, h1, h2]
    · have : lo + (n + 1) = lo + 1 + n := by omega
      rw [this]; exact hI2

theorem setAt_eq {α : Type} (l : List α) (i : Nat) (v : α) (h : i < l.length) :
    setAt l i v = some (l.set i v) := by
  simp [setAt, h]

theorem weightAt_isSome (classes : List Bool) (weights : Option (List F64))
    (hw : lengthMismatch classes weights = false) (i : Nat) (hi : i < classes.length) :
    ∃ w, weightAt weights i = some w := by
  cases weights with
  | none => exact ⟨F64.one, rfl⟩
  | some ws =>
    simp [lengthMismatch] at hw
    have : i < ws.length := by omega
    exact ⟨ws[i], by simp [weightAt, this]⟩

theorem sweepBody_eq (classes : List Bool) (weights : Option (List F64)) (i : Nat) (st : RocState)
    (u : Bool) (t f w : F64) (hu : classes[i]? = some u) (ht : st.tpr[i]? = some t)
    (hf : st.fpr[i]? = some f) (hw : weightAt weights i = some w)
    (hlt : i + 1 < st.tpr.length) (hlf : i + 1 < st.fpr.length) :
    sweepBody classes weights i st = some
      (if u then
        { tpr := st.tpr.set (i + 1) (F64.add t w), fpr := st.fpr.set (i + 1) f,
          nPos := F64.add st.nPos w, nNeg := st.nNeg }
      else
        { tpr := st.tpr.set (i + 1) t, fpr := st.fpr.set (i + 1) (F64.add f w),
          nPos := st.nPos, nNeg := F64.add st.nNeg w }) := by
  cases u <;> simp [sweepBody, hu, ht, hf, hw, setAt, hlt, hlf]

theorem cum_succ_of_eq (classes : List Bool) (weights : Option (List F64)) (b : Bool) (m : Nat)
    (w : F64) (hc : classes[m]? = some b) (hw : weightAt weights m = some w) :
    cum classes weights b (m + 1) = F64.add (cum classes weights b m) w := by
  simp [cum, hc, hw]

theorem cum_succ_of_ne (classes : List Bool) (weights : Option (List F64)) (b : Bool) (m : Nat)
    (hc : classes[m]? = some (!b)) :
    cum classes weights b (m + 1) = cum classes weights b m := by
  cases b <;> simp [cum, hc]

theorem set_succ_inv (l : List F64) (g : Nat → F64) (N i : Nat) (v : F64)
    (hl : l.length = N + 1) (hi : i < N)
    (h : ∀ m, m ≤ N → l[m]? = some (if m ≤ i then g m else F64.zero)) (hv : v = g (i + 1)) :
    ∀ m, m ≤ N → (l.set (i + 1) v)[m]? = some (if m ≤ i + 1 then g m else F64.zero) := by
  intro m hm
  rw [List.getElem?_set]
  by_cases hm1 : i + 1 = m
  · subst hm1; simp [hl, hv, hi]
  · rw [if_neg hm1, h m hm]
    by_cases hm2 : m ≤ i
    · simp [hm2, Nat.le_succ_of_le hm2]
    · have : ¬ m ≤ i + 1 := by omega
      simp [hm2, this]

theorem sweepBody_inv (classes : List Bool) (weights : Option (List F64))
    (hw : lengthMismatch classes weights = false) (i : Nat) (st : RocState)
    (hi : i < classes.length) (h : SweepInv classes weights i st) :
    ∃ st', sweepBody classes weights i st = some st' ∧ SweepInv classes weights (i + 1) st' := by
  obtain ⟨hlt, hlf, hP, hN, ht, hf⟩ := h
  obtain ⟨w, hwi⟩ := weightAt_isSome classes weights hw i hi
  have hu : classes[i]? = some classes[i] := by simp [hi]
  have hti := ht i (by omega)
  have hfi := hf i (by omega)
  simp only [Nat.le_refl, if_true] at hti hfi
  refine ⟨_, sweepBody_eq classes weights i st _ _ _ w hu hti hfi hwi (by omega) (by omega), ?_⟩
  cases hc : classes[i] with
  | true =>
    rw [hc] at hu
    have e1 := cum_succ_of_eq classes weights true i w hu hwi
    have e2 := cum_succ_of_ne classes weights false i (by simpa using hu)
    refine ⟨by simp [hlt], by simp [hlf], by simp [e1, hP], by simp [e2, hN], ?_, ?_⟩
    · simpa using set_succ_inv st.tpr _ _ i _ hlt hi ht e1.symm
    · simpa using set_succ_inv st.fpr _ _ i _ hlf hi hf e2.symm
  | false =>
    rw [hc] at hu
    have e1 := cum_succ_of_eq classes weights false i w hu hwi
    have e2 := cum_succ_of_ne classes weights true i (by simpa using hu)
    refine ⟨by simp [hlt], by simp [hlf], by simp [e2, hP], by simp [e1, hN], ?_, ?_⟩
    · simpa using set_succ_inv st.tpr _ _ i _ hlt hi ht e2.symm
    · simpa using set_succ_inv st.fpr _ _ i _ hlf hi hf e1.symm

theorem ext_of_getElem? (l : List F64) (g : Nat → F64) (N : Nat) (hl : l.length = N + 1)
    (h : ∀ m, m ≤ N → l[m]? = some (g m)) : l = (List.range (N + 1)).map g := by
  apply List.ext_getElem?
  intro m
  by_cases hm : m ≤ N
  · rw [h m hm]; simp [Nat.lt_succ_of_le hm]
  · have h1 : l.length ≤ m := by omega
    have h2 : ((List.range (N + 1)).map g).length ≤ m := by simp; omega
    rw [List.getElem?_eq_none h1, List.getElem?_eq_none h2]

theorem sweep_eq (classes : List Bool) (weights : Option (List F64))
    (hw : lengthMismatch classes weights = false) :
    ∃ st, forLoop (sweepBody classes weights) classes.length 0
        { tpr := List.replicate (classes.length + 1) F64.zero
          fpr := List.replicate (classes.length + 1) F64.zero
          nPos := F64.zero, nNeg := F64.zero } = some st ∧
      st.tpr = (List.range (classes.length + 1)).map (cum classes weights true) ∧
      st.fpr = (List.range (classes.length + 1)).map (cum classes weights false) ∧
      st.nPos = total classes weights true ∧ st.nNeg = total classes weights false := by
  have h0 : SweepInv classes weights 0
      { tpr := List.replicate (classes.length + 1) F64.zero
        fpr := List.replicate (classes.length + 1) F64.zero
        nPos := F64.zero, nNeg := F64.zero } := by
    refine ⟨by simp, by simp, rfl, rfl, ?_, ?_⟩ <;>
    · intro m hm
      have : m < classes.length + 1 := by omega
      by_cases h0 : m = 0
      · subst h0; simp [cum]
      · have : ¬ m ≤ 0 := by omega
        simp [*]
  obtain ⟨st, hst, hlt, hlf, hP, hN, ht, hf⟩ :=
    forLoop_inv (sweepBody classes weights) (SweepInv classes weights) classes.length 0 _ h0
      (fun i s _ hi hI => sweepBody_inv classes weights hw i s (by omega) hI)
  simp only [Nat.zero_add] at hP hN ht hf
  refine ⟨st, hst, ?_, ?_, hP, hN⟩
  · exact ext_of_getElem? _ _ _ hlt (fun m hm => by rw [ht m hm, if_pos hm])
  · exact ext_of_getElem? _ _ _ hlf (fun m hm => by rw [hf m hm, if_pos hm])

theorem set_norm_inv (l : List F64) (g h : Nat → F64) (N i : Nat)
    (hl : l.length = N + 1) (hi : i ≤ N)
    (hI : ∀ m, m ≤ N → l[m]? = some (if m < i then h m else g m)) :
    ∀ m, m ≤ N → (l.set i (h i))[m]? = some (if m < i + 1 then h m else g m) := by
  intro m hm
  rw [List.getElem?_set]
  by_cases hm1 : i = m
  · subst hm1; simp [hl, Nat.lt_succ_of_le hi]
  · rw [if_neg hm1, hI m hm]
    by_cases hm2 : m < i
    · simp [hm2, Nat.lt_succ_of_lt hm2]
    · have : ¬ m < i + 1 := by omega
      simp [hm2, this]

theorem normBody_inv (invPos invNeg : F64) (t0 f0 : Nat → F64) (N i : Nat)
    (p : List F64 × List F64) (hi : i ≤ N) (h : NormInv invPos invNeg t0 f0 N i p) :
    ∃ p', normBody invPos invNeg i p = some p' ∧ NormInv invPos invNeg t0 f0 N (i + 1) p' := by
  obtain ⟨hlt, hlf, ht, hf⟩ := h
  have hti := ht i hi
  have hfi := hf i hi
  simp only [Nat.lt_irrefl, if_false] at hti hfi
  refine ⟨(p.1.set i (complement invPos (t0 i)), p.2.set i (complement invNeg (f0 i))), ?_, ?_⟩
  · simp [normBody, hti, hfi, setAt, hlt, hlf, Nat.lt_succ_of_le hi, complement]
  · exact ⟨by simp [hlt], by simp [hlf],
      set_norm_inv p.1 t0 (fun m => complement invPos (t0 m)) N i hlt hi ht,
      set_norm_inv p.2 f0 (fun m => complement invNeg (f0 m)) N i hlf hi hf⟩

theorem norm_eq (invPos invNeg : F64) (t0 f0 : Nat → F64) (N : Nat) :
    forLoop (normBody invPos invNeg) (N + 1) 0
        ((List.range (N + 1)).map t0, (List.range (N + 1)).map f0) =
      some ((List.range (N + 1)).map (fun m => complement invPos (t0 m)),
            (List.range (N + 1)).map (fun m => complement invNeg (f0 m))) := by
  have h0 : NormInv invPos invNeg t0 f0 N 0
      ((List.range (N + 1)).map t0, (List.range (N + 1)).map f0) := by
    refine ⟨by simp, by simp, ?_, ?_⟩ <;>
    · intro m hm
      simp [Nat.lt_succ_of_le hm]
  obtain ⟨p, hp, hlt, hlf, ht, hf⟩ :=
    forLoop_inv (normBody invPos invNeg) (NormInv invPos invNeg t0 f0 N) (N + 1) 0 _ h0
      (fun i s _ hi hI => normBody_inv invPos invNeg t0 f0 N i s (by omega) hI)
  rw [hp]
  have e1 := ext_of_getElem? p.1 (fun m => complement invPos (t0 m)) N hlt
    (fun m hm => by rw [ht m hm, if_pos (by omega)])
  have e2 := ext_of_getElem? p.2 (fun m => complement invNeg (f0 m)) N hlf
    (fun m hm => by rw [hf m hm, if_pos (by omega)])
  rw [← e1, ← e2]

theorem swapAt_inv (l0 l : List F64) (i : Nat) (hij : i < l0.length - 1 - i)
    (h : RevInv l0 i l) :
    ∃ l', swapAt l i (l0.length - 1 - i) = some l' ∧ RevInv l0 (i + 1) l' := by
  obtain ⟨hl, hx⟩ := h
  have hi : i < l0.length := by omega
  have hj : l0.length - 1 - i < l0.length := by omega
  have e1 := hx i hi
  have e2 := hx (l0.length - 1 - i) hj
  rw [if_neg (by omega)] at e1 e2
  have e1' : l[i]? = some l0[i] := by rw [e1]; simp [hi]
  have e2' : l[l0.length - 1 - i]? = some (l0[l0.length - 1 - i]) := by rw [e2]; simp [hj]
  refine ⟨(l.set i (l0[l0.length - 1 - i])).set (l0.length - 1 - i) l0[i], ?_, ?_⟩
  · simp [swapAt, e1', e2', setAt, hl, hi, hj]
  · refine ⟨by simp [hl], ?_⟩
    intro x hxl
    rw [List.getElem?_set, List.getElem?_set]
    by_cases c1 : l0.length - 1 - i = x
    · have e3 : l0.length - 1 - x = i := by omega
      have e4 : (x < i + 1 ∨ l0.length - 1 - (i + 1) < x) := by omega
      rw [if_pos c1, if_pos (by simp [hl, hj]), if_pos e4, e3]
      simp [hi]
    · rw [if_neg c1]
      by_cases c2 : i = x
      · have e4 : (x < i + 1 ∨ l0.length - 1 - (i + 1) < x) := by omega
        rw [if_pos c2, if_pos (by simp [hl, hi]), if_pos e4, ← c2]
        simp [hj]
      · rw [if_neg c2, hx x hxl]
        by_cases c3 : x < i ∨ l0.length - 1 - i < x
        · rw [if_pos c3, if_pos (by omega)]
        · rw [if_neg c3, if_neg (by omega)]

theorem swapLoop_inv (a0 b0 : List F64) (hab : a0.length = b0.length) :
    ∀ (fuel i : Nat) (a b : List F64), a0.length ≤ 2 * (i + fuel) + 1 →
      RevInv a0 i a → RevInv b0 i b →
      swapLoop fuel i (a0.length - 1 - i) (a, b) = some (a0.reverse, b0.reverse) := by
  have fin_ : ∀ (l0 l : List F64) (i : Nat), ¬ i < l0.length - 1 - i → RevInv l0 i l →
      l = l0.reverse := by
    intro l0 l i hij h
    obtain ⟨hl, hx⟩ := h
    apply List.ext_getElem?
    intro x
    by_cases hxl : x < l0.length
    · rw [hx x hxl, List.getElem?_reverse hxl]
      by_cases c : x < i ∨ l0.length - 1 - i < x
      · rw [if_pos c]
      · rw [if_neg c]
        have : l0.length - 1 - x = x := by omega
        rw [this]
    · have h1 : l.length ≤ x := by omega
      have h2 : l0.reverse.length ≤ x := by simp; omega
      rw [List.getElem?_eq_none h1, List.getElem?_eq_none h2]
  intro fuel
  induction fuel with
  | zero =>
    intro i a b hf ha hb
    have hij : ¬ i < a0.length - 1 - i := by omega
    simp only [swapLoop, if_neg hij]
    rw [fin_ a0 a i hij ha, fin_ b0 b i (by rw [← hab]; exact hij) hb]
  | succ fuel ih =>
    intro i a b hf ha hb
    by_cases hij : i < a0.length - 1 - i
    · obtain ⟨a', ha1, ha2⟩ := swapAt_inv a0 a i hij ha
      obtain ⟨b', hb1, hb2⟩ := swapAt_inv b0 b i (by rw [← hab]; exact hij) hb
      rw [← hab] at hb1
      have e : a0.length - 1 - i - 1 = a0.length - 1 - (i + 1) := by omega
      simp only [swapLoop, if_pos hij, ha1, hb1, Option.bind_some, e]
      exact ih (i + 1) a' b' (by omega) ha2 hb2
    · simp only [swapLoop, if_neg hij]
      rw [fin_ a0 a i hij ha, fin_ b0 b i (by rw [← hab]; exact hij) hb]

theorem swapLoop_eq (a0 b0 : List F64) (hab : a0.length = b0.length) :
    swapLoop a0.length 0 (a0.length - 1) (a0, b0) = some (a0.reverse, b0.reverse) := by
  have h := swapLoop_inv a0 b0 hab a0.length 0 a0 b0 (by omega)
    ⟨rfl, fun x _ => by rw [if_neg (by omega)]⟩ ⟨rfl, fun x _ => by rw [if_neg (by omega)]⟩
  simpa using h

theorem reverse_range_map (g : Nat → F64) (N : Nat) :
    ((List.range (N + 1)).map g).reverse = (List.range (N + 1)).map (fun k => g (N - k)) := by
  apply List.ext_getElem?
  intro x
  by_cases hx : x < N + 1
  · rw [List.getElem?_reverse (by simpa using hx)]
    have h3 : N + 1 - 1 - x = N - x := by omega
    have h4 : N - x < N + 1 := by omega
    simp [hx, h3, h4]
  · have h1 : ((List.range (N + 1)).map g).reverse.length ≤ x := by simp; omega
    have h2 : ((List.range (N + 1)).map (fun k => g (N - k))).length ≤ x := by simp; omega
    rw [List.getElem?_eq_none h1, List.getElem?_eq_none h2]

/-- Closed form of `ROC`: on a call that passes the length check with `N ≥ 1` labels, entry `k`
of each output is `rate k`, for `k = 0..N`. -/
theorem ROC_eq (classes : List Bool) (weights : Option (List F64))
    (hw : lengthMismatch classes weights = false) (hN : classes.length ≠ 0) :
    ROC classes weights =
      some ((List.range (classes.length + 1)).map (rate classes weights true),
            (List.range (classes.length + 1)).map (rate classes weights false)) := by
  obtain ⟨st, hst, ht, hf, hP, hNeg⟩ := sweep_eq classes weights hw
  have hlen : st.tpr.length = classes.length + 1 := by rw [ht]; simp
  simp only [ROC, hw, hN, hst, Bool.false_eq_true, if_false, Option.bind_eq_bind,
    Option.some_bind, hlen]
  rw [ht, hf, norm_eq, Option.some_bind]
  have hl : ((List.range (classes.length + 1)).map
      (fun m => complement (F64.div F64.one st.nPos) (cum classes weights true m))).length =
      classes.length + 1 := by simp
  have h := swapLoop_eq
    ((List.range (classes.length + 1)).map
      (fun m => complement (F64.div F64.one st.nPos) (cum classes weights true m)))
    ((List.range (classes.length + 1)).map
      (fun m => complement (F64.div F64.one st.nNeg) (cum classes weights false m)))
    (by simp)
  rw [hl] at h
  simp only [hl]
  rw [h, reverse_range_map, reverse_range_map, hP, hNeg]
  rfl

/-! ## Running sums of nonnegative weights -/

namespace F64

theorem unit_pos : 0 < unit := by rw [unit_eq]; exact Nat.two_pow_pos _

theorem le_zero_cases (w : F64) (h : le zero w = true) :
    w = inf false ∨ (∃ b, w = fin false b) ∨ w = fin true 0 := by
  cases w with
  | nan => simp [le, isNaN] at h
  | inf s =>
    cases s with
    | false => exact Or.inl rfl
    | true =>
      have := top_pos
      simp [le, isNaN, ord, zero] at h
      omega
  | fin s b =>
    cases s with
    | false => exact Or.inr (Or.inl ⟨b, rfl⟩)
    | true =>
      simp [le, isNaN, ord, zero] at h
      have : b = 0 := by omega
      subst this
      exact Or.inr (Or.inr rfl)

theorem mk_of_lt {s : Bool} {r : Nat} (h : r < huge) : mk s r = fin s r := by
  simp [mk, Nat.not_le.mpr h]

theorem mk_cases (s : Bool) (r : Nat) : (mk s r = inf s ∧ huge ≤ r) ∨ (mk s r = fin s r ∧ r < huge) := by
  by_cases h : huge ≤ r
  · left; simp [mk, h]
  · right; exact ⟨mk_of_lt (by omega), by omega⟩

/-- Adding a nonnegative weight to a running sum does not decrease it. -/
theorem add_nonneg (a : Nat) (w : F64) (ha : a < huge) (hr : roundNat a 0 = a)
    (hw : le zero w = true) :
    add (fin false a) w = inf false ∨
      ∃ a', add (fin false a) w = fin false a' ∧ a ≤ a' ∧ a' < huge ∧ roundNat a' 0 = a' := by
  rcases le_zero_cases w hw with rfl | ⟨b, rfl⟩ | rfl
  · left; rfl
  · have e : add (fin false a) (fin false b) = mk false (roundNat (a + b) 0) := by simp [add]
    rw [e]
    rcases mk_cases false (roundNat (a + b) 0) with ⟨h1, _⟩ | ⟨h1, h2⟩
    · left; exact h1
    · right
      refine ⟨_, h1, ?_, h2, roundNat_idem _ h2⟩
      calc a = roundNat a 0 := hr.symm
        _ ≤ roundNat (a + b) 0 := roundNat_mono 0 (Nat.le_add_right a b)
  · right
    by_cases h0 : a = 0
    · subst h0; exact ⟨0, by simp [add], le_refl _, ha, hr⟩
    · refine ⟨a, ?_, le_refl _, ha, hr⟩
      have h1 : 0 < a := Nat.pos_of_ne_zero h0
      simp [add, h0, h1, hr, mk_of_lt ha]

theorem add_inf_nonneg (w : F64) (hw : le zero w = true) : add (inf false) w = inf false := by
  rcases le_zero_cases w hw with rfl | ⟨b, rfl⟩ | rfl <;> rfl

theorem le_zero_one : le zero one = true := by
  have := unit_pos
  simp [le, isNaN, ord, zero, one]

theorem le_zero_zero : le zero zero = true := by
  simp [le, isNaN, ord, zero]

end F64

theorem weight_nonneg (weights : Option (List F64)) (hw : NonNegWeights weights) (m : Nat) :
    F64.le F64.zero ((weightAt weights m).getD F64.zero) = true := by
  cases weights with
  | none => exact F64.le_zero_one
  | some ws =>
    simp only [weightAt]
    cases h : ws[m]? with
    | none => exact F64.le_zero_zero
    | some w => exact hw ws rfl w (List.getElem?_mem h)

theorem cum_succ_cases (classes : List Bool) (weights : Option (List F64)) (b : Bool) (m : Nat) :
    cum classes weights b (m + 1) = cum classes weights b m ∨
    cum classes weights b (m + 1) =
      F64.add (cum classes weights b m) ((weightAt weights m).getD F64.zero) := by
  by_cases h : classes[m]? = some b
  · right; simp [cum, h]
  · left; simp [cum, h]

theorem cum_isSum (classes : List Bool) (weights : Option (List F64)) (b : Bool)
    (hw : NonNegWeights weights) : ∀ m, IsSum (cum classes weights b m) := by
  intro m
  induction m with
  | zero => exact Or.inr ⟨0, rfl, by rw [F64.huge_eq]; exact Nat.two_pow_pos _, F64.roundNat_zero 0⟩
  | succ m ih =>
    rcases cum_succ_cases classes weights b m with e | e
    · rw [e]; exact ih
    · rw [e]
      rcases ih with h | ⟨a, h, ha, hr⟩
      · rw [h, F64.add_inf_nonneg _ (weight_nonneg weights hw m)]; exact Or.inl rfl
      · rw [h]
        rcases F64.add_nonneg a _ ha hr (weight_nonneg weights hw m) with h1 | ⟨a', h1, _, h2, h3⟩
        · exact Or.inl h1
        · exact Or.inr ⟨a', h1, h2, h3⟩

theorem cum_inf_succ (classes : List Bool) (weights : Option (List F64)) (b : Bool)
    (hw : NonNegWeights weights) (m : Nat) (h : cum classes weights b m = F64.inf false) :
    cum classes weights b (m + 1) = F64.inf false := by
  rcases cum_succ_cases classes weights b m with e | e
  · rw [e, h]
  · rw [e, h, F64.add_inf_nonneg _ (weight_nonneg weights hw m)]

theorem cum_inf_add (classes : List Bool) (weights : Option (List F64)) (b : Bool)
    (hw : NonNegWeights weights) (m : Nat) (h : cum classes weights b m = F64.inf false) :
    ∀ j, cum classes weights b (m + j) = F64.inf false := by
  intro j
  induction j with
  | zero => exact h
  | succ j ih => exact cum_inf_succ classes weights b hw (m + j) ih

/-- When the total is finite, so is every running sum. -/
theorem cum_fin (classes : List Bool) (weights : Option (List F64)) (b : Bool)
    (hw : NonNegWeights weights) (hT : (total classes weights b).isFinite = true)
    (m : Nat) (hm : m ≤ classes.length) :
    ∃ a, cum classes weights b m = F64.fin false a ∧ a < F64.huge ∧ F64.roundNat a 0 = a := by
  rcases cum_isSum classes weights b hw m with h | h
  · have := cum_inf_add classes weights b hw m h (classes.length - m)
    rw [Nat.add_sub_cancel' hm] at this
    rw [total, this] at hT
    simp [F64.isFinite] at hT
  · exact h

/-- Consecutive running sums are ordered. -/
theorem cum_step_le (classes : List Bool) (weights : Option (List F64)) (b : Bool)
    (hw : NonNegWeights weights) (m : Nat) (a a' : Nat)
    (h1 : cum classes weights b m = F64.fin false a)
    (h2 : cum classes weights b (m + 1) = F64.fin false a') : a ≤ a' := by
  rcases cum_succ_cases classes weights b m with e | e
  · rw [e, h1] at h2; injection h2 with _ h3; omega
  · rcases cum_isSum classes weights b hw m with h | ⟨a0, h, ha, hr⟩
    · rw [h] at h1; cases h1
    · rw [h] at h1; injection h1 with _ h1; subst h1
      rw [e, h] at h2
      rcases F64.add_nonneg a0 _ ha hr (weight_nonneg weights hw m) with h3 | ⟨a1, h3, h4, _, _⟩
      · rw [h3] at h2; cases h2
      · rw [h3] at h2; injection h2 with _ h2; omega

theorem inv_fin (T : F64) (hT : IsSum T) (h : (F64.div F64.one T).isFinite = true) :
    ∃ c, F64.div F64.one T = F64.fin false c := by
  rcases hT with rfl | ⟨a, rfl, _, _⟩
  · exact ⟨0, rfl⟩
  · have hu : F64.unit ≠ 0 := Nat.pos_iff_ne_zero.mp F64.unit_pos
    by_cases h0 : a = 0
    · subst h0; simp [F64.div, F64.one, hu, F64.isFinite] at h
    · simp only [F64.div, F64.one, if_neg h0] at h ⊢
      rcases F64.mk_cases (xor false false)
        (F64.roundNat (F64.quotient F64.unit a (F64.divBits + F64.ilog2 a))
          (F64.divBits + F64.ilog2 a + 1 - 1074))
        with ⟨h1, _⟩ | ⟨h1, _⟩
      · rw [h1] at h; simp [F64.isFinite] at h
      · exact ⟨_, h1⟩

theorem complement_antitone (c a1 a2 : Nat) (h : a1 ≤ a2) :
    F64.le (complement (F64.fin false c) (F64.fin false a2))
      (complement (F64.fin false c) (F64.fin false a1)) = true := by
  have e : ∀ a, complement (F64.fin false c) (F64.fin false a) =
      F64.sub F64.one (F64.mk false (F64.roundNat (a * c) 1074)) := by
    intro a; simp [complement, F64.mul]
  rw [e, e]
  exact F64.sub_one_mk_antitone (F64.roundNat_mono 1074 (Nat.mul_le_mul_right c h))

/-- Monotonicity of one output of `ROC`, in closed form. -/
theorem rate_mono (classes : List Bool) (weights : Option (List F64)) (b : Bool)
    (hw : NonNegWeights weights) (hT : (total classes weights b).isFinite = true)
    (hI : (F64.div F64.one (total classes weights b)).isFinite = true)
    (k : Nat) (hk : k < classes.length) :
    F64.le (rate classes weights b k) (rate classes weights b (k + 1)) = true := by
  obtain ⟨c, hc⟩ := inv_fin _ (cum_isSum classes weights b hw classes.length) hI
  obtain ⟨a1, h1, _, _⟩ := cum_fin classes weights b hw hT (classes.length - (k + 1)) (by omega)
  obtain ⟨a2, h2, _, _⟩ := cum_fin classes weights b hw hT (classes.length - k) (by omega)
  have e : classes.length - k = classes.length - (k + 1) + 1 := by omega
  have hle : a1 ≤ a2 := by
    rw [e] at h2
    exact cum_step_le classes weights b hw _ a1 a2 h1 h2
  unfold rate total
  rw [h1, h2, hc]
  exact complement_antitone c a1 a2 hle

theorem cum_le_add (classes : List Bool) (weights : Option (List F64)) (b : Bool)
    (hw : NonNegWeights weights) (hT : (total classes weights b).isFinite = true) :
    ∀ (j m a a' : Nat), m + j ≤ classes.length → cum classes weights b m = F64.fin false a →
      cum classes weights b (m + j) = F64.fin false a' → a ≤ a' := by
  intro j
  induction j with
  | zero =>
    intro m a a' _ h1 h2
    rw [Nat.add_zero, h1] at h2; injection h2 with _ h2; omega
  | succ j ih =>
    intro m a a' hm h1 h2
    obtain ⟨a1, h3, _, _⟩ := cum_fin classes weights b hw hT (m + j) (by omega)
    have := ih m a a1 (by omega) h1 h3
    have := cum_step_le classes weights b hw (m + j) a1 a' h3 h2
    omega

theorem total_zero (classes : List Bool) (weights : Option (List F64)) (b : Bool)
    (hw : NonNegWeights weights) (h0 : F64.eq (total classes weights b) F64.zero = true) :
    total classes weights b = F64.fin false 0 := by
  rcases cum_isSum classes weights b hw classes.length with h | ⟨a, h, _, _⟩
  · have := F64.top_pos
    rw [total, h] at h0
    simp [F64.eq, F64.isNaN, F64.ord, F64.zero] at h0
    omega
  · rw [total, h] at h0 ⊢
    simp [F64.eq, F64.isNaN, F64.ord, F64.zero] at h0
    rw [h0]

theorem complement_zero_nan :
    complement (F64.div F64.one (F64.fin false 0)) (F64.fin false 0) = F64.nan := by
  have hu : F64.unit ≠ 0 := Nat.pos_iff_ne_zero.mp F64.unit_pos
  simp [complement, F64.div, F64.one, hu, F64.mul, F64.sub, F64.neg, F64.add]

/-- With a zero total, every entry of the output is NaN. -/
theorem rate_nan (classes : List Bool) (weights : Option (List F64)) (b : Bool)
    (hw : NonNegWeights weights) (h0 : F64.eq (total classes weights b) F64.zero = true)
    (k : Nat) : rate classes weights b k = F64.nan := by
  have hT := total_zero classes weights b hw h0
  have hfin : (total classes weights b).isFinite = true := by rw [hT]; rfl
  obtain ⟨a, ha, _, _⟩ := cum_fin classes weights b hw hfin (classes.length - k) (by omega)
  have hle := cum_le_add classes weights b hw hfin (classes.length - (classes.length - k))
    (classes.length - k) a 0 (by omega) ha (by
      rw [show classes.length - k + (classes.length - (classes.length - k)) = classes.length by
        omega]
      exact hT)
  have : a = 0 := by omega
  subst this
  unfold rate
  rw [hT, ha]
  exact complement_zero_nan

theorem cum_absent (classes : List Bool) (weights : Option (List F64)) (b : Bool)
    (h : ∀ c ∈ classes, c ≠ b) : ∀ m, cum classes weights b m = F64.zero := by
  intro m
  induction m with
  | zero => rfl
  | succ m ih =>
    have : ¬ classes[m]? = some b := by
      intro e
      exact h b (List.getElem?_mem e) rfl
    simp [cum, this, ih]

theorem weightAt_ones (n i : Nat) (hi : i < n) :
    weightAt (some (List.replicate n F64.one)) i = weightAt none i := by
  simp [weightAt, hi]

theorem cum_congr (classes : List Bool) (w1 w2 : Option (List F64)) (b : Bool)
    (h : ∀ i, i < classes.length → weightAt w1 i = weightAt w2 i) :
    ∀ m, cum classes w1 b m = cum classes w2 b m := by
  intro m
  induction m with
  | zero => rfl
  | succ m ih =>
    by_cases hc : classes[m]? = some b
    · have hm : m < classes.length := by
        by_contra hlt
        rw [List.getElem?_eq_none (by omega)] at hc
        cases hc
      simp [cum, hc, ih, h m hm]
    · simp [cum, hc, ih]

theorem rate_congr (classes : List Bool) (w1 w2 : Option (List F64)) (b : Bool)
    (h : ∀ i, i < classes.length → weightAt w1 i = weightAt w2 i) (k : Nat) :
    rate classes w1 b k = rate classes w2 b k := by
  unfold rate total
  rw [cum_congr classes w1 w2 b h, cum_congr classes w1 w2 b h]

theorem lengthMismatch_false (classes : List Bool) (weights : Option (List F64))
    (h : ROC classes weights ≠ none) : lengthMismatch classes weights = false := by
  by_contra hc
  have : lengthMismatch classes weights = true := by simpa using hc
  exact h (by simp [ROC, this])

theorem ROC_nil (weights : Option (List F64)) (h : lengthMismatch [] weights = false) :
    ROC [] weights = some ([], []) := by
  simp [ROC, h]

/-- Entry `k` of the closed form. -/
theorem getElem?_range_map (g : Nat → F64) (N k : Nat) (hk : k ≤ N) :
    ((List.range (N + 1)).map g)[k]? = some (g k) := by
  simp [Nat.lt_succ_of_le hk]

/-! ## Claims on `stat.ROC` -/

theorem lengthMismatch_of_lengths (classes : List Bool) (weights : Option (List F64))
    (hw : ∀ ws, weights = some ws → ws.length = classes.length) :
    lengthMismatch classes weights = false := by
  cases weights with
  | none => rfl
  | some ws => simp [lengthMismatch, hw ws rfl]

theorem roundNat_unit : F64.roundNat F64.unit 0 = F64.unit := by
  have h := F64.roundNat_rep (2 ^ 52) 1022 (le_refl _) (by norm_num) (by norm_num)
  rw [← pow_add] at h
  rw [F64.unit_eq]
  exact h

theorem complement_zero_fin (s : Bool) (c : Nat) :
    complement (F64.fin s c) F64.zero = F64.one := by
  have h0 : (0 : Nat) < F64.huge := by rw [F64.huge_eq]; exact Nat.two_pow_pos _
  have hu := F64.unit_pos
  have hu0 : F64.unit ≠ 0 := Nat.pos_iff_ne_zero.mp hu
  have hul := F64.unit_lt_huge
  have e : F64.mul F64.zero (F64.fin s c) = F64.fin s 0 := by
    simp [F64.mul, F64.zero, F64.roundNat_zero, F64.mk_of_lt h0]
  rw [complement, e]
  cases s <;>
    simp [F64.sub, F64.neg, F64.one, F64.add, hu0, hu, roundNat_unit, F64.mk_of_lt hul]

/-- Closed form of `ROC` entry by entry. -/
theorem ROC_getElem? (classes : List Bool) (weights : Option (List F64))
    (hw : ∀ ws, weights = some ws → ws.length = classes.length) (hN : 1 ≤ classes.length) :
    ∃ tpr fpr, ROC classes weights = some (tpr, fpr) ∧
      tpr.length = classes.length + 1 ∧ fpr.length = classes.length + 1 ∧
      ∀ k, k ≤ classes.length →
        tpr[k]? = some (rate classes weights true k) ∧
        fpr[k]? = some (rate classes weights false k) := by
  refine ⟨_, _, ROC_eq classes weights (lengthMismatch_of_lengths classes weights hw) (by omega),
    by simp, by simp, ?_⟩
  intro k hk
  exact ⟨getElem?_range_map _ _ k hk, getElem?_range_map _ _ k hk⟩

/-- In exact arithmetic the normalisation `1 - c*(1/n)` of the code is the ratio of claim C1;
the two differ on float64 only by rounding. -/
theorem exactShare_eq_complement (classes : List Bool) (weights : Option (List F64)) (b : Bool)
    (k : Nat) (h : exactWeight classes weights b classes.length ≠ 0) :
    exactShare classes weights b k =
      1 - exactWeight classes weights b (classes.length - k) *
        (1 / exactWeight classes weights b classes.length) := by
  unfold exactShare
  field_simp

/-- C1 (as stated, refuted): for three true labels of weight 1 each, `tpr[1]` is the float64
`3002399751580331 / 2^53`, which is neither the exact ratio `1/3` of the claim nor the float64
quotient `1.0 / 3.0`. -/
theorem C1_counterexample :
    ROC [true, true, true] none =
      some ([F64.zero, F64.dy 3002399751580331 53, F64.dy 3002399751580331 52, F64.one],
        [F64.nan, F64.nan, F64.nan, F64.nan]) ∧
    F64.lt F64.zero (total [true, true, true] none true) = true ∧
    exactShare [true, true, true] none true 1 = 1 / 3 ∧
    (F64.dy 3002399751580331 53).toRat ≠ exactShare [true, true, true] none true 1 ∧
    F64.dy 3002399751580331 53 ≠ F64.div (F64.ofNat 1) (F64.ofNat 3) := by
  refine ⟨by decide!, by decide!, by decide!, by decide!, by decide!⟩

/-- C1 (amended): for `N ≥ 1` labels and weights absent or of length `N`, `ROC` returns, and for
every `k ≤ N` its `tpr[k]` is the float64 value `1 - c*(1/nPos)`, where `c` is the running
float64 sum of the weights of the true-labelled entries at indices `< N - k` and `nPos` the
running sum over all of them; `fpr[k]` is the same over the false-labelled entries. -/
theorem C1_rate_closed_form (classes : List Bool) (weights : Option (List F64))
    (hw : ∀ ws, weights = some ws → ws.length = classes.length) (hN : 1 ≤ classes.length)
    (k : Nat) (hk : k ≤ classes.length) :
    ∃ tpr fpr, ROC classes weights = some (tpr, fpr) ∧
      tpr[k]? = some (F64.sub F64.one (F64.mul (cum classes weights true (classes.length - k))
        (F64.div F64.one (cum classes weights true classes.length)))) ∧
      fpr[k]? = some (F64.sub F64.one (F64.mul (cum classes weights false (classes.length - k))
        (F64.div F64.one (cum classes weights false classes.length)))) := by
  obtain ⟨tpr, fpr, h, _, _, hk'⟩ := ROC_getElem? classes weights hw hN
  exact ⟨tpr, fpr, h, (hk' k hk).1, (hk' k hk).2⟩

/-- Witness of C1 (amended) on the labels `[false, true]` with weights `[4, 1]`, at `k = 1`. -/
theorem C1_rate_closed_form_witness :
    ∃ tpr fpr, ROC [false, true] (some [F64.ofNat 4, F64.one]) = some (tpr, fpr) ∧
      tpr[1]? = some (F64.sub F64.one (F64.mul
        (cum [false, true] (some [F64.ofNat 4, F64.one]) true ([false, true].length - 1))
        (F64.div F64.one
          (cum [false, true] (some [F64.ofNat 4, F64.one]) true [false, true].length)))) ∧
      fpr[1]? = some (F64.sub F64.one (F64.mul
        (cum [false, true] (some [F64.ofNat 4, F64.one]) false ([false, true].length - 1))
        (F64.div F64.one
          (cum [false, true] (some [F64.ofNat 4, F64.one]) false [false, true].length)))) :=
  C1_rate_closed_form [false, true] (some [F64.ofNat 4, F64.one])
    (by intro ws h; cases h; rfl) (by decide) 1 (by decide)

/-- C2: `ROC` panics exactly when `weights` is non-nil and its length differs from that of
`classes`; every other call returns. -/
theorem C2_panic_iff_length_mismatch (classes : List Bool) (weights : Option (List F64)) :
    ROC classes weights = none ↔ ∃ ws, weights = some ws ∧ ws.length ≠ classes.length := by
  constructor
  · intro h
    cases weights with
    | none =>
      exfalso
      by_cases hN : classes.length = 0
      · simp [ROC, lengthMismatch, hN] at h
      · rw [ROC_eq classes none rfl hN] at h; cases h
    | some ws =>
      refine ⟨ws, rfl, ?_⟩
      intro hl
      have hm : lengthMismatch classes (some ws) = false := by simp [lengthMismatch, hl]
      by_cases hN : classes.length = 0
      · simp [ROC, hm, hN] at h
      · rw [ROC_eq classes _ hm hN] at h; cases h
  · rintro ⟨ws, rfl, hl⟩
    have hm : lengthMismatch classes (some ws) = true := by
      simp [lengthMismatch]; exact fun e => hl e.symm
    simp [ROC, hm]

/-- C3: when `ROC` returns, both outputs have length `N + 1` if `N ≥ 1` and are empty if
`N = 0`. -/
theorem C3_output_lengths (classes : List Bool) (weights : Option (List F64))
    (tpr fpr : List F64) (h : ROC classes weights = some (tpr, fpr)) :
    (1 ≤ classes.length → tpr.length = classes.length + 1 ∧ fpr.length = classes.length + 1) ∧
    (classes.length = 0 → tpr = [] ∧ fpr = []) := by
  have hm := lengthMismatch_false classes weights (by rw [h]; simp)
  constructor
  · intro hN
    rw [ROC_eq classes weights hm (by omega)] at h
    injection h with h; injection h with h1 h2
    subst h1; subst h2
    simp
  · intro hN
    simp [ROC, hm, hN] at h
    exact ⟨h.1, h.2⟩

/-- Witness of C3 on the single label `[true]` without weights, whose outputs are `[0, 1]` and
`[NaN, NaN]`. -/
theorem C3_output_lengths_witness :
    (1 ≤ [true].length →
      [F64.zero, F64.one].length = [true].length + 1 ∧
      [F64.nan, F64.nan].length = [true].length + 1) ∧
    ([true].length = 0 → [F64.zero, F64.one] = [] ∧ [F64.nan, F64.nan] = []) :=
  C3_output_lengths [true] none [F64.zero, F64.one] [F64.nan, F64.nan] (by decide!)

/-- C4 (as stated, refuted): with a single true weight `49` the total `nPos = 49` is positive
but `tpr[0]` is `2^-53`, not `0`; with a single true weight `2^-1074` the total is positive but
`tpr[N]` is NaN, not `1`. -/
theorem C4_counterexample :
    (ROC [true, false] (some [F64.ofNat 49, F64.one]) =
        some ([F64.dy 1 53, F64.dy 1 53, F64.one], [F64.zero, F64.one, F64.one]) ∧
      F64.lt F64.zero (total [true, false] (some [F64.ofNat 49, F64.one]) true) = true ∧
      F64.eq (F64.dy 1 53) F64.zero = false) ∧
    (ROC [true, false] (some [F64.dy 1 1074, F64.one]) =
        some ([F64.inf true, F64.inf true, F64.nan], [F64.zero, F64.one, F64.one]) ∧
      F64.lt F64.zero (total [true, false] (some [F64.dy 1 1074, F64.one]) true) = true ∧
      F64.eq F64.nan F64.one = false) := by
  refine ⟨⟨by decide!, by decide!, by decide!⟩, ⟨by decide!, by decide!, by decide!⟩⟩

/-- C4 (amended): for `N ≥ 1` labels and weights absent or of length `N`, `tpr[N] = 1` whenever
the reciprocal `1/nPos` is finite and `fpr[N] = 1` whenever `1/nNeg` is finite; `tpr[0]` and
`fpr[0]` are the float64 values `1 - nPos*(1/nPos)` and `1 - nNeg*(1/nNeg)`. -/
theorem C4_endpoints (classes : List Bool) (weights : Option (List F64))
    (hw : ∀ ws, weights = some ws → ws.length = classes.length) (hN : 1 ≤ classes.length) :
    ∃ tpr fpr, ROC classes weights = some (tpr, fpr) ∧
      ((F64.div F64.one (total classes weights true)).isFinite = true →
        tpr[classes.length]? = some F64.one) ∧
      ((F64.div F64.one (total classes weights false)).isFinite = true →
        fpr[classes.length]? = some F64.one) ∧
      tpr[0]? = some (F64.sub F64.one (F64.mul (total classes weights true)
        (F64.div F64.one (total classes weights true)))) ∧
      fpr[0]? = some (F64.sub F64.one (F64.mul (total classes weights false)
        (F64.div F64.one (total classes weights false)))) := by
  obtain ⟨tpr, fpr, h, _, _, hk⟩ := ROC_getElem? classes weights hw hN
  have hlast : ∀ b, (F64.div F64.one (total classes weights b)).isFinite = true →
      rate classes weights b classes.length = F64.one := by
    intro b hfin
    unfold rate
    rw [Nat.sub_self]
    cases hd : F64.div F64.one (total classes weights b) with
    | nan => rw [hd] at hfin; cases hfin
    | inf s => rw [hd] at hfin; cases hfin
    | fin s c => exact complement_zero_fin s c
  refine ⟨tpr, fpr, h, ?_, ?_, ?_, ?_⟩
  · intro hfin; rw [(hk _ (le_refl _)).1, hlast true hfin]
  · intro hfin; rw [(hk _ (le_refl _)).2, hlast false hfin]
  · rw [(hk 0 (Nat.zero_le _)).1]; rfl
  · rw [(hk 0 (Nat.zero_le _)).2]; rfl

/-- Witness of C4 (amended) on the labels `[true, false]` with weights `[49, 1]`. -/
theorem C4_endpoints_witness :
    ∃ tpr fpr, ROC [true, false] (some [F64.ofNat 49, F64.one]) = some (tpr, fpr) ∧
      ((F64.div F64.one (total [true, false] (some [F64.ofNat 49, F64.one]) true)).isFinite
          = true →
        tpr[[true, false].length]? = some F64.one) ∧
      ((F64.div F64.one (total [true, false] (some [F64.ofNat 49, F64.one]) false)).isFinite
          = true →
        fpr[[true, false].length]? = some F64.one) ∧
      tpr[0]? = some (F64.sub F64.one
        (F64.mul (total [true, false] (some [F64.ofNat 49, F64.one]) true)
          (F64.div F64.one (total [true, false] (some [F64.ofNat 49, F64.one]) true)))) ∧
      fpr[0]? = some (F64.sub F64.one
        (F64.mul (total [true, false] (some [F64.ofNat 49, F64.one]) false)
          (F64.div F64.one (total [true, false] (some [F64.ofNat 49, F64.one]) false)))) :=
  C4_endpoints [true, false] (some [F64.ofNat 49, F64.one])
    (by intro ws h; cases h; rfl) (by decide)

/-- C5 (as stated, refuted): with true weights `2^1023, 2^1023` and a false weight `1`, all
weights are nonnegative and both totals are positive, but `nPos` overflows to `+Inf` and
`tpr = [NaN, NaN, 1, 1]`, so `tpr[0] <= tpr[1]` is false. -/
theorem C5_counterexample :
    ROC [true, true, false] (some [F64.ofNat (2 ^ 1023), F64.ofNat (2 ^ 1023), F64.one]) =
      some ([F64.nan, F64.nan, F64.one, F64.one], [F64.zero, F64.one, F64.one, F64.one]) ∧
    F64.le F64.zero (F64.ofNat (2 ^ 1023)) = true ∧ F64.le F64.zero F64.one = true ∧
    F64.lt F64.zero
      (total [true, true, false] (some [F64.ofNat (2 ^ 1023), F64.ofNat (2 ^ 1023), F64.one])
        true) = true ∧
    F64.lt F64.zero
      (total [true, true, false] (some [F64.ofNat (2 ^ 1023), F64.ofNat (2 ^ 1023), F64.one])
        false) = true ∧
    F64.le F64.nan F64.nan = false := by
  refine ⟨by decide!, by decide!, by decide!, by decide!, by decide!, by decide!⟩

/-- C5 (amended): for `N ≥ 1` labels and `N` nonnegative weights (or none), if the totals `nPos`
and `nNeg` and their reciprocals `1/nPos` and `1/nNeg` are all finite, then both outputs of
`ROC` are non-decreasing: `tpr[k] <= tpr[k+1]` and `fpr[k] <= fpr[k+1]` for every `k < N`. -/
theorem C5_monotone (classes : List Bool) (weights : Option (List F64))
    (hw : ∀ ws, weights = some ws → ws.length = classes.length) (hN : 1 ≤ classes.length)
    (hnn : ∀ ws, weights = some ws → ∀ w ∈ ws, F64.le F64.zero w = true)
    (hP : (total classes weights true).isFinite = true)
    (hQ : (total classes weights false).isFinite = true)
    (hIP : (F64.div F64.one (total classes weights true)).isFinite = true)
    (hIQ : (F64.div F64.one (total classes weights false)).isFinite = true)
    (k : Nat) (hk : k < classes.length) :
    ∃ tpr fpr, ROC classes weights = some (tpr, fpr) ∧
      (∃ x y, tpr[k]? = some x ∧ tpr[k + 1]? = some y ∧ F64.le x y = true) ∧
      (∃ x y, fpr[k]? = some x ∧ fpr[k + 1]? = some y ∧ F64.le x y = true) := by
  obtain ⟨tpr, fpr, h, _, _, hk'⟩ := ROC_getElem? classes weights hw hN
  refine ⟨tpr, fpr, h, ?_, ?_⟩
  · exact ⟨_, _, (hk' k (by omega)).1, (hk' (k + 1) (by omega)).1,
      rate_mono classes weights true hnn hP hIP k hk⟩
  · exact ⟨_, _, (hk' k (by omega)).2, (hk' (k + 1) (by omega)).2,
      rate_mono classes weights false hnn hQ hIQ k hk⟩

/-- Witness of C5 (amended) on the labels `[false, true]` with weights `[4, 1]`, at `k = 0`. -/
theorem C5_monotone_witness :
    ∃ tpr fpr, ROC [false, true] (some [F64.ofNat 4, F64.one]) = some (tpr, fpr) ∧
      (∃ x y, tpr[0]? = some x ∧ tpr[0 + 1]? = some y ∧ F64.le x y = true) ∧
      (∃ x y, fpr[0]? = some x ∧ fpr[0 + 1]? = some y ∧ F64.le x y = true) :=
  C5_monotone [false, true] (some [F64.ofNat 4, F64.one])
    (by intro ws h; cases h; rfl) (by decide)
    (by
      intro ws h w hmem
      cases h
      simp only [List.mem_cons, List.mem_singleton, List.not_mem_nil, or_false] at hmem
      rcases hmem with rfl | rfl <;> decide!)
    (by decide!) (by decide!) (by decide!) (by decide!) 0 (by decide)

/-- C7: passing no weights gives exactly the output of passing `N` weights all equal to `1`. -/
theorem C7_nil_weights_are_ones (classes : List Bool) :
    ROC classes none = ROC classes (some (List.replicate classes.length F64.one)) := by
  have hm : lengthMismatch classes (some (List.replicate classes.length F64.one)) = false := by
    simp [lengthMismatch]
  by_cases hN : classes.length = 0
  · simp [ROC, lengthMismatch, hN]
  · rw [ROC_eq classes none rfl hN, ROC_eq classes _ hm hN]
    have e : ∀ b k, rate classes none b k =
        rate classes (some (List.replicate classes.length F64.one)) b k := by
      intro b k
      exact rate_congr classes _ _ b
        (fun i hi => (weightAt_ones classes.length i hi).symm) k
    have e1 : rate classes none true =
        rate classes (some (List.replicate classes.length F64.one)) true := funext (e true)
    have e2 : rate classes none false =
        rate classes (some (List.replicate classes.length F64.one)) false := funext (e false)
    rw [e1, e2]

/-- C8: for `N ≥ 1` labels and `N` nonnegative weights (or none), every element of `tpr` is NaN
when the total `nPos` is `0` (in particular when no entry is labelled true), and every element
of `fpr` is NaN when `nNeg` is `0`; each sequence is still the closed form over its own label,
and `ROC([false,false], nil)` is `([NaN,NaN,NaN], [0, 0.5, 1])`. -/
theorem C8_nan_when_class_absent (classes : List Bool) (weights : Option (List F64))
    (hw : ∀ ws, weights = some ws → ws.length = classes.length) (hN : 1 ≤ classes.length)
    (hnn : ∀ ws, weights = some ws → ∀ w ∈ ws, F64.le F64.zero w = true) :
    ∃ tpr fpr, ROC classes weights = some (tpr, fpr) ∧
      (F64.eq (total classes weights true) F64.zero = true → ∀ x ∈ tpr, x = F64.nan) ∧
      (F64.eq (total classes weights false) F64.zero = true → ∀ x ∈ fpr, x = F64.nan) ∧
      ((∀ c ∈ classes, c = false) → ∀ x ∈ tpr, x = F64.nan) ∧
      ((∀ c ∈ classes, c = true) → ∀ x ∈ fpr, x = F64.nan) ∧
      (∀ k, k ≤ classes.length →
        tpr[k]? = some (rate classes weights true k) ∧
        fpr[k]? = some (rate classes weights false k)) ∧
      ROC [false, false] none =
        some ([F64.nan, F64.nan, F64.nan], [F64.zero, F64.dy 1 1, F64.one]) := by
  have hm := lengthMismatch_of_lengths classes weights hw
  have hroc := ROC_eq classes weights hm (by omega)
  have hall : ∀ b, F64.eq (total classes weights b) F64.zero = true →
      ∀ x ∈ (List.range (classes.length + 1)).map (rate classes weights b), x = F64.nan := by
    intro b h0 x hx
    obtain ⟨k, _, rfl⟩ := List.mem_map.mp hx
    exact rate_nan classes weights b hnn h0 k
  have habs : ∀ b, (∀ c ∈ classes, c ≠ b) →
      F64.eq (total classes weights b) F64.zero = true := by
    intro b h
    rw [total, cum_absent classes weights b h]
    exact by decide
  refine ⟨_, _, hroc, hall true, hall false, ?_, ?_, ?_, by decide!⟩
  · intro h
    exact hall true (habs true (fun c hc => by rw [h c hc]; decide))
  · intro h
    exact hall false (habs false (fun c hc => by rw [h c hc]; decide))
  · intro k hk
    exact ⟨getElem?_range_map _ _ k hk, getElem?_range_map _ _ k hk⟩

/-- Witness of C8 on the labels `[true, false]` with weights `[0, 1]`: a true label is present
but its weight, hence `nPos`, is `0`. -/
theorem C8_nan_when_class_absent_witness :
    ∃ tpr fpr, ROC [true, false] (some [F64.zero, F64.one]) = some (tpr, fpr) ∧
      (F64.eq (total [true, false] (some [F64.zero, F64.one]) true) F64.zero = true →
        ∀ x ∈ tpr, x = F64.nan) ∧
      (F64.eq (total [true, false] (some [F64.zero, F64.one]) false) F64.zero = true →
        ∀ x ∈ fpr, x = F64.nan) ∧
      ((∀ c ∈ [true, false], c = false) → ∀ x ∈ tpr, x = F64.nan) ∧
      ((∀ c ∈ [true, false], c = true) → ∀ x ∈ fpr, x = F64.nan) ∧
      (∀ k, k ≤ [true, false].length →
        tpr[k]? = some (rate [true, false] (some [F64.zero, F64.one]) true k) ∧
        fpr[k]? = some (rate [true, false] (some [F64.zero, F64.one]) false k)) ∧
      ROC [false, false] none =
        some ([F64.nan, F64.nan, F64.nan], [F64.zero, F64.dy 1 1, F64.one]) :=
  C8_nan_when_class_absent [true, false] (some [F64.zero, F64.one])
    (by intro ws h; cases h; rfl) (by decide)
    (by
      intro ws h w hmem
      cases h
      simp only [List.mem_cons, List.mem_singleton, List.not_mem_nil, or_false] at hmem
      rcases hmem with rfl | rfl <;> decide!)

theorem le_zero_mk (r : Nat) : F64.le F64.zero (F64.mk false r) = true := by
  rw [F64.le_iff]
  refine ⟨rfl, F64.isNaN_mk _ _, ?_⟩
  rw [F64.ord_mk_pos]
  exact F64.mag_nonneg r

theorem le_zero_fin (k : Nat) : F64.le F64.zero (F64.fin false k) = true := by
  simp [F64.le, F64.isNaN, F64.ord, F64.zero]

theorem weightAt_map (ws : List F64) (f : F64 → F64) (m : Nat) :
    weightAt (some (ws.map f)) m = (weightAt (some ws) m).map f := by
  simp [weightAt, List.getElem?_map]

theorem nonNeg_of_rep (ws : List F64)
    (hrep : ∀ w ∈ ws, ∃ k, w = F64.fin false k ∧ F64.roundNat k 0 = k) :
    NonNegWeights (some ws) := by
  intro ws' h w hw
  cases h
  obtain ⟨k, rfl, _⟩ := hrep w hw
  exact le_zero_fin k

theorem nonNeg_scaled (ws : List F64) (j : Nat)
    (hrep : ∀ w ∈ ws, ∃ k, w = F64.fin false k ∧ F64.roundNat k 0 = k) :
    NonNegWeights (some (ws.map (F64.mul (F64.pow2 j)))) := by
  intro ws' h w hw
  cases h
  obtain ⟨w0, hw0, rfl⟩ := List.mem_map.mp hw
  obtain ⟨k, rfl, hr⟩ := hrep w0 hw0
  rw [F64.mul_pow2 j k hr]
  exact le_zero_mk _

/-- The running sums over weights scaled by `2^j` are the scaled running sums, as long as the
scaled total is finite. -/
theorem cum_scale (classes : List Bool) (ws : List F64) (j : Nat) (b : Bool)
    (hlen : ws.length = classes.length)
    (hrep : ∀ w ∈ ws, ∃ k, w = F64.fin false k ∧ F64.roundNat k 0 = k)
    (hfin : (total classes (some (ws.map (F64.mul (F64.pow2 j)))) b).isFinite = true) :
    ∀ m, m ≤ classes.length →
      ∃ a, cum classes (some ws) b m = F64.fin false a ∧
        cum classes (some (ws.map (F64.mul (F64.pow2 j)))) b m = F64.fin false (a * 2 ^ j) := by
  intro m
  induction m with
  | zero => intro _; exact ⟨0, rfl, by simp [cum, F64.zero]⟩
  | succ m ih =>
    intro hm
    obtain ⟨a, h1, h2⟩ := ih (by omega)
    by_cases hc : classes[m]? = some b
    · have hmw : m < ws.length := by omega
      obtain ⟨k, hk, hr⟩ := hrep ws[m] (List.getElem_mem _)
      have hw1 : weightAt (some ws) m = some (F64.fin false k) := by
        simp [weightAt, hmw, hk]
      have hw2 : weightAt (some (ws.map (F64.mul (F64.pow2 j)))) m =
          some (F64.mk false (k * 2 ^ j)) := by
        rw [weightAt_map, hw1, Option.map_some', F64.mul_pow2 j k hr]
      obtain ⟨a', h3, ha', _⟩ := cum_fin classes _ b (nonNeg_scaled ws j hrep) hfin (m + 1) hm
      obtain ⟨a0, h4, ha0, _⟩ := cum_fin classes _ b (nonNeg_scaled ws j hrep) hfin m (by omega)
      have ea : a0 = a * 2 ^ j := by rw [h2] at h4; exact (F64.fin.inj h4).2.symm
      subst ea
      have e2 := cum_succ_of_eq classes _ b m _ hc hw2
      have e1 := cum_succ_of_eq classes _ b m _ hc hw1
      rw [h2] at e2
      rw [h1] at e1
      rcases F64.mk_cases false (k * 2 ^ j) with ⟨hk1, _⟩ | ⟨hk1, hk2⟩
      · rw [hk1] at e2
        rw [e2] at h3
        cases h3
      · rw [hk1] at e2
        have e3 : F64.add (F64.fin false (a * 2 ^ j)) (F64.fin false (k * 2 ^ j)) =
            F64.mk false (F64.roundNat (a + k) 0 * 2 ^ j) := by
          have hb : (a + k) * 2 ^ j < 2 ^ 8191 := by
            have h5 : (2 : Nat) * F64.huge < 2 ^ 8191 := by
              rw [F64.huge_eq, ← pow_succ']
              exact Nat.pow_lt_pow_right (by norm_num) (by norm_num)
            rw [Nat.add_mul]
            omega
          simp only [F64.add, if_true]
          rw [← Nat.add_mul, F64.roundNat_scale _ _ hb]
        rw [e3] at e2
        rcases F64.mk_cases false (F64.roundNat (a + k) 0 * 2 ^ j) with ⟨hR1, _⟩ | ⟨hR1, hR2⟩
        · rw [hR1] at e2
          rw [e2] at h3
          cases h3
        · refine ⟨F64.roundNat (a + k) 0, ?_, ?_⟩
          · rw [e1]
            simp only [F64.add, if_true]
            exact F64.mk_of_lt (F64.lt_huge_of_mul hR2)
          · rw [e2, hR1]
    · refine ⟨a, ?_, ?_⟩
      · simp [cum, hc, h1]
      · simp [cum, hc, h2]

theorem complement_inf (x : Nat) :
    complement (F64.inf false) (F64.fin false x) =
      F64.sub F64.one (if x = 0 then F64.nan else F64.inf false) := by
  simp [complement, F64.mul]

/-- Entry `k` of an output of `ROC` is unchanged when the weights are scaled by `2^j`. -/
theorem rate_scale (classes : List Bool) (ws : List F64) (j : Nat) (b : Bool)
    (hlen : ws.length = classes.length)
    (hrep : ∀ w ∈ ws, ∃ k, w = F64.fin false k ∧ F64.roundNat k 0 = k)
    (hT : F64.lt (total classes (some (ws.map (F64.mul (F64.pow2 j)))) b)
      (F64.pow2 1022) = true)
    (hI : total classes (some ws) b = F64.zero ∨
      (F64.div F64.one (total classes (some ws) b)).isFinite = true)
    (k : Nat) :
    rate classes (some (ws.map (F64.mul (F64.pow2 j)))) b k = rate classes (some ws) b k := by
  have hfin : (total classes (some (ws.map (F64.mul (F64.pow2 j)))) b).isFinite = true := by
    cases hx : total classes (some (ws.map (F64.mul (F64.pow2 j)))) b with
    | nan => rw [hx] at hT; simp [F64.lt, F64.isNaN] at hT
    | inf s =>
      rcases cum_isSum classes _ b (nonNeg_scaled ws j hrep) classes.length with h | ⟨a, h, _⟩
      · rw [total, h] at hT
        have h1 : (F64.unit * 2 ^ 1022 : Nat) < F64.huge := by
          rw [F64.unit_eq, F64.huge_eq, ← pow_add]
          exact Nat.pow_lt_pow_right (by norm_num) (by norm_num)
        have h2 := F64.huge_lt_top
        simp only [F64.lt, F64.isNaN, F64.ord, F64.pow2, Bool.not_false, Bool.true_and,
          Bool.false_eq_true, if_false, decide_eq_true_eq] at hT
        have h3 : ((F64.unit * 2 ^ 1022 : Nat) : Int) < F64.huge := by exact_mod_cast h1
        push_cast at h3
        omega
      · rw [total, h] at hx; cases hx
    | fin s a => rfl
  obtain ⟨A, hA1, hA2⟩ := cum_scale classes ws j b hlen hrep hfin classes.length (le_refl _)
  obtain ⟨x, hx1, hx2⟩ := cum_scale classes ws j b hlen hrep hfin (classes.length - k)
    (by omega)
  unfold rate total
  rw [hA1, hA2, hx1, hx2]
  rcases Nat.eq_zero_or_pos A with h0 | hpos
  · subst h0
    have hu : F64.unit ≠ 0 := Nat.pos_iff_ne_zero.mp F64.unit_pos
    have e : F64.div F64.one (F64.fin false 0) = F64.inf false := by
      simp [F64.div, F64.one, hu]
    have hp : 0 < 2 ^ j := Nat.two_pow_pos j
    rw [Nat.zero_mul, e, complement_inf, complement_inf]
    by_cases hx0 : x = 0
    · subst hx0; simp
    · have : x * 2 ^ j ≠ 0 := Nat.pos_iff_ne_zero.mp (Nat.mul_pos (Nat.pos_of_ne_zero hx0) hp)
      rw [if_neg hx0, if_neg this]
  · have hlt : A * 2 ^ j < 2 ^ 2096 := by
      rw [total, hA2] at hT
      simp only [F64.lt, F64.isNaN, F64.ord, F64.pow2, Bool.not_false, Bool.true_and,
        Bool.false_eq_true, if_false, decide_eq_true_eq] at hT
      have h1 : A * 2 ^ j < F64.unit * 2 ^ 1022 := by exact_mod_cast hT
      rw [F64.unit_eq, ← pow_add] at h1
      exact h1
    obtain ⟨R, hR1, hR2⟩ := F64.div_one_scale A j hpos hlt
    have hIf : (F64.div F64.one (F64.fin false A)).isFinite = true := by
      rcases hI with h | h
      · rw [total, hA1] at h
        have := (F64.fin.inj h).2
        omega
      · rw [total, hA1] at h; exact h
    rw [hR1, hR2]
    rw [hR2] at hIf
    rcases F64.mk_cases false (R * 2 ^ j) with ⟨h1, _⟩ | ⟨h1, h2⟩
    · rw [h1] at hIf; cases hIf
    · rw [h1, F64.mk_of_lt (F64.lt_huge_of_mul h2)]
      simp only [complement, F64.mul, Bool.xor_false]
      rw [show x * 2 ^ j * R = x * (R * 2 ^ j) by
        rw [Nat.mul_assoc, Nat.mul_comm (2 ^ j) R]]

/-- C6 (as stated, refuted): scaling the nonnegative weights `[1, 1, 2, 2]` by `c = 3` changes
`tpr[1]` from `0.3999999999999999` to `0.4`. -/
theorem C6_counterexample :
    F64.lt F64.zero (F64.ofNat 3) = true ∧
    ROC [false, true, true, true] (some [F64.one, F64.one, F64.ofNat 2, F64.ofNat 2]) =
      some ([F64.zero, F64.dy 900719925474099 51, F64.dy 3602879701896397 52, F64.one,
          F64.one],
        [F64.zero, F64.zero, F64.zero, F64.zero, F64.one]) ∧
    ROC [false, true, true, true]
        (some ([F64.one, F64.one, F64.ofNat 2, F64.ofNat 2].map (F64.mul (F64.ofNat 3)))) =
      some ([F64.zero, F64.dy 3602879701896397 53, F64.dy 3602879701896397 52, F64.one,
          F64.one],
        [F64.zero, F64.zero, F64.zero, F64.zero, F64.one]) ∧
    ROC [false, true, true, true]
        (some ([F64.one, F64.one, F64.ofNat 2, F64.ofNat 2].map (F64.mul (F64.ofNat 3)))) ≠
      ROC [false, true, true, true] (some [F64.one, F64.one, F64.ofNat 2, F64.ofNat 2]) := by
  refine ⟨by decide!, by decide!, by decide!, by decide!⟩

/-- C6 (amended): for weights that are finite nonnegative float64 values, of the length of
`classes`, and a constant `c = 2^j` with `0 ≤ j ≤ 1023`, if each total of the scaled weights is
below `2^1022` and each total of the unscaled weights is `0` or has a finite reciprocal, then
`ROC(classes, c*weights)` returns the same `tpr` and `fpr` as `ROC(classes, weights)`. -/
theorem C6_power_of_two_scaling (classes : List Bool) (ws : List F64) (j : Nat)
    (_hj : j ≤ 1023) (hlen : ws.length = classes.length)
    (hrep : ∀ w ∈ ws, ∃ k, w = F64.fin false k ∧ F64.roundNat k 0 = k)
    (hT : ∀ b, F64.lt (total classes (some (ws.map (F64.mul (F64.pow2 j)))) b)
      (F64.pow2 1022) = true)
    (hI : ∀ b, total classes (some ws) b = F64.zero ∨
      (F64.div F64.one (total classes (some ws) b)).isFinite = true) :
    ROC classes (some (ws.map (F64.mul (F64.pow2 j)))) = ROC classes (some ws) := by
  have hm1 : lengthMismatch classes (some ws) = false := by simp [lengthMismatch, hlen]
  have hm2 : lengthMismatch classes (some (ws.map (F64.mul (F64.pow2 j)))) = false := by
    simp [lengthMismatch, hlen]
  by_cases hN : classes.length = 0
  · simp [ROC, hm1, hm2, hN]
  · rw [ROC_eq classes _ hm1 hN, ROC_eq classes _ hm2 hN]
    have e1 : rate classes (some (ws.map (F64.mul (F64.pow2 j)))) true =
        rate classes (some ws) true :=
      funext (rate_scale classes ws j true hlen hrep (hT true) (hI true))
    have e2 : rate classes (some (ws.map (F64.mul (F64.pow2 j)))) false =
        rate classes (some ws) false :=
      funext (rate_scale classes ws j false hlen hrep (hT false) (hI false))
    rw [e1, e2]

/-- Witness of C6 (amended) on the labels `[false, true, true]` with weights `[1, 1, 2]` and
the constant `c = 2^3`. -/
theorem C6_power_of_two_scaling_witness :
    ROC [false, true, true] (some ([F64.one, F64.one, F64.ofNat 2].map (F64.mul (F64.pow2 3)))) =
      ROC [false, true, true] (some [F64.one, F64.one, F64.ofNat 2]) :=
  C6_power_of_two_scaling [false, true, true] [F64.one, F64.one, F64.ofNat 2] 3 (by decide) rfl
    (by
      intro w hw
      simp only [List.mem_cons, List.mem_singleton, List.not_mem_nil, or_false] at hw
      rcases hw with rfl | rfl | rfl
      · exact ⟨F64.unit, rfl, by decide!⟩
      · exact ⟨F64.unit, rfl, by decide!⟩
      · exact ⟨2 * F64.unit, by decide!, by decide!⟩)
    (by intro b; cases b <;> decide!)
    (by intro b; cases b <;> decide!)

/-! ## Claims on the `Dtrevc3` test oracle -/

/-- C9 (the code departs from its documentation): on the diagonal matrix `diag(1, 3)` with two
real eigenvalues the column max-norms are `1` and `3`, so the maximum of `|max-norm - 1|` is
`2`, but `residualEVNormalization` returns `|enrmin - 1| = 0`. -/
theorem C9_residual_ignores_enrmax :
    residualEVNormalization
      { Rows := 2, Cols := 2, Data := [F64.one, F64.zero, F64.zero, F64.ofNat 3], Stride := 2 }
      [F64.zero, F64.zero] = some F64.zero ∧
    maxNormError
      { Rows := 2, Cols := 2, Data := [F64.one, F64.zero, F64.zero, F64.ofNat 3], Stride := 2 }
      [F64.zero, F64.zero] = some (F64.ofNat 2) ∧
    isSchurForm [F64.zero, F64.zero] = true := by
  refine ⟨by decide!, by decide!, by decide!⟩

/-- C10 (as stated, refuted): for `n = 2` and `wi = [1, -1]` the pair at columns `(0, 1)` is
selected and the expected mask is `[true, false]`: the pair is marked at its lower index. -/
theorem C10_counterexample :
    isSchurForm [F64.one, F64.neg F64.one] = true ∧
    (selectMask 2 [F64.one, F64.neg F64.one]).map (fun st => (st.selected, st.selectedWant)) =
      some ([true, true], [true, false]) := by
  refine ⟨by decide!, by decide!⟩

theorem isSchurForm_cons_zero (a : F64) (l : List F64) (ha : F64.eq a F64.zero = true)
    (hl : isSchurForm l = true) : isSchurForm (a :: l) = true := by
  cases l with
  | nil => simpa [isSchurForm] using ha
  | cons b r => simp [isSchurForm, ha, hl]

theorem isSchurForm_cons_pair (a : F64) (l : List F64) (ha : F64.lt F64.zero a = true)
    (hl : isSchurForm l = true) : isSchurForm (a :: F64.neg a :: l) = true := by
  simp [isSchurForm, ha, hl]

/-- A nonempty list in Schur pairing form ends with a block `[0]` or `[p, -p]`. -/
theorem isSchurForm_snoc : ∀ (k : Nat) (l : List F64), l.length = k → isSchurForm l = true →
    l ≠ [] →
    (∃ l' z, l = l' ++ [z] ∧ F64.eq z F64.zero = true ∧ isSchurForm l' = true) ∨
    (∃ l' p, l = l' ++ [p, F64.neg p] ∧ F64.lt F64.zero p = true ∧ isSchurForm l' = true) := by
  intro k
  induction k using Nat.strong_induction_on with
  | _ k ih =>
    intro l hk hS hne
    match l, hk, hS, hne with
    | [], _, _, hne => exact absurd rfl hne
    | [z], _, hS, _ =>
      left
      exact ⟨[], z, rfl, by simpa [isSchurForm] using hS, rfl⟩
    | a :: b :: rest, hk, hS, _ =>
      simp only [isSchurForm, Bool.or_eq_true, Bool.and_eq_true, decide_eq_true_eq] at hS
      rcases hS with ⟨ha, hS⟩ | ⟨⟨ha, hb⟩, hS⟩
      · rcases ih (b :: rest).length (by simp at hk ⊢; omega) (b :: rest) rfl hS (by simp) with
          ⟨l', z, e, hz, hl'⟩ | ⟨l', p, e, hp, hl'⟩
        · left
          exact ⟨a :: l', z, by rw [e]; rfl, hz, isSchurForm_cons_zero a l' ha hl'⟩
        · right
          exact ⟨a :: l', p, by rw [e]; rfl, hp, isSchurForm_cons_zero a l' ha hl'⟩
      · subst hb
        by_cases hr : rest = []
        · subst hr
          right
          exact ⟨[], a, rfl, ha, rfl⟩
        · rcases ih rest.length (by simp at hk ⊢; omega) rest rfl hS hr with
            ⟨l', z, e, hz, hl'⟩ | ⟨l', p, e, hp, hl'⟩
          · left
            exact ⟨a :: F64.neg a :: l', z, by rw [e]; rfl, hz,
              isSchurForm_cons_pair a l' ha hl'⟩
          · right
            exact ⟨a :: F64.neg a :: l', p, by rw [e]; rfl, hp,
              isSchurForm_cons_pair a l' ha hl'⟩

theorem lt_zero_not_eq_zero (p : F64) (h : F64.lt F64.zero p = true) :
    F64.eq p F64.zero = false := by
  cases p with
  | nan => simp [F64.lt, F64.isNaN] at h
  | inf s =>
    have := F64.top_pos
    cases s <;> simp [F64.eq, F64.isNaN, F64.ord, F64.zero] <;> omega
  | fin s k =>
    cases s <;> simp [F64.lt, F64.eq, F64.isNaN, F64.ord, F64.zero] at h ⊢ <;> omega

theorem lt_zero_neg (p : F64) (h : F64.lt F64.zero p = true) :
    F64.eq (F64.neg p) F64.zero = false ∧ F64.lt F64.zero (F64.neg p) = false := by
  cases p with
  | nan => simp [F64.lt, F64.isNaN] at h
  | inf s =>
    have := F64.top_pos
    cases s <;> simp [F64.lt, F64.eq, F64.isNaN, F64.ord, F64.zero, F64.neg] at h ⊢ <;> omega
  | fin s k =>
    cases s <;> simp [F64.lt, F64.eq, F64.isNaN, F64.ord, F64.zero, F64.neg] at h ⊢ <;> omega

theorem eq_zero_not_lt (z : F64) (h : F64.eq z F64.zero = true) :
    F64.lt F64.zero z = false := by
  cases z with
  | nan => simp [F64.eq, F64.isNaN] at h
  | inf s =>
    have := F64.top_pos
    cases s <;> simp [F64.eq, F64.isNaN, F64.ord, F64.zero] at h <;> omega
  | fin s k =>
    cases s with
    | false => simp [F64.lt, F64.eq, F64.isNaN, F64.ord, F64.zero] at h ⊢; omega
    | true => simp [F64.lt, F64.isNaN, F64.ord, F64.zero]

theorem indexAt_natCast {α : Type} (l : List α) (k : Nat) : indexAt l (k : Int) = l[k]? := by
  simp [indexAt]

theorem assignAt_natCast {α : Type} (l : List α) (k : Nat) (v : α) (h : k < l.length) :
    assignAt l (k : Int) v = some (l.set k v) := by
  simp [assignAt, setAt, h]

theorem getElem?_set_ne_idx {α : Type} (l : List α) (i j : Nat) (v : α) (h : i ≠ j) :
    (l.set i v)[j]? = l[j]? := by
  simp [List.getElem?_set, h]

theorem getElem?_set_same {α : Type} (l : List α) (i : Nat) (v : α) (h : i < l.length) :
    (l.set i v)[i]? = some v := by
  simp [List.getElem?_set, h]

/-- One iteration of the mask construction at a real eigenvalue in column `m - 1`. -/
theorem maskBody_real (n : Nat) (wi : List F64) (hlen : wi.length = n) (m : Nat)
    (st : MaskState) (hm : 2 ≤ m) (h : MaskInv n wi m st) (l' : List F64) (z : F64)
    (post : List F64) (hwi : wi = (l' ++ [z]) ++ post) (hl : (l' ++ [z]).length = m)
    (hz : F64.eq z F64.zero = true) (hS : isSchurForm l' = true) :
    ∃ st', maskBody n wi st = some st' ∧ MaskInv n wi (m - 1) st' := by
  obtain ⟨_, hj, hsl, hwl, hun, hpr⟩ := h
  have hl' : l'.length = m - 1 := by simp at hl; omega
  have hmn : m ≤ n := by rw [← hlen, hwi]; simp; omega
  have hj' : st.j = ((m - 1 : Nat) : Int) := by omega
  have hw : wi[m - 1]? = some z := by
    rw [hwi, List.append_assoc, List.getElem?_append_right (by omega)]
    simp [hl']
  have hpre : ∃ pre post', wi = pre ++ post' ∧ pre.length = m - 1 ∧ isSchurForm pre = true :=
    ⟨l', [z] ++ post, by rw [hwi, List.append_assoc], hl', hS⟩
  have hnew : ∀ a, m - 1 ≤ a → (∃ p, wi[a]? = some p ∧ F64.lt F64.zero p = true) → m ≤ a := by
    intro a ha ⟨p, hp1, hp2⟩
    by_contra hc
    have : a = m - 1 := by omega
    subst this
    rw [hw] at hp1
    injection hp1 with hp1
    subst hp1
    rw [eq_zero_not_lt z hz] at hp2
    cases hp2
  by_cases hq : st.nselr < imax 1 (n / 4)
  · refine ⟨{ selected := st.selected.set (m - 1) true,
              selectedWant := st.selectedWant.set (m - 1) true,
              nselr := st.nselr + 1, nselc := st.nselc, j := st.j - 1 }, ?_, ?_⟩
    · simp only [maskBody, hj', indexAt_natCast, hw, Option.bind_eq_bind, Option.some_bind, hz,
        if_true, hq, assignAt_natCast st.selected (m - 1) true (by omega),
        assignAt_natCast st.selectedWant (m - 1) true (by omega)]
      rfl
    · refine ⟨hpre, by simp only; omega, by simp [hsl], by simp [hwl], ?_, ?_⟩
      · intro i hi
        simp only
        rw [getElem?_set_ne_idx _ _ _ _ (by omega), getElem?_set_ne_idx _ _ _ _ (by omega)]
        exact hun i (by omega)
      · intro a ha han hp
        have ham := hnew a ha hp
        obtain ⟨h1, h2, h3⟩ := hpr a ham han hp
        simp only [PairMarked]
        rw [getElem?_set_ne_idx _ _ _ _ (by omega), getElem?_set_ne_idx _ _ _ _ (by omega),
          getElem?_set_ne_idx _ _ _ _ (by omega), getElem?_set_ne_idx _ _ _ _ (by omega)]
        exact ⟨h1, h2, h3⟩
  · refine ⟨{ st with j := st.j - 1 }, ?_, ?_⟩
    · simp only [maskBody, hj', indexAt_natCast, hw, Option.bind_eq_bind, Option.some_bind, hz,
        if_true, hq, if_false]
      rfl
    · refine ⟨hpre, by simp only; omega, hsl, hwl, ?_, ?_⟩
      · intro i hi
        exact hun i (by omega)
      · intro a ha han hp
        exact hpr a (hnew a ha hp) han hp

/-- One iteration of the mask construction at a complex pair in columns `(m - 2, m - 1)`. -/
theorem maskBody_pair (n : Nat) (wi : List F64) (hlen : wi.length = n) (m : Nat)
    (st : MaskState) (hm : 2 ≤ m) (h : MaskInv n wi m st) (l' : List F64) (p : F64)
    (post : List F64) (hwi : wi = (l' ++ [p, F64.neg p]) ++ post)
    (hl : (l' ++ [p, F64.neg p]).length = m)
    (hp : F64.lt F64.zero p = true) (hS : isSchurForm l' = true) :
    ∃ st', maskBody n wi st = some st' ∧ MaskInv n wi (m - 2) st' := by
  obtain ⟨_, hj, hsl, hwl, hun, hpr⟩ := h
  have hl' : l'.length = m - 2 := by simp at hl; omega
  have hmn : m ≤ n := by rw [← hlen, hwi]; simp; omega
  have hj' : st.j = ((m - 1 : Nat) : Int) := by omega
  have hj2 : ((m - 1 : Nat) : Int) - 1 = ((m - 2 : Nat) : Int) := by omega
  have hw : wi[m - 1]? = some (F64.neg p) := by
    rw [hwi, List.append_assoc, List.getElem?_append_right (by omega)]
    have : m - 1 - l'.length = 1 := by omega
    simp [this]
  have hw2 : wi[m - 2]? = some p := by
    rw [hwi, List.append_assoc, List.getElem?_append_right (by omega)]
    simp [hl']
  have hnz := (lt_zero_neg p hp).1
  have hpre : ∃ pre post', wi = pre ++ post' ∧ pre.length = m - 2 ∧ isSchurForm pre = true :=
    ⟨l', [p, F64.neg p] ++ post, by rw [hwi, List.append_assoc], hl', hS⟩
  have hnew : ∀ a, m - 2 ≤ a → (∃ q, wi[a]? = some q ∧ F64.lt F64.zero q = true) →
      a = m - 2 ∨ m ≤ a := by
    intro a ha ⟨q, hq1, hq2⟩
    by_contra hc
    have : a = m - 1 := by omega
    subst this
    rw [hw] at hq1
    injection hq1 with hq1
    subst hq1
    rw [(lt_zero_neg p hp).2] at hq2
    cases hq2
  have e1 : m - 2 + 1 = m - 1 := by omega
  by_cases hq : st.nselc < imax 1 (n / 4)
  · refine ⟨{ selected := (st.selected.set (m - 1) true).set (m - 2) true,
              selectedWant := (st.selectedWant.set (m - 1) false).set (m - 2) true,
              nselr := st.nselr, nselc := st.nselc + 1, j := st.j - 2 }, ?_, ?_⟩
    · simp only [maskBody, hj', hj2, indexAt_natCast, hw, Option.bind_eq_bind, Option.some_bind,
        hnz, Bool.false_eq_true, if_false, hq, if_true,
        assignAt_natCast st.selected (m - 1) true (by omega),
        assignAt_natCast st.selectedWant (m - 1) false (by omega),
        assignAt_natCast (st.selected.set (m - 1) true) (m - 2) true (by simp; omega),
        assignAt_natCast (st.selectedWant.set (m - 1) false) (m - 2) true (by simp; omega)]
      rfl
    · refine ⟨hpre, by simp only; omega, by simp [hsl], by simp [hwl], ?_, ?_⟩
      · intro i hi
        simp only
        rw [getElem?_set_ne_idx _ _ _ _ (by omega), getElem?_set_ne_idx _ _ _ _ (by omega),
          getElem?_set_ne_idx _ _ _ _ (by omega), getElem?_set_ne_idx _ _ _ _ (by omega)]
        exact hun i (by omega)
      · intro a ha han hpa
        rcases hnew a ha hpa with rfl | ham
        · simp only [PairMarked, e1]
          rw [getElem?_set_ne_idx _ _ _ _ (by omega),
            getElem?_set_same _ _ _ (by omega),
            getElem?_set_same _ _ _ (by simp; omega),
            getElem?_set_ne_idx _ _ _ _ (by omega),
            getElem?_set_same _ _ _ (by omega),
            getElem?_set_same _ _ _ (by simp; omega)]
          exact ⟨rfl, rfl, rfl⟩
        · obtain ⟨h1, h2, h3⟩ := hpr a ham han hpa
          simp only [PairMarked]
          rw [getElem?_set_ne_idx _ _ _ _ (by omega), getElem?_set_ne_idx _ _ _ _ (by omega),
            getElem?_set_ne_idx _ _ _ _ (by omega), getElem?_set_ne_idx _ _ _ _ (by omega),
            getElem?_set_ne_idx _ _ _ _ (by omega), getElem?_set_ne_idx _ _ _ _ (by omega),
            getElem?_set_ne_idx _ _ _ _ (by omega), getElem?_set_ne_idx _ _ _ _ (by omega)]
          exact ⟨h1, h2, h3⟩
  · refine ⟨{ st with j := st.j - 2 }, ?_, ?_⟩
    · simp only [maskBody, hj', indexAt_natCast, hw, Option.bind_eq_bind, Option.some_bind,
        hnz, Bool.false_eq_true, if_false, hq]
      rfl
    · refine ⟨hpre, by simp only; omega, hsl, hwl, ?_, ?_⟩
      · intro i hi
        exact hun i (by omega)
      · intro a ha han hpa
        rcases hnew a ha hpa with rfl | ham
        · have u1 := hun (m - 2) (by omega)
          have u2 := hun (m - 1) (by omega)
          simp only [PairMarked, e1]
          exact ⟨u2.2, by rw [u1.1, u2.1], by rw [u1.1, u1.2]⟩
        · exact hpr a ham han hpa

/-- The mask construction terminates within `m` iterations and keeps its invariant. -/
theorem maskLoop_inv (n : Nat) (wi : List F64) (hlen : wi.length = n) :
    ∀ (fuel m : Nat) (st : MaskState), m ≤ fuel → MaskInv n wi m st →
      ∃ st' m', maskLoop fuel n wi st = some st' ∧ m' ≤ 1 ∧ MaskInv n wi m' st' := by
  intro fuel
  induction fuel with
  | zero =>
    intro m st hm h
    have hj := h.2.1
    refine ⟨st, m, ?_, by omega, h⟩
    simp only [maskLoop]
    rw [if_neg (by omega)]
  | succ fuel ih =>
    intro m st hm h
    by_cases h2 : 2 ≤ m
    · have hj := h.2.1
      obtain ⟨pre, post, hwi, hpl, hpS⟩ := h.1
      have hstep : ∃ st' m', maskBody n wi st = some st' ∧ m' < m ∧ MaskInv n wi m' st' := by
        rcases isSchurForm_snoc pre.length pre rfl hpS (by intro e; rw [e] at hpl; simp at hpl; omega)
          with ⟨l', z, e, hz, hl'⟩ | ⟨l', p, e, hp, hl'⟩
        · obtain ⟨st', hs1, hs2⟩ := maskBody_real n wi hlen m st h2 h l' z post
            (by rw [hwi, e]) (by rw [← e]; exact hpl) hz hl'
          exact ⟨st', m - 1, hs1, by omega, hs2⟩
        · obtain ⟨st', hs1, hs2⟩ := maskBody_pair n wi hlen m st h2 h l' p post
            (by rw [hwi, e]) (by rw [← e]; exact hpl) hp hl'
          exact ⟨st', m - 2, hs1, by omega, hs2⟩
      obtain ⟨st1, m1, hs1, hm1, hI1⟩ := hstep
      obtain ⟨st2, m2, hs2, hm2, hI2⟩ := ih m1 st1 (by omega) hI1
      refine ⟨st2, m2, ?_, hm2, hI2⟩
      simp only [maskLoop]
      rw [if_pos (by omega), hs1]
      exact hs2
    · have hj := h.2.1
      refine ⟨st, m, ?_, by omega, h⟩
      simp only [maskLoop]
      rw [if_neg (by omega)]

/-- C10 (amended): for every `n` and every `wi` of length `n` in Schur pairing form, the mask
construction returns, and for every complex pair at columns `(j, j+1)` that it selects (an input
mask entry of the pair is true) the expected mask has `selectedWant[j] = true` and
`selectedWant[j+1] = false`: the selected pair is marked at the lower of its two indices. -/
theorem C10_pair_marked_at_lower_index (n : Nat) (wi : List F64) (hlen : wi.length = n)
    (hS : isSchurForm wi = true) :
    ∃ st, selectMask n wi = some st ∧
      ∀ j p, j + 1 < n → wi[j]? = some p → F64.lt F64.zero p = true →
        (st.selected[j]? = some true ∨ st.selected[j + 1]? = some true) →
        st.selectedWant[j]? = some true ∧ st.selectedWant[j + 1]? = some false := by
  have h0 : MaskInv n wi n
      { selected := List.replicate n false, selectedWant := List.replicate n false,
        nselr := 0, nselc := 0, j := (n : Int) - 1 } := by
    refine ⟨⟨wi, [], by simp, hlen, hS⟩, rfl, by simp, by simp, ?_, ?_⟩
    · intro i hi; simp [hi]
    · intro a ha han _; omega
  obtain ⟨st, m, hst, hm, hI⟩ := maskLoop_inv n wi hlen n n _ (le_refl _) h0
  refine ⟨st, hst, ?_⟩
  intro j p hj hp hpos hsel
  obtain ⟨⟨pre, post, hwi, hpl, hpS⟩, _, _, _, _, hpr⟩ := hI
  have hmj : m ≤ j := by
    by_contra hc
    have hm1 : m = 1 := by omega
    have hj0 : j = 0 := by omega
    subst hj0
    match pre, hpl, hpS with
    | [z], _, hz =>
      rw [hwi] at hp
      simp at hp
      subst hp
      simp only [isSchurForm] at hz
      rw [eq_zero_not_lt _ hz] at hpos
      cases hpos
    | [], hpl, _ => simp at hpl; omega
    | _ :: _ :: _, hpl, _ => simp at hpl; omega
  obtain ⟨h1, h2, h3⟩ := hpr j hmj hj ⟨p, hp, hpos⟩
  have hs : st.selected[j]? = some true := by
    rcases hsel with h | h
    · exact h
    · rw [h2, h]
  exact ⟨by rw [h3, hs], h1⟩

/-- Witness of C10 (amended) for `n = 3` and `wi = [0, 1, -1]`. -/
theorem C10_pair_marked_at_lower_index_witness :
    ∃ st, selectMask 3 [F64.zero, F64.one, F64.neg F64.one] = some st ∧
      ∀ j p, j + 1 < 3 → [F64.zero, F64.one, F64.neg F64.one][j]? = some p →
        F64.lt F64.zero p = true →
        (st.selected[j]? = some true ∨ st.selected[j + 1]? = some true) →
        st.selectedWant[j]? = some true ∧ st.selectedWant[j + 1]? = some false :=
  C10_pair_marked_at_lower_index 3 [F64.zero, F64.one, F64.neg F64.one] rfl (by decide!)

/-! ## Further claims on `stat.ROC` -/

theorem cum_not (classes : List Bool) (weights : Option (List F64)) (b : Bool) :
    ∀ m, cum (classes.map (fun c => !c)) weights b m = cum classes weights (!b) m := by
  intro m
  induction m with
  | zero => rfl
  | succ m ih =>
    have e : ((classes.map (fun c => !c))[m]? = some b) ↔ (classes[m]? = some (!b)) := by
      rw [List.getElem?_map]
      cases classes[m]? with
      | none => simp
      | some c => cases c <;> cases b <;> simp
    simp only [cum, e, ih]

theorem rate_not (classes : List Bool) (weights : Option (List F64)) (b : Bool) (k : Nat) :
    rate (classes.map (fun c => !c)) weights b k = rate classes weights (!b) k := by
  unfold rate total
  rw [cum_not, cum_not, List.length_map]

/-- C18: negating every label swaps the two outputs of `ROC` (and a call that panics still
panics). -/
theorem C18_negation_swaps_outputs (classes : List Bool) (weights : Option (List F64)) :
    ROC (classes.map (fun c => !c)) weights = (ROC classes weights).map (fun p => (p.2, p.1)) := by
  have hl : (classes.map (fun c => !c)).length = classes.length := List.length_map _ _
  by_cases hm : lengthMismatch classes weights = true
  · have hm' : lengthMismatch (classes.map (fun c => !c)) weights = true := by
      cases weights with
      | none => simp [lengthMismatch] at hm
      | some ws => simpa [lengthMismatch] using hm
    simp [ROC, hm, hm']
  · have hm0 : lengthMismatch classes weights = false := by simpa using hm
    have hm' : lengthMismatch (classes.map (fun c => !c)) weights = false := by
      cases weights with
      | none => rfl
      | some ws => simpa [lengthMismatch] using hm0
    by_cases hN : classes.length = 0
    · have hc : classes = [] := List.length_eq_zero.mp hN
      subst hc
      simp [ROC, hm0]
    · rw [ROC_eq classes weights hm0 hN, ROC_eq _ weights hm' (by rw [hl]; exact hN), hl]
      have e1 : rate (classes.map (fun c => !c)) weights true = rate classes weights false :=
        funext (rate_not classes weights true)
      have e2 : rate (classes.map (fun c => !c)) weights false = rate classes weights true :=
        funext (rate_not classes weights false)
      rw [e1, e2]
      rfl

/-- C13 (as stated, refuted): for five true labels and one false label without weights, the
cumulative count of the first `m = 3` inputs is `c = 3` and `nPos = 5`; the value stored at
output index `N - m = 3` is `0.3999999999999999`, whereas `1 - 3/5` with a single division is
`0.4`. -/
theorem C13_counterexample :
    ROC [true, true, true, true, true, false] none =
      some ([F64.zero, F64.zero, F64.dy 900719925474099 52, F64.dy 900719925474099 51,
          F64.dy 5404319552844595 53, F64.dy 3602879701896397 52, F64.one],
        [F64.zero, F64.one, F64.one, F64.one, F64.one, F64.one, F64.one]) ∧
    cum [true, true, true, true, true, false] none true 3 = F64.ofNat 3 ∧
    total [true, true, true, true, true, false] none true = F64.ofNat 5 ∧
    F64.sub F64.one (F64.div (F64.ofNat 3) (F64.ofNat 5)) = F64.dy 3602879701896397 53 ∧
    F64.dy 900719925474099 51 ≠ F64.dy 3602879701896397 53 := by
  refine ⟨by decide!, by decide!, by decide!, by decide!, by decide!⟩

/-- C13 (amended): for `N ≥ 1` labels and weights absent or of length `N`, `ROC` normalises each
cumulative weight `c` of the true-labelled entries among the first `m` inputs as
`1 - c*(1/nPos)`, the product of `c` with the reciprocal `1/nPos` that is computed once, and
each false-labelled cumulative weight `d` as `1 - d*(1/nNeg)`; after the reversal these values
are stored at output index `N - m`. -/
theorem C13_reciprocal_normalisation (classes : List Bool) (weights : Option (List F64))
    (hw : ∀ ws, weights = some ws → ws.length = classes.length) (hN : 1 ≤ classes.length)
    (m : Nat) (hm : m ≤ classes.length) :
    ∃ tpr fpr, ROC classes weights = some (tpr, fpr) ∧
      tpr[classes.length - m]? = some (F64.sub F64.one (F64.mul (cum classes weights true m)
        (F64.div F64.one (total classes weights true)))) ∧
      fpr[classes.length - m]? = some (F64.sub F64.one (F64.mul (cum classes weights false m)
        (F64.div F64.one (total classes weights false)))) := by
  obtain ⟨tpr, fpr, h, _, _, hk⟩ := ROC_getElem? classes weights hw hN
  have e : classes.length - (classes.length - m) = m := by omega
  have h1 := hk (classes.length - m) (by omega)
  simp only [rate, e] at h1
  exact ⟨tpr, fpr, h, h1.1, h1.2⟩

/-- Witness of C13 (amended) on five true labels and one false label, at `m = 3`. -/
theorem C13_reciprocal_normalisation_witness :
    ∃ tpr fpr, ROC [true, true, true, true, true, false] none = some (tpr, fpr) ∧
      tpr[[true, true, true, true, true, false].length - 3]? =
        some (F64.sub F64.one
          (F64.mul (cum [true, true, true, true, true, false] none true 3)
            (F64.div F64.one (total [true, true, true, true, true, false] none true)))) ∧
      fpr[[true, true, true, true, true, false].length - 3]? =
        some (F64.sub F64.one
          (F64.mul (cum [true, true, true, true, true, false] none false 3)
            (F64.div F64.one (total [true, true, true, true, true, false] none false)))) :=
  C13_reciprocal_normalisation [true, true, true, true, true, false] none
    (by intro ws h; cases h) (by decide) 3 (by decide)

/-- C19 (as stated, refuted): for the labels `[false, true, true, true]` without weights both
totals are positive; at `k = 0` the driving entry `i = 3` is true with `w_i/nPos = 1/3`, but
`tpr[1] - tpr[0]` is `0.33333333333333337`, which is neither the float64 quotient `1.0/3.0` nor
the exact `1/3`. -/
theorem C19_counterexample :
    ROC [false, true, true, true] none =
      some ([F64.zero, F64.dy 3002399751580331 53, F64.dy 3002399751580331 52, F64.one,
          F64.one],
        [F64.zero, F64.zero, F64.zero, F64.zero, F64.one]) ∧
    F64.lt F64.zero (total [false, true, true, true] none true) = true ∧
    F64.lt F64.zero (total [false, true, true, true] none false) = true ∧
    total [false, true, true, true] none true = F64.ofNat 3 ∧
    F64.sub (F64.dy 3002399751580331 53) F64.zero = F64.dy 3002399751580331 53 ∧
    F64.dy 3002399751580331 53 ≠ F64.div F64.one (F64.ofNat 3) ∧
    (F64.dy 3002399751580331 53).toRat ≠ 1 / 3 := by
  refine ⟨by decide!, by decide!, by decide!, by decide!, by decide!, by decide!, by decide!⟩

/-- C19 (amended): for `N ≥ 1` labels, weights absent or of length `N`, and `k < N`, the outputs
form a staircase driven by the input entry `i = N-1-k` of weight `w_i`: if `classes[i]` is true
then `fpr[k+1] = fpr[k]`, and `tpr[k+1]`, `tpr[k]` are `1 - c*(1/nPos)` and
`1 - (c + w_i)*(1/nPos)` for the running float64 sum `c` of the true weights before `i`;
otherwise `tpr[k+1] = tpr[k]` and `fpr[k+1]`, `fpr[k]` are `1 - d*(1/nNeg)` and
`1 - (d + w_i)*(1/nNeg)`. At every step at least one of the two rates is unchanged. -/
theorem C19_staircase (classes : List Bool) (weights : Option (List F64))
    (hw : ∀ ws, weights = some ws → ws.length = classes.length) (hN : 1 ≤ classes.length)
    (k : Nat) (hk : k < classes.length) :
    ∃ tpr fpr w, ROC classes weights = some (tpr, fpr) ∧
      weightAt weights (classes.length - 1 - k) = some w ∧
      (classes[classes.length - 1 - k]? = some true →
        fpr[k + 1]? = fpr[k]? ∧
        tpr[k + 1]? = some (F64.sub F64.one
          (F64.mul (cum classes weights true (classes.length - 1 - k))
            (F64.div F64.one (total classes weights true)))) ∧
        tpr[k]? = some (F64.sub F64.one
          (F64.mul (F64.add (cum classes weights true (classes.length - 1 - k)) w)
            (F64.div F64.one (total classes weights true))))) ∧
      (classes[classes.length - 1 - k]? = some false →
        tpr[k + 1]? = tpr[k]? ∧
        fpr[k + 1]? = some (F64.sub F64.one
          (F64.mul (cum classes weights false (classes.length - 1 - k))
            (F64.div F64.one (total classes weights false)))) ∧
        fpr[k]? = some (F64.sub F64.one
          (F64.mul (F64.add (cum classes weights false (classes.length - 1 - k)) w)
            (F64.div F64.one (total classes weights false))))) ∧
      (tpr[k + 1]? = tpr[k]? ∨ fpr[k + 1]? = fpr[k]?) := by
  obtain ⟨tpr, fpr, h, _, _, hr⟩ := ROC_getElem? classes weights hw hN
  obtain ⟨w, hwi⟩ := weightAt_isSome classes weights (lengthMismatch_of_lengths classes weights hw)
    (classes.length - 1 - k) (by omega)
  have e1 : classes.length - (k + 1) = classes.length - 1 - k := by omega
  have e2 : classes.length - k = classes.length - 1 - k + 1 := by omega
  have hk0 := hr k (by omega)
  have hk1 := hr (k + 1) (by omega)
  simp only [rate, complement, e1] at hk1
  simp only [rate, complement] at hk0
  rw [e2] at hk0
  have key : ∀ b, classes[classes.length - 1 - k]? = some b →
      cum classes weights b (classes.length - 1 - k + 1) =
        F64.add (cum classes weights b (classes.length - 1 - k)) w ∧
      cum classes weights (!b) (classes.length - 1 - k + 1) =
        cum classes weights (!b) (classes.length - 1 - k) := by
    intro b hb
    exact ⟨cum_succ_of_eq classes weights b _ w hb hwi,
      cum_succ_of_ne classes weights (!b) _ (by simpa using hb)⟩
  have hT : classes[classes.length - 1 - k]? = some true → fpr[k + 1]? = fpr[k]? := by
    intro hb
    have c2 := (key true hb).2
    simp only [Bool.not_true] at c2
    rw [hk1.2, hk0.2, c2]
  have hF : classes[classes.length - 1 - k]? = some false → tpr[k + 1]? = tpr[k]? := by
    intro hb
    have c2 := (key false hb).2
    simp only [Bool.not_false] at c2
    rw [hk1.1, hk0.1, c2]
  refine ⟨tpr, fpr, w, h, hwi, ?_, ?_, ?_⟩
  · intro hb
    refine ⟨hT hb, hk1.1, ?_⟩
    rw [hk0.1, (key true hb).1]
  · intro hb
    refine ⟨hF hb, hk1.2, ?_⟩
    rw [hk0.2, (key false hb).1]
  · have hc : classes[classes.length - 1 - k]? = some classes[classes.length - 1 - k] := by
      simp
    cases hcb : classes[classes.length - 1 - k] with
    | true => rw [hcb] at hc; exact Or.inr (hT hc)
    | false => rw [hcb] at hc; exact Or.inl (hF hc)

/-- Witness of C19 (amended) on the labels `[false, true, true, true]` without weights, at
`k = 0`. -/
theorem C19_staircase_witness :
    ∃ tpr fpr w, ROC [false, true, true, true] none = some (tpr, fpr) ∧
      weightAt none ([false, true, true, true].length - 1 - 0) = some w ∧
      ([false, true, true, true][[false, true, true, true].length - 1 - 0]? = some true →
        fpr[0 + 1]? = fpr[0]? ∧
        tpr[0 + 1]? = some (F64.sub F64.one
          (F64.mul (cum [false, true, true, true] none true
              ([false, true, true, true].length - 1 - 0))
            (F64.div F64.one (total [false, true, true, true] none true)))) ∧
        tpr[0]? = some (F64.sub F64.one
          (F64.mul (F64.add (cum [false, true, true, true] none true
              ([false, true, true, true].length - 1 - 0)) w)
            (F64.div F64.one (total [false, true, true, true] none true))))) ∧
      ([false, true, true, true][[false, true, true, true].length - 1 - 0]? = some false →
        tpr[0 + 1]? = tpr[0]? ∧
        fpr[0 + 1]? = some (F64.sub F64.one
          (F64.mul (cum [false, true, true, true] none false
              ([false, true, true, true].length - 1 - 0))
            (F64.div F64.one (total [false, true, true, true] none false)))) ∧
        fpr[0]? = some (F64.sub F64.one
          (F64.mul (F64.add (cum [false, true, true, true] none false
              ([false, true, true, true].length - 1 - 0)) w)
            (F64.div F64.one (total [false, true, true, true] none false))))) ∧
      (tpr[0 + 1]? = tpr[0]? ∨ fpr[0 + 1]? = fpr[0]?) :=
  C19_staircase [false, true, true, true] none (by intro ws h; cases h) (by decide) 0
    (by decide)

/-! ## `residualEVNormalization`: index safety and value -/

theorem indexAt_inRange (l : List F64) (i : Int) (h0 : 0 ≤ i) (h1 : i < l.length) :
    ∃ x, indexAt l i = some x := by
  have h2 : i.toNat < l.length := by omega
  exact ⟨l[i.toNat], by simp [indexAt, Int.not_lt.mpr h0, h2]⟩

/-- Offsets of the entries `(i, j)` with `i, j < n` lie inside the buffer. -/
theorem offset_inRange (e : General) (n i j : Nat) (hi : i < n) (hj : j < n)
    (hC : (n : Int) ≤ e.Cols) (hS : e.Cols ≤ e.Stride)
    (hD : ((n : Int) - 1) * e.Stride + n ≤ e.Data.length) :
    0 ≤ (i : Int) * e.Stride + j ∧ (i : Int) * e.Stride + j < e.Data.length := by
  have hs : (0 : Int) ≤ e.Stride := by omega
  have h1 : (i : Int) * e.Stride ≤ ((n : Int) - 1) * e.Stride :=
    Int.mul_le_mul_of_nonneg_right (by omega) hs
  have h2 : (0 : Int) ≤ (i : Int) * e.Stride := Int.mul_nonneg (by omega) hs
  constructor <;> omega

theorem realNorm_some (e : General) (n j : Nat) (hj : j < n)
    (hC : (n : Int) ≤ e.Cols) (hS : e.Cols ≤ e.Stride)
    (hD : ((n : Int) - 1) * e.Stride + n ≤ e.Data.length) :
    ∃ nrm, forLoop (realNormBody e j) n 0 F64.zero = some nrm := by
  obtain ⟨nrm, h, _⟩ := forLoop_inv (realNormBody e j) (fun _ _ => True) n 0 F64.zero trivial
    (by
      intro i s _ hi _
      obtain ⟨h0, h1⟩ := offset_inRange e n i j (by omega) hj hC hS hD
      obtain ⟨x, hx⟩ := indexAt_inRange e.Data _ h0 h1
      exact ⟨F64.max s (F64.abs x), by simp [realNormBody, hx], trivial⟩)
  exact ⟨nrm, h⟩

theorem pairNorm_some (e : General) (n j : Nat) (hj : j + 1 < n)
    (hC : (n : Int) ≤ e.Cols) (hS : e.Cols ≤ e.Stride)
    (hD : ((n : Int) - 1) * e.Stride + n ≤ e.Data.length) :
    ∃ nrm, forLoop (pairNormBody e j) n 0 F64.zero = some nrm := by
  obtain ⟨nrm, h, _⟩ := forLoop_inv (pairNormBody e j) (fun _ _ => True) n 0 F64.zero trivial
    (by
      intro i s _ hi _
      obtain ⟨h0, h1⟩ := offset_inRange e n i j (by omega) (by omega) hC hS hD
      obtain ⟨x, hx⟩ := indexAt_inRange e.Data _ h0 h1
      obtain ⟨h2, h3⟩ := offset_inRange e n i (j + 1) (by omega) hj hC hS hD
      have e1 : (i : Int) * e.Stride + ((j + 1 : Nat) : Int) = (i : Int) * e.Stride + j + 1 := by
        push_cast; omega
      rw [e1] at h2 h3
      obtain ⟨y, hy⟩ := indexAt_inRange e.Data _ h2 h3
      exact ⟨F64.max s (F64.add (F64.abs x) (F64.abs y)), by simp [pairNormBody, hx, hy],
        trivial⟩)
  exact ⟨nrm, h⟩

/-- One column of `residualEVNormalization` on a well-formed matrix: no index is out of range,
and the pair tracker is in state `2` afterwards only if a further column exists. -/
theorem columnBody_some (e : General) (wi : List F64) (n j : Nat) (st : NormState)
    (hR : e.Rows = n) (hC : (n : Int) ≤ e.Cols) (hS : e.Cols ≤ e.Stride)
    (hD : ((n : Int) - 1) * e.Stride + n ≤ e.Data.length) (hlen : wi.length = n)
    (hj : j < n) (hst : st.ipair = 0 ∨ (st.ipair = 2 ∧ j < n)) :
    ∃ st', columnBody e wi j st = some st' ∧ (st'.ipair = 0 ∨ (st'.ipair = 2 ∧ j + 1 < n)) := by
  have hRn : e.Rows.toNat = n := by rw [hR]; simp
  rcases hst with h0 | ⟨h2, _⟩
  · by_cases hlast : (j : Int) < e.Rows - 1
    · have hj1 : j + 1 < n := by rw [hR] at hlast; omega
      have hw : wi[j]? = some wi[j] := by simp [hlen, hj]
      by_cases hne : F64.ne wi[j] F64.zero = true
      · obtain ⟨nrm, hn⟩ := pairNorm_some e n j hj1 hC hS hD
        refine ⟨{ enrmin := F64.min st.enrmin nrm, enrmax := F64.max st.enrmax nrm, ipair := 2 },
          ?_, Or.inr ⟨rfl, hj1⟩⟩
        simp [columnBody, h0, hlast, hw, hne, hRn, hn]
      · obtain ⟨nrm, hn⟩ := realNorm_some e n j hj hC hS hD
        refine ⟨{ enrmin := F64.min st.enrmin nrm, enrmax := F64.max st.enrmax nrm, ipair := 0 },
          ?_, Or.inl rfl⟩
        simp [columnBody, h0, hlast, hw, hne, hRn, hn]
    · obtain ⟨nrm, hn⟩ := realNorm_some e n j hj hC hS hD
      refine ⟨{ enrmin := F64.min st.enrmin nrm, enrmax := F64.max st.enrmax nrm, ipair := 0 },
        ?_, Or.inl rfl⟩
      simp [columnBody, h0, hlast, hRn, hn]
  · refine ⟨{ enrmin := st.enrmin, enrmax := st.enrmax, ipair := 0 }, ?_, Or.inl rfl⟩
    simp [columnBody, h2]

/-- The column loop of `residualEVNormalization` on a well-formed matrix returns after any
number `j ≤ n` of columns, with the pair tracker in state `0`, or in state `2` with `j < n`. -/
theorem columnLoop_some (e : General) (wi : List F64) (n : Nat)
    (hR : e.Rows = n) (hC : (n : Int) ≤ e.Cols) (hS : e.Cols ≤ e.Stride)
    (hD : ((n : Int) - 1) * e.Stride + n ≤ e.Data.length) (hlen : wi.length = n) :
    ∀ j, j ≤ n → ∃ st, forLoop (columnBody e wi) j 0
        { enrmin := F64.inf false, enrmax := F64.zero, ipair := 0 } = some st ∧
      (st.ipair = 0 ∨ (st.ipair = 2 ∧ j + 1 ≤ n)) := by
  intro j hj
  obtain ⟨st, h1, h2⟩ := forLoop_inv (columnBody e wi)
    (fun c st => st.ipair = 0 ∨ (st.ipair = 2 ∧ c < n)) j 0
    { enrmin := F64.inf false, enrmax := F64.zero, ipair := 0 } (Or.inl rfl)
    (fun c s _ hc hI => columnBody_some e wi n c s hR hC hS hD hlen (by omega) hI)
  refine ⟨st, h1, ?_⟩
  rcases h2 with h | ⟨h, h'⟩
  · exact Or.inl h
  · exact Or.inr ⟨h, by omega⟩

/-- C17: for `n ≥ 1`, a matrix with `Rows = n`, `Cols ≥ n`, `Stride ≥ Cols` and
`len(Data) ≥ (n-1)*Stride + n`, and any `wi` of length `n`, `residualEVNormalization` returns
(no index into `E.Data` or `wi` is out of range), and after any number `j ≤ n` of columns the
pair tracker is in state `0`, or in state `2` with `j ≤ n - 1`: the pair-norm branch, which reads
the next column, is only taken when that column exists. -/
theorem C17_residual_index_safety (e : General) (wi : List F64) (n : Nat) (hn : 1 ≤ n)
    (hR : e.Rows = n) (hC : (n : Int) ≤ e.Cols) (hS : e.Cols ≤ e.Stride)
    (hD : ((n : Int) - 1) * e.Stride + n ≤ e.Data.length) (hlen : wi.length = n) :
    (∃ v, residualEVNormalization e wi = some v) ∧
    ∀ j, j ≤ n → ∃ st, forLoop (columnBody e wi) j 0
        { enrmin := F64.inf false, enrmax := F64.zero, ipair := 0 } = some st ∧
      (st.ipair = 0 ∨ (st.ipair = 2 ∧ j + 1 ≤ n)) := by
  have hloop := columnLoop_some e wi n hR hC hS hD hlen
  refine ⟨?_, hloop⟩
  obtain ⟨st, h1, _⟩ := hloop n (le_refl _)
  have hR0 : e.Rows ≠ 0 := by rw [hR]; omega
  have hRn : e.Rows.toNat = n := by rw [hR]; simp
  exact ⟨F64.max (F64.abs (F64.sub st.enrmin F64.one)) (F64.abs (F64.sub st.enrmin F64.one)),
    by simp [residualEVNormalization, hR0, hRn, h1]⟩

/-- Witness of C17 on the matrix `diag(1, 3)` stored with stride `3`. -/
theorem C17_residual_index_safety_witness :
    (∃ v, residualEVNormalization
        { Rows := 2, Cols := 2, Stride := 3,
          Data := [F64.one, F64.zero, F64.nan, F64.zero, F64.ofNat 3] }
        [F64.one, F64.neg F64.one] = some v) ∧
    ∀ j, j ≤ 2 → ∃ st, forLoop (columnBody
        { Rows := 2, Cols := 2, Stride := 3,
          Data := [F64.one, F64.zero, F64.nan, F64.zero, F64.ofNat 3] }
        [F64.one, F64.neg F64.one]) j 0
        { enrmin := F64.inf false, enrmax := F64.zero, ipair := 0 } = some st ∧
      (st.ipair = 0 ∨ (st.ipair = 2 ∧ j + 1 ≤ 2)) :=
  C17_residual_index_safety
    { Rows := 2, Cols := 2, Stride := 3,
      Data := [F64.one, F64.zero, F64.nan, F64.zero, F64.ofNat 3] }
    [F64.one, F64.neg F64.one] 2 (by decide) rfl (by decide) (by decide) (by decide) rfl

theorem forLoop_succ {σ : Type} (body : Nat → σ → Option σ) (n i : Nat) (s : σ) :
    forLoop body (n + 1) i s = (body i s).bind (forLoop body n (i + 1)) := rfl

theorem drop_cons_facts (wi : List F64) (j : Nat) (w : F64) (rest : List F64)
    (h : wi.drop j = w :: rest) : wi[j]? = some w ∧ wi.drop (j + 1) = rest := by
  constructor
  · have := congrArg (fun l => l[0]?) h
    simpa using this
  · have : (wi.drop j).drop 1 = rest := by rw [h]; rfl
    rw [List.drop_drop] at this
    exact this

theorem eigenvectorNorms_nil (e : General) (fuel j : Nat) :
    eigenvectorNorms e fuel j [] = some [] := by
  cases fuel <;> rfl

/-- The column loop of `residualEVNormalization` from column `j` on, started with the pair
tracker in state `0`, folds `math.Min` and `math.Max` over the eigenvector max-norms of the
remaining columns. -/
theorem columnLoop_eq (e : General) (wi : List F64) (n : Nat) (hR : e.Rows = n)
    (hlen : wi.length = n) :
    ∀ (r fuel j : Nat) (st : NormState) (ws : List F64), st.ipair = 0 → wi.drop j = ws →
      ws.length = r → r ≤ fuel →
      forLoop (columnBody e wi) r j st =
        (eigenvectorNorms e fuel j ws).map (fun norms =>
          ({ enrmin := norms.foldl F64.min st.enrmin, enrmax := norms.foldl F64.max st.enrmax,
             ipair := 0 } : NormState)) := by
  intro r
  induction r using Nat.strong_induction_on with
  | _ r ih =>
    intro fuel j st ws h0 hd hl hf
    match ws, hd, hl with
    | [], _, hl =>
      subst hl
      rw [eigenvectorNorms_nil]
      cases st
      simp only at h0
      subst h0
      rfl
    | [w], hd, hl =>
      obtain ⟨hw, _⟩ := drop_cons_facts wi j w [] hd
      have hj : j + 1 = n := by
        have := congrArg List.length hd
        simp at this
        omega
      have hlast : ¬ ((j : Int) < e.Rows - 1) := by rw [hR]; omega
      obtain ⟨f, rfl⟩ : ∃ f, fuel = f + 1 := ⟨fuel - 1, by simp at hl; omega⟩
      obtain rfl : r = 1 := by simp at hl; omega
      have hc : columnBody e wi j st =
          (forLoop (realNormBody e j) e.Rows.toNat 0 F64.zero).bind (fun nrm =>
            some { enrmin := F64.min st.enrmin nrm, enrmax := F64.max st.enrmax nrm,
                   ipair := 0 }) := by
        simp [columnBody, h0, hlast]
      rw [forLoop_succ, hc]
      simp only [eigenvectorNorms, eigenvectorNorms_nil]
      cases forLoop (realNormBody e j) e.Rows.toNat 0 F64.zero with
      | none => rfl
      | some nrm => rfl
    | w :: w1 :: ws', hd, hl =>
      obtain ⟨hw, hd1⟩ := drop_cons_facts wi j w (w1 :: ws') hd
      obtain ⟨_, hd2⟩ := drop_cons_facts wi (j + 1) w1 ws' hd1
      have hj : j + ws'.length + 2 = n := by
        have := congrArg List.length hd
        simp at this
        omega
      have hnl : (j : Int) < e.Rows - 1 := by rw [hR]; omega
      obtain ⟨f, rfl⟩ : ∃ f, fuel = f + 1 := ⟨fuel - 1, by simp at hl; omega⟩
      obtain ⟨r', rfl⟩ : ∃ r', r = r' + 2 := ⟨ws'.length, by simp at hl; omega⟩
      have hr' : ws'.length = r' := by simp at hl; omega
      by_cases hne : F64.ne w F64.zero = true
      · have hc : columnBody e wi j st =
            (forLoop (pairNormBody e j) e.Rows.toNat 0 F64.zero).bind (fun nrm =>
              some { enrmin := F64.min st.enrmin nrm, enrmax := F64.max st.enrmax nrm,
                     ipair := 2 }) := by
          simp [columnBody, h0, hnl, hw, hne]
        have hc2 : ∀ a b, columnBody e wi (j + 1) { enrmin := a, enrmax := b, ipair := 2 } =
            some { enrmin := a, enrmax := b, ipair := 0 } := by
          intro a b
          simp [columnBody]
        rw [forLoop_succ, hc]
        simp only [eigenvectorNorms, hne, if_true]
        cases forLoop (pairNormBody e j) e.Rows.toNat 0 F64.zero with
        | none => rfl
        | some nrm =>
          simp only [Option.bind_eq_bind, Option.some_bind]
          rw [forLoop_succ, hc2, Option.some_bind,
            ih r' (by omega) f (j + 1 + 1) _ ws' rfl hd2 hr' (by omega)]
          cases eigenvectorNorms e f (j + 2) ws' with
          | none => rfl
          | some rest => rfl
      · have hc : columnBody e wi j st =
            (forLoop (realNormBody e j) e.Rows.toNat 0 F64.zero).bind (fun nrm =>
              some { enrmin := F64.min st.enrmin nrm, enrmax := F64.max st.enrmax nrm,
                     ipair := 0 }) := by
          simp [columnBody, h0, hnl, hw, hne]
        rw [forLoop_succ, hc]
        simp only [eigenvectorNorms, hne]
        cases forLoop (realNormBody e j) e.Rows.toNat 0 F64.zero with
        | none => rfl
        | some nrm =>
          simp only [Option.bind_eq_bind, Option.some_bind]
          rw [ih (r' + 1) (by omega) f (j + 1) _ (w1 :: ws') rfl hd1 (by simp; omega) (by omega)]
          cases eigenvectorNorms e f (j + 1) (w1 :: ws') with
          | none => rfl
          | some rest => rfl

namespace F64

theorem max_self (x : F64) : max x x = x := by
  unfold max
  by_cases h : x = inf false
  · simp [h]
  · cases x with
    | nan => simp [isNaN]
    | inf s => cases s <;> simp_all [isNaN, eq, lt, ord, zero, signbit]
    | fin s k => simp [isNaN, lt]

theorem ord_zero : ord zero = 0 := by simp [zero, ord]

/-- On numbers that are not negative, `math.Min` returns one of its arguments, and it is at
most both of them. -/
theorem min_num (x y : F64) (hx : le zero x = true) (hy : le zero y = true) :
    (min x y = x ∨ min x y = y) ∧ le (min x y) x = true ∧ le (min x y) y = true := by
  rw [le_iff, ord_zero] at hx hy
  obtain ⟨_, nx, ox⟩ := hx
  obtain ⟨_, ny, oy⟩ := hy
  have tp := top_pos
  have ix : x ≠ inf true := by
    rintro rfl
    simp [ord] at ox
    omega
  have iy : y ≠ inf true := by
    rintro rfl
    simp [ord] at oy
    omega
  unfold min
  rw [if_neg (by simp [ix, iy]), nx, ny]
  simp only [Bool.or_false, Bool.false_eq_true, if_false]
  by_cases h1 : (eq x zero && eq x y) = true
  · rw [if_pos h1]
    have hxy : x.ord = y.ord := by
      simp [eq] at h1
      exact h1.2.2
    by_cases h2 : signbit x = true
    · rw [if_pos h2]
      exact ⟨Or.inl rfl, (le_iff _ _).2 ⟨nx, nx, le_refl _⟩, (le_iff _ _).2 ⟨nx, ny, by omega⟩⟩
    · rw [if_neg h2]
      exact ⟨Or.inr rfl, (le_iff _ _).2 ⟨ny, nx, by omega⟩, (le_iff _ _).2 ⟨ny, ny, le_refl _⟩⟩
  · rw [if_neg h1]
    by_cases h2 : lt x y = true
    · rw [if_pos h2]
      have : x.ord < y.ord := by
        simp [lt] at h2
        exact h2.2
      exact ⟨Or.inl rfl, (le_iff _ _).2 ⟨nx, nx, le_refl _⟩, (le_iff _ _).2 ⟨nx, ny, by omega⟩⟩
    · rw [if_neg h2]
      have : y.ord ≤ x.ord := by
        simp [lt, nx, ny] at h2
        exact h2
      exact ⟨Or.inr rfl, (le_iff _ _).2 ⟨ny, nx, by omega⟩, (le_iff _ _).2 ⟨ny, ny, le_refl _⟩⟩

theorem le_trans {x y z : F64} (h1 : le x y = true) (h2 : le y z = true) : le x z = true := by
  rw [le_iff] at *
  exact ⟨h1.1, h2.2.1, Int.le_trans h1.2.2 h2.2.2⟩

/-- Starting from `+Inf`, `math.Min` returns the other argument when it is a number in
`[0, +Inf]`. -/
theorem min_inf (x : F64) (h0 : le zero x = true) (h1 : le x (inf false) = true) :
    min (inf false) x = x := by
  rw [le_iff] at h0 h1
  rw [ord_zero] at h0
  obtain ⟨_, nx, ox⟩ := h0
  have tx : x.ord ≤ top := by simpa [ord] using h1.2.2
  have tp := top_pos
  have ix : x ≠ inf true := by
    rintro rfl
    simp [ord] at ox
    omega
  have e1 : eq (inf false) zero = false := by
    simp [eq, isNaN, ord, zero]
    omega
  have e2 : lt (inf false) x = false := by
    simp [lt, isNaN, ord]
    intro _
    exact tx
  unfold min
  rw [if_neg (by simp [ix]), nx, e1, e2]
  simp [isNaN]

/-- Folding `math.Min` over numbers that are not negative gives the start value or a member of
the list, and a lower bound of both. -/
theorem foldl_min_num : ∀ (norms : List F64) (acc : F64), le zero acc = true →
    (∀ x ∈ norms, le zero x = true) →
    (norms.foldl min acc = acc ∨ norms.foldl min acc ∈ norms) ∧
      le (norms.foldl min acc) acc = true ∧ ∀ x ∈ norms, le (norms.foldl min acc) x = true := by
  intro norms
  induction norms with
  | nil =>
    intro acc ha _
    refine ⟨Or.inl rfl, ?_, by simp⟩
    rw [le_iff] at *
    exact ⟨ha.2.1, ha.2.1, le_refl _⟩
  | cons y rest ih =>
    intro acc ha hall
    have hy : le zero y = true := hall y (List.mem_cons_self _ _)
    obtain ⟨hm, l1, l2⟩ := min_num acc y ha hy
    have hmin : le zero (min acc y) = true := by
      rcases hm with h | h <;> rw [h] <;> assumption
    obtain ⟨m1, m2, m3⟩ := ih (min acc y) hmin
      (fun x hx => hall x (List.mem_cons_of_mem _ hx))
    rw [List.foldl_cons]
    refine ⟨?_, le_trans m2 l1, ?_⟩
    · rcases m1 with h | h
      · rw [h]
        rcases hm with h' | h'
        · exact Or.inl h'
        · exact Or.inr (by rw [h']; exact List.mem_cons_self _ _)
      · exact Or.inr (List.mem_cons_of_mem _ h)
    · intro x hx
      rcases List.mem_cons.1 hx with rfl | hx'
      · exact le_trans m2 l2
      · exact m3 x hx'

end F64

theorem eigenvectorNorms_ne_nil (e : General) (fuel j : Nat) (w : F64) (ws norms : List F64)
    (h : eigenvectorNorms e (fuel + 1) j (w :: ws) = some norms) : norms ≠ [] := by
  cases ws with
  | nil =>
    simp only [eigenvectorNorms, Option.bind_eq_bind, Option.pure_def] at h
    cases h1 : forLoop (realNormBody e j) e.Rows.toNat 0 F64.zero with
    | none => simp [h1] at h
    | some nrm =>
      cases h2 : eigenvectorNorms e fuel (j + 1) [] with
      | none => simp [h1, h2] at h
      | some rest =>
        simp [h1, h2] at h
        rw [← h]
        exact List.cons_ne_nil _ _
  | cons w1 ws' =>
    simp only [eigenvectorNorms, Option.bind_eq_bind, Option.pure_def] at h
    split at h
    · cases h1 : forLoop (pairNormBody e j) e.Rows.toNat 0 F64.zero with
      | none => simp [h1] at h
      | some nrm =>
        cases h2 : eigenvectorNorms e fuel (j + 2) ws' with
        | none => simp [h1, h2] at h
        | some rest =>
          simp [h1, h2] at h
          rw [← h]
          exact List.cons_ne_nil _ _
    · cases h1 : forLoop (realNormBody e j) e.Rows.toNat 0 F64.zero with
      | none => simp [h1] at h
      | some nrm =>
        cases h2 : eigenvectorNorms e fuel (j + 1) (w1 :: ws') with
        | none => simp [h1, h2] at h
        | some rest =>
          simp [h1, h2] at h
          rw [← h]
          exact List.cons_ne_nil _ _

/-! ## Phase B of `dtrevc3Test`: the mask construction and the column matching -/

/-- C11 (the code departs from the stated selection): the loop `for j := n - 1; j > 0;` never
visits index `0`. For `n = 1` and `wi = [0]` (one real eigenvalue, `min(R, max(1, n/4)) = 1`)
nothing is selected and `mWant = 0`; for `n = 3` and `wi = [0, 1, -1]` the only real eigenvalue,
at index `0`, is not selected and `nselr = 0`. -/
theorem C11_index_zero_never_selected :
    isSchurForm [F64.zero] = true ∧
    (selectMask 1 [F64.zero]).map
      (fun st => (st.selected, st.selectedWant, st.nselr, st.nselc, mWant st)) =
      some ([false], [false], 0, 0, 0) ∧
    isSchurForm [F64.zero, F64.one, F64.neg F64.one] = true ∧
    (selectMask 3 [F64.zero, F64.one, F64.neg F64.one]).map
      (fun st => (st.selected, st.selectedWant, st.nselr, st.nselc, mWant st)) =
      some ([false, true, true], [false, true, false], 0, 1, 2) := by
  refine ⟨by decide!, by decide!, by decide!, by decide!⟩

theorem drop_eq_cons_of_getElem? {α : Type} : ∀ (l : List α) (i : Nat) (x : α),
    l[i]? = some x → l.drop i = x :: l.drop (i + 1) := by
  intro l
  induction l with
  | nil => intro i x h; simp at h
  | cons a t ih =>
    intro i x h
    cases i with
    | zero =>
      simp at h
      subst h
      rfl
    | succ i =>
      simp only [List.getElem?_cons_succ] at h
      simp only [List.drop_succ_cons]
      exact ih i x h

/-- Value of one iteration of the mask construction at an index `i` with `wi[i] = 0`. -/
theorem maskBody_real_val (n : Nat) (wi : List F64) (st : MaskState) (i : Nat) (z : F64)
    (hj : st.j = (i : Int)) (hw : wi[i]? = some z) (hz : F64.eq z F64.zero = true)
    (h1 : i < st.selected.length) (h2 : i < st.selectedWant.length) :
    maskBody n wi st = some (if st.nselr < imax 1 (n / 4) then
        { selected := st.selected.set i true, selectedWant := st.selectedWant.set i true,
          nselr := st.nselr + 1, nselc := st.nselc, j := st.j - 1 }
      else { st with j := st.j - 1 }) := by
  by_cases hq : st.nselr < imax 1 (n / 4)
  · simp only [maskBody, hj, indexAt_natCast, hw, Option.bind_eq_bind, Option.some_bind, hz,
      if_true, hq, assignAt_natCast st.selected i true h1,
      assignAt_natCast st.selectedWant i true h2]
    rfl
  · simp only [maskBody, hj, indexAt_natCast, hw, Option.bind_eq_bind, Option.some_bind, hz,
      if_true, hq, if_false]
    rfl

/-- Value of one iteration of the mask construction at an index `i + 1` with `wi[i+1] ≠ 0`. -/
theorem maskBody_pair_val (n : Nat) (wi : List F64) (st : MaskState) (i : Nat) (w : F64)
    (hj : st.j = ((i + 1 : Nat) : Int)) (hw : wi[i + 1]? = some w)
    (hz : F64.eq w F64.zero = false)
    (h1 : i + 1 < st.selected.length) (h2 : i + 1 < st.selectedWant.length) :
    maskBody n wi st = some (if st.nselc < imax 1 (n / 4) then
        { selected := (st.selected.set (i + 1) true).set i true,
          selectedWant := (st.selectedWant.set (i + 1) false).set i true,
          nselr := st.nselr, nselc := st.nselc + 1, j := st.j - 2 }
      else { st with j := st.j - 2 }) := by
  have hj2 : ((i + 1 : Nat) : Int) - 1 = (i : Int) := by omega
  by_cases hq : st.nselc < imax 1 (n / 4)
  · simp only [maskBody, hj, hj2, indexAt_natCast, hw, Option.bind_eq_bind, Option.some_bind,
      hz, Bool.false_eq_true, if_false, hq, if_true,
      assignAt_natCast st.selected (i + 1) true h1,
      assignAt_natCast st.selectedWant (i + 1) false h2,
      assignAt_natCast (st.selected.set (i + 1) true) i true (by simp; omega),
      assignAt_natCast (st.selectedWant.set (i + 1) false) i true (by simp; omega)]
    rfl
  · simp only [maskBody, hj, indexAt_natCast, hw, Option.bind_eq_bind, Option.some_bind,
      hz, Bool.false_eq_true, if_false, hq]
    rfl

theorem widthSum_cons (w : F64) (s : Bool) (l : List (F64 × Bool)) :
    widthSum ((w, s) :: l) =
      (if s then (if F64.eq w F64.zero then 1 else 2) else 0) + widthSum l := by
  simp [widthSum]

theorem widthSum_append (l1 l2 : List (F64 × Bool)) :
    widthSum (l1 ++ l2) = widthSum l1 + widthSum l2 := by
  simp [widthSum]

/-- The counting invariant after one iteration at a real eigenvalue in column `m`. -/
theorem maskBody_real_count (n : Nat) (wi : List F64) (m : Nat) (st : MaskState) (z : F64)
    (hI : MaskInv n wi (m + 1) st) (hC : MaskCount n wi (m + 1) st) (hmn : m < n)
    (hw : wi[m]? = some z) (hz : F64.eq z F64.zero = true) :
    ∃ st', maskBody n wi st = some st' ∧ MaskCount n wi m st' := by
  obtain ⟨_, hj, hsl, hwl, hun, _⟩ := hI
  obtain ⟨c1, c2, c3, c4, c5, c6⟩ := hC
  have hj' : st.j = (m : Int) := by omega
  have hlt := eq_zero_not_lt z hz
  have hd : wi.drop m = z :: wi.drop (m + 1) := drop_eq_cons_of_getElem? wi m z hw
  have hnew : ∀ a, m ≤ a → (∃ p, wi[a]? = some p ∧ F64.lt F64.zero p = true) → m + 1 ≤ a := by
    intro a ha ⟨p, hp1, hp2⟩
    by_contra hc
    have : a = m := by omega
    subst this
    rw [hw] at hp1
    injection hp1 with hp1
    subst hp1
    rw [hlt] at hp2
    cases hp2
  have hnew2 : ∀ a w, m ≤ a → wi[a]? = some w → F64.ne w F64.zero = true → m + 1 ≤ a := by
    intro a w ha hp1 hp2
    by_contra hc
    have : a = m := by omega
    subst this
    rw [hw] at hp1
    injection hp1 with hp1
    subst hp1
    simp [F64.ne, hz] at hp2
  refine ⟨_, maskBody_real_val n wi st m z hj' hw hz (by omega) (by omega), ?_⟩
  by_cases hq : st.nselr < imax 1 (n / 4)
  · rw [if_pos hq]
    have s1 : (st.selected.set m true).drop m = true :: st.selected.drop (m + 1) := by
      rw [drop_eq_cons_of_getElem? _ m true (getElem?_set_same _ _ _ (by omega)),
        List.drop_set_of_lt _ _ (Nat.lt_succ_self m)]
    have s2 : (st.selectedWant.set m true).drop m = true :: st.selectedWant.drop (m + 1) := by
      rw [drop_eq_cons_of_getElem? _ m true (getElem?_set_same _ _ _ (by omega)),
        List.drop_set_of_lt _ _ (Nat.lt_succ_self m)]
    refine ⟨?_, ?_, ?_, ?_, ?_, ?_⟩
    · simp only [hd, List.countP_cons, hlt]
      simpa using c1
    · simp only [hd, s1, List.zip_cons_cons, List.countP_cons, hz]
      simp only [Bool.and_self, if_true]
      omega
    · simp only [hd, s1, List.zip_cons_cons, List.countP_cons, hlt]
      simpa using c3
    · simp only [hd, s2, List.zip_cons_cons, widthSum_cons, hz, if_true]
      omega
    · intro a p ha hp1 hp2
      have ham := hnew a ha ⟨p, hp1, hp2⟩
      simp only
      rw [getElem?_set_ne_idx _ _ _ _ (by omega)]
      exact c5 a p ham hp1 hp2
    · intro a w ha hs hp1 hp2
      have ham := hnew2 a w ha hp1 hp2
      simp only at hs
      rw [getElem?_set_ne_idx _ _ _ _ (by omega)] at hs
      exact c6 a w ham hs hp1 hp2
  · rw [if_neg hq]
    have u := hun m (by omega)
    have s1 : st.selected.drop m = false :: st.selected.drop (m + 1) :=
      drop_eq_cons_of_getElem? _ m false u.1
    have s2 : st.selectedWant.drop m = false :: st.selectedWant.drop (m + 1) :=
      drop_eq_cons_of_getElem? _ m false u.2
    refine ⟨?_, ?_, ?_, ?_, ?_, ?_⟩
    · simp only [hd, List.countP_cons, hlt]
      simpa using c1
    · simp only [hd, s1, List.zip_cons_cons, List.countP_cons]
      simpa using c2
    · simp only [hd, s1, List.zip_cons_cons, List.countP_cons]
      simpa using c3
    · simp only [hd, s2, List.zip_cons_cons, widthSum_cons]
      simpa using c4
    · intro a p ha hp1 hp2
      exact c5 a p (hnew a ha ⟨p, hp1, hp2⟩) hp1 hp2
    · intro a w ha hs hp1 hp2
      exact c6 a w (hnew2 a w ha hp1 hp2) hs hp1 hp2

/-- The counting invariant after one iteration at a complex pair in columns `(m, m + 1)`. -/
theorem maskBody_pair_count (n : Nat) (wi : List F64) (m : Nat) (st : MaskState) (p : F64)
    (hI : MaskInv n wi (m + 2) st) (hC : MaskCount n wi (m + 2) st) (hmn : m + 1 < n)
    (hw : wi[m]? = some p) (hw1 : wi[m + 1]? = some (F64.neg p))
    (hp : F64.lt F64.zero p = true) :
    ∃ st', maskBody n wi st = some st' ∧ MaskCount n wi m st' := by
  obtain ⟨_, hj, hsl, hwl, hun, _⟩ := hI
  obtain ⟨c1, c2, c3, c4, c5, c6⟩ := hC
  have hj' : st.j = ((m + 1 : Nat) : Int) := by omega
  have hpz := lt_zero_not_eq_zero p hp
  obtain ⟨hnz, hnl⟩ := lt_zero_neg p hp
  have hd1 : wi.drop (m + 1) = F64.neg p :: wi.drop (m + 2) :=
    drop_eq_cons_of_getElem? wi (m + 1) _ hw1
  have hd : wi.drop m = p :: F64.neg p :: wi.drop (m + 2) := by
    rw [drop_eq_cons_of_getElem? wi m p hw, hd1]
  have hnew : ∀ a, m ≤ a → (∃ q, wi[a]? = some q ∧ F64.lt F64.zero q = true) →
      a = m ∨ m + 2 ≤ a := by
    intro a ha ⟨q, hq1, hq2⟩
    by_contra hc
    have : a = m + 1 := by omega
    subst this
    rw [hw1] at hq1
    injection hq1 with hq1
    subst hq1
    rw [hnl] at hq2
    cases hq2
  refine ⟨_, maskBody_pair_val n wi st m (F64.neg p) hj' hw1 hnz (by omega) (by omega), ?_⟩
  by_cases hq : st.nselc < imax 1 (n / 4)
  · rw [if_pos hq]
    have s1 : ((st.selected.set (m + 1) true).set m true).drop m =
        true :: true :: st.selected.drop (m + 2) := by
      rw [drop_eq_cons_of_getElem? _ m true (getElem?_set_same _ _ _ (by simp; omega)),
        List.drop_set_of_lt _ _ (Nat.lt_succ_self m),
        drop_eq_cons_of_getElem? _ (m + 1) true (getElem?_set_same _ _ _ (by omega)),
        List.drop_set_of_lt _ _ (Nat.lt_succ_self (m + 1))]
    have s2 : ((st.selectedWant.set (m + 1) false).set m true).drop m =
        true :: false :: st.selectedWant.drop (m + 2) := by
      rw [drop_eq_cons_of_getElem? _ m true (getElem?_set_same _ _ _ (by simp; omega)),
        List.drop_set_of_lt _ _ (Nat.lt_succ_self m),
        drop_eq_cons_of_getElem? _ (m + 1) false (getElem?_set_same _ _ _ (by omega)),
        List.drop_set_of_lt _ _ (Nat.lt_succ_self (m + 1))]
    have hcnt : (wi.drop (m + 2)).countP (fun w => F64.lt F64.zero w) < imax 1 (n / 4) := by
      omega
    refine ⟨?_, ?_, ?_, ?_, ?_, ?_⟩
    · simp only [hd, List.countP_cons, hp, hnl, if_true]
      simp only [Bool.false_eq_true, if_false, Nat.add_zero]
      omega
    · simp only [hd, s1, List.zip_cons_cons, List.countP_cons, hpz, hnz]
      simpa using c2
    · simp only [hd, s1, List.zip_cons_cons, List.countP_cons, hp, hnl]
      simp only [Bool.and_self, if_true, Bool.false_and, Bool.false_eq_true, if_false,
        Nat.add_zero]
      omega
    · simp only [hd, s2, List.zip_cons_cons, widthSum_cons, hpz, if_true]
      simp only [Bool.false_eq_true, if_false]
      omega
    · intro a q ha hq1 hq2
      simp only
      rcases hnew a ha ⟨q, hq1, hq2⟩ with rfl | ham
      · rw [getElem?_set_same _ _ _ (by simp; omega), hd1]
        simp only [List.countP_cons, hnl, Bool.false_eq_true, if_false, Nat.add_zero]
        simp [hcnt]
      · rw [getElem?_set_ne_idx _ _ _ _ (by omega), getElem?_set_ne_idx _ _ _ _ (by omega)]
        exact c5 a q ham hq1 hq2
    · intro a w ha hs hq1 hq2
      simp only at hs
      by_cases h0 : a = m
      · omega
      · rw [getElem?_set_ne_idx _ _ _ _ (by omega)] at hs
        by_cases h1 : a = m + 1
        · subst h1
          rw [getElem?_set_same _ _ _ (by omega)] at hs
          cases hs
        · rw [getElem?_set_ne_idx _ _ _ _ (by omega)] at hs
          exact c6 a w (by omega) hs hq1 hq2
  · rw [if_neg hq]
    have u0 := hun m (by omega)
    have u1 := hun (m + 1) (by omega)
    have s1 : st.selected.drop m = false :: false :: st.selected.drop (m + 2) := by
      rw [drop_eq_cons_of_getElem? _ m false u0.1,
        drop_eq_cons_of_getElem? _ (m + 1) false u1.1]
    have s2 : st.selectedWant.drop m = false :: false :: st.selectedWant.drop (m + 2) := by
      rw [drop_eq_cons_of_getElem? _ m false u0.2,
        drop_eq_cons_of_getElem? _ (m + 1) false u1.2]
    have hcnt : ¬ (wi.drop (m + 2)).countP (fun w => F64.lt F64.zero w) < imax 1 (n / 4) := by
      omega
    refine ⟨?_, ?_, ?_, ?_, ?_, ?_⟩
    · simp only [hd, List.countP_cons, hp, hnl, if_true]
      simp only [Bool.false_eq_true, if_false, Nat.add_zero]
      omega
    · simp only [hd, s1, List.zip_cons_cons, List.countP_cons]
      simpa using c2
    · simp only [hd, s1, List.zip_cons_cons, List.countP_cons]
      simpa using c3
    · simp only [hd, s2, List.zip_cons_cons, widthSum_cons]
      simpa using c4
    · intro a q ha hq1 hq2
      rcases hnew a ha ⟨q, hq1, hq2⟩ with rfl | ham
      · rw [u0.1, hd1]
        simp only [List.countP_cons, hnl, Bool.false_eq_true, if_false, Nat.add_zero]
        simp [hcnt]
      · exact c5 a q ham hq1 hq2
    · intro a w ha hs hq1 hq2
      by_cases h0 : a = m
      · omega
      · by_cases h1 : a = m + 1
        · subst h1
          rw [u1.2] at hs
          cases hs
        · exact c6 a w (by omega) hs hq1 hq2

/-- The counting invariant extends over a real eigenvalue in column `m` that is left
unselected. -/
theorem maskCount_skip (n : Nat) (wi : List F64) (m : Nat) (st : MaskState) (z : F64)
    (hC : MaskCount n wi (m + 1) st) (hw : wi[m]? = some z) (hz : F64.eq z F64.zero = true)
    (h1 : st.selected[m]? = some false) (h2 : st.selectedWant[m]? = some false) :
    MaskCount n wi m st := by
  obtain ⟨c1, c2, c3, c4, c5, c6⟩ := hC
  have hlt := eq_zero_not_lt z hz
  have hd : wi.drop m = z :: wi.drop (m + 1) := drop_eq_cons_of_getElem? wi m z hw
  have s1 : st.selected.drop m = false :: st.selected.drop (m + 1) :=
    drop_eq_cons_of_getElem? _ m false h1
  have s2 : st.selectedWant.drop m = false :: st.selectedWant.drop (m + 1) :=
    drop_eq_cons_of_getElem? _ m false h2
  refine ⟨?_, ?_, ?_, ?_, ?_, ?_⟩
  · simp only [hd, List.countP_cons, hlt]
    simpa using c1
  · simp only [hd, s1, List.zip_cons_cons, List.countP_cons]
    simpa using c2
  · simp only [hd, s1, List.zip_cons_cons, List.countP_cons]
    simpa using c3
  · simp only [hd, s2, List.zip_cons_cons, widthSum_cons]
    simpa using c4
  · intro a p ha hp1 hp2
    by_cases h0 : a = m
    · subst h0
      rw [hw] at hp1
      injection hp1 with hp1
      subst hp1
      rw [hlt] at hp2
      cases hp2
    · exact c5 a p (by omega) hp1 hp2
  · intro a w ha hs hp1 hp2
    by_cases h0 : a = m
    · subst h0
      rw [h2] at hs
      cases hs
    · exact c6 a w (by omega) hs hp1 hp2

/-- The mask construction terminates within `m` iterations and keeps both invariants. -/
theorem maskLoop_count (n : Nat) (wi : List F64) (hlen : wi.length = n) :
    ∀ (fuel m : Nat) (st : MaskState), m ≤ fuel → MaskInv n wi m st → MaskCount n wi m st →
      ∃ st' m', maskLoop fuel n wi st = some st' ∧ m' ≤ 1 ∧ MaskInv n wi m' st' ∧
        MaskCount n wi m' st' := by
  intro fuel
  induction fuel with
  | zero =>
    intro m st hm h hc
    have hj := h.2.1
    refine ⟨st, m, ?_, by omega, h, hc⟩
    simp only [maskLoop]
    rw [if_neg (by omega)]
  | succ fuel ih =>
    intro m st hm h hc
    by_cases h2 : 2 ≤ m
    · have hj := h.2.1
      obtain ⟨pre, post, hwi, hpl, hpS⟩ := h.1
      have hmn : m ≤ n := by rw [← hlen, hwi]; simp; omega
      have hstep : ∃ st' m', maskBody n wi st = some st' ∧ m' < m ∧ MaskInv n wi m' st' ∧
          MaskCount n wi m' st' := by
        rcases isSchurForm_snoc pre.length pre rfl hpS (by intro e; rw [e] at hpl; simp at hpl; omega)
          with ⟨l', z, e, hz, hl'⟩ | ⟨l', p, e, hp, hl'⟩
        · obtain ⟨st', hs1, hs2⟩ := maskBody_real n wi hlen m st h2 h l' z post
            (by rw [hwi, e]) (by rw [← e]; exact hpl) hz hl'
          obtain ⟨m0, rfl⟩ : ∃ m0, m = m0 + 1 := ⟨m - 1, by omega⟩
          have hl0 : l'.length = m0 := by rw [e] at hpl; simp at hpl; omega
          have hw : wi[m0]? = some z := by
            rw [hwi, e, List.append_assoc, List.getElem?_append_right (by omega)]
            simp [hl0]
          obtain ⟨st'', ht1, ht2⟩ := maskBody_real_count n wi m0 st z h hc (by omega) hw hz
          rw [hs1] at ht1
          injection ht1 with ht1
          subst ht1
          exact ⟨st', m0, hs1, by omega, hs2, ht2⟩
        · obtain ⟨st', hs1, hs2⟩ := maskBody_pair n wi hlen m st h2 h l' p post
            (by rw [hwi, e]) (by rw [← e]; exact hpl) hp hl'
          obtain ⟨m0, rfl⟩ : ∃ m0, m = m0 + 2 := ⟨m - 2, by omega⟩
          have hl0 : l'.length = m0 := by rw [e] at hpl; simp at hpl; omega
          have hw : wi[m0]? = some p := by
            rw [hwi, e, List.append_assoc, List.getElem?_append_right (by omega)]
            simp [hl0]
          have hw1 : wi[m0 + 1]? = some (F64.neg p) := by
            rw [hwi, e, List.append_assoc, List.getElem?_append_right (by omega)]
            have : m0 + 1 - l'.length = 1 := by omega
            simp [this]
          obtain ⟨st'', ht1, ht2⟩ := maskBody_pair_count n wi m0 st p h hc (by omega) hw hw1 hp
          rw [hs1] at ht1
          injection ht1 with ht1
          subst ht1
          exact ⟨st', m0, hs1, by omega, hs2, ht2⟩
      obtain ⟨st1, m1, hs1, hm1, hI1, hC1⟩ := hstep
      obtain ⟨st2, m2, hs2, hm2, hI2, hC2⟩ := ih m1 st1 (by omega) hI1 hC1
      refine ⟨st2, m2, ?_, hm2, hI2, hC2⟩
      simp only [maskLoop]
      rw [if_pos (by omega), hs1]
      exact hs2
    · have hj := h.2.1
      refine ⟨st, m, ?_, by omega, h, hc⟩
      simp only [maskLoop]
      rw [if_neg (by omega)]

/-- In Schur pairing form a positive entry is followed by its negation. -/
theorem schur_pair_next : ∀ (k : Nat) (l : List F64), l.length = k → isSchurForm l = true →
    ∀ a p, l[a]? = some p → F64.lt F64.zero p = true → l[a + 1]? = some (F64.neg p) := by
  intro k
  induction k using Nat.strong_induction_on with
  | _ k ih =>
    intro l hk hS a p ha hp
    match l, hk, hS with
    | [], _, _ => simp at ha
    | [z], _, hS =>
      simp only [isSchurForm] at hS
      cases a with
      | zero =>
        simp at ha
        subst ha
        rw [eq_zero_not_lt _ hS] at hp
        cases hp
      | succ a => simp at ha
    | a0 :: b :: rest, hk, hS =>
      simp only [isSchurForm, Bool.or_eq_true, Bool.and_eq_true, decide_eq_true_eq] at hS
      rcases hS with ⟨h0, hr⟩ | ⟨⟨h0, hb⟩, hr⟩
      · cases a with
        | zero =>
          simp at ha
          subst ha
          rw [eq_zero_not_lt _ h0] at hp
          cases hp
        | succ a =>
          simp only [List.getElem?_cons_succ] at ha
          rw [List.getElem?_cons_succ]
          exact ih (b :: rest).length (by simp at hk ⊢; omega) (b :: rest) rfl hr a p ha hp
      · subst hb
        cases a with
        | zero =>
          simp at ha
          subst ha
          simp
        | succ a =>
          cases a with
          | zero =>
            simp at ha
            subst ha
            rw [(lt_zero_neg a0 h0).2] at hp
            cases hp
          | succ a =>
            simp only [List.getElem?_cons_succ] at ha ⊢
            exact ih rest.length (by simp at hk ⊢; omega) rest rfl hr a p ha hp

/-- The mask construction returns for every `wi` in Schur pairing form; at the end the counting
invariant covers all columns and every pair is marked. -/
theorem selectMask_final (n : Nat) (wi : List F64) (hlen : wi.length = n)
    (hS : isSchurForm wi = true) :
    ∃ st, selectMask n wi = some st ∧ st.selected.length = n ∧ st.selectedWant.length = n ∧
      MaskCount n wi 0 st ∧
      ∀ a p, wi[a]? = some p → F64.lt F64.zero p = true → a + 1 < n ∧ PairMarked st a := by
  have h0 : MaskInv n wi n
      { selected := List.replicate n false, selectedWant := List.replicate n false,
        nselr := 0, nselc := 0, j := (n : Int) - 1 } := by
    refine ⟨⟨wi, [], by simp, hlen, hS⟩, rfl, by simp, by simp, ?_, ?_⟩
    · intro i hi; simp [hi]
    · intro a ha han _; omega
  have hc0 : MaskCount n wi n
      { selected := List.replicate n false, selectedWant := List.replicate n false,
        nselr := 0, nselc := 0, j := (n : Int) - 1 } := by
    have hd : wi.drop n = [] := by rw [← hlen]; exact List.drop_length wi
    refine ⟨by simp [hd], by simp [hd], by simp [hd], by simp [hd, widthSum], ?_, ?_⟩
    · intro a p ha hp _
      have : a < wi.length := by
        by_contra hc
        rw [List.getElem?_eq_none (by omega)] at hp
        cases hp
      omega
    · intro a w ha _ hp _
      have : a < wi.length := by
        by_contra hc
        rw [List.getElem?_eq_none (by omega)] at hp
        cases hp
      omega
  obtain ⟨st, m, hst, hm, hI, hC⟩ := maskLoop_count n wi hlen n n _ (le_refl _) h0 hc0
  obtain ⟨⟨pre, post, hwi, hpl, hpS⟩, _, hsl, hwl, hun, hpr⟩ := hI
  have hreal : m = 1 → ∃ z, wi[0]? = some z ∧ F64.eq z F64.zero = true := by
    intro hm1
    match pre, hpl, hpS with
    | [z], _, hz =>
      simp only [isSchurForm] at hz
      exact ⟨z, by rw [hwi]; simp, hz⟩
    | [], hpl, _ => simp at hpl; omega
    | _ :: _ :: _, hpl, _ => simp at hpl; omega
  have hC0 : MaskCount n wi 0 st := by
    by_cases hm0 : m = 0
    · subst hm0
      exact hC
    · have hm1 : m = 1 := by omega
      subst hm1
      obtain ⟨z, hz1, hz2⟩ := hreal rfl
      have u := hun 0 (by omega)
      exact maskCount_skip n wi 0 st z hC hz1 hz2 u.1 u.2
  refine ⟨st, hst, hsl, hwl, hC0, ?_⟩
  intro a p hp hpos
  have hnext := schur_pair_next n wi hlen hS a p hp hpos
  have han : a + 1 < n := by
    by_contra hc
    rw [List.getElem?_eq_none (by omega)] at hnext
    cases hnext
  have hmj : m ≤ a := by
    by_contra hc
    have hm1 : m = 1 := by omega
    have ha0 : a = 0 := by omega
    subst ha0
    obtain ⟨z, hz1, hz2⟩ := hreal hm1
    rw [hz1] at hp
    injection hp with hp
    subst hp
    rw [eq_zero_not_lt _ hz2] at hpos
    cases hpos
  exact ⟨han, hpr a hmj han ⟨p, hp, hpos⟩⟩

/-- C12: for every `n` and every `wi` of length `n` in Schur pairing form the mask construction
returns (no index is out of range) and, with `C` the number of complex pairs (positive entries
of `wi`) and `q = max(1, n/4)`: `nselc = min(C, q)`; a pair at columns `(a, a+1)` has both input
mask entries true when fewer than `q` pairs lie at higher indices and both false otherwise;
`nselr` and `nselc` are the numbers of real indices and of pairs whose input mask entry is true;
and `mWant = nselr + 2*nselc`. -/
theorem C12_highest_pairs_selected (n : Nat) (wi : List F64) (hlen : wi.length = n)
    (hS : isSchurForm wi = true) :
    ∃ st, selectMask n wi = some st ∧
      st.nselc = min (wi.countP (fun w => F64.lt F64.zero w)) (imax 1 (n / 4)) ∧
      (∀ a p, wi[a]? = some p → F64.lt F64.zero p = true →
        a + 1 < n ∧
        st.selected[a]? = some (decide
          ((wi.drop (a + 1)).countP (fun w => F64.lt F64.zero w) < imax 1 (n / 4))) ∧
        st.selected[a + 1]? = st.selected[a]?) ∧
      st.nselr = (wi.zip st.selected).countP (fun p => F64.eq p.1 F64.zero && p.2) ∧
      st.nselc = (wi.zip st.selected).countP (fun p => F64.lt F64.zero p.1 && p.2) ∧
      mWant st = st.nselr + 2 * st.nselc := by
  obtain ⟨st, hst, _, _, ⟨c1, c2, c3, _, c5, _⟩, hpr⟩ := selectMask_final n wi hlen hS
  simp only [List.drop_zero] at c1 c2 c3
  refine ⟨st, hst, by omega, ?_, c2, c3, rfl⟩
  intro a p hp hpos
  obtain ⟨han, _, h2, _⟩ := hpr a p hp hpos
  exact ⟨han, c5 a p (Nat.zero_le _) hp hpos, h2.symm⟩

/-- Witness of C12 for `n = 5` and `wi = [1, -1, 0, 2, -2]`. -/
theorem C12_highest_pairs_selected_witness :
    ∃ st, selectMask 5 [F64.one, F64.neg F64.one, F64.zero, F64.ofNat 2, F64.neg (F64.ofNat 2)] =
        some st ∧
      st.nselc = min ([F64.one, F64.neg F64.one, F64.zero, F64.ofNat 2,
        F64.neg (F64.ofNat 2)].countP (fun w => F64.lt F64.zero w)) (imax 1 (5 / 4)) ∧
      (∀ a p, [F64.one, F64.neg F64.one, F64.zero, F64.ofNat 2,
          F64.neg (F64.ofNat 2)][a]? = some p → F64.lt F64.zero p = true →
        a + 1 < 5 ∧
        st.selected[a]? = some (decide
          (([F64.one, F64.neg F64.one, F64.zero, F64.ofNat 2,
            F64.neg (F64.ofNat 2)].drop (a + 1)).countP (fun w => F64.lt F64.zero w) <
              imax 1 (5 / 4))) ∧
        st.selected[a + 1]? = st.selected[a]?) ∧
      st.nselr = ([F64.one, F64.neg F64.one, F64.zero, F64.ofNat 2,
        F64.neg (F64.ofNat 2)].zip st.selected).countP (fun p => F64.eq p.1 F64.zero && p.2) ∧
      st.nselc = ([F64.one, F64.neg F64.one, F64.zero, F64.ofNat 2,
        F64.neg (F64.ofNat 2)].zip st.selected).countP (fun p => F64.lt F64.zero p.1 && p.2) ∧
      mWant st = st.nselr + 2 * st.nselc :=
  C12_highest_pairs_selected 5
    [F64.one, F64.neg F64.one, F64.zero, F64.ofNat 2, F64.neg (F64.ofNat 2)] rfl (by decide!)

/-! ## The column matching of Phase B -/

/-- Offsets of the entries `(i, k)` with `i < n` and `k < c` of a matrix with `c` columns lie
inside its buffer. -/
theorem offset_inRange_rect (L : Nat) (S : Int) (n c i k : Nat) (hi : i < n) (hk : k < c)
    (hS : (c : Int) ≤ S) (hD : ((n : Int) - 1) * S + c ≤ L) :
    0 ≤ (i : Int) * S + k ∧ (i : Int) * S + k < L := by
  have hs : (0 : Int) ≤ S := by omega
  have h1 : (i : Int) * S ≤ ((n : Int) - 1) * S := Int.mul_le_mul_of_nonneg_right (by omega) hs
  have h2 : (0 : Int) ≤ (i : Int) * S := Int.mul_nonneg (by omega) hs
  constructor <;> omega

theorem realColumnEq_some (sel full : General) (n c k j : Nat) (hk : k < c) (hj : j < n)
    (hS : (c : Int) ≤ sel.Stride) (hD : ((n : Int) - 1) * sel.Stride + c ≤ sel.Data.length)
    (hS' : (n : Int) ≤ full.Stride)
    (hD' : ((n : Int) - 1) * full.Stride + n ≤ full.Data.length) :
    ∀ rows i, i + rows ≤ n → ∃ b, realColumnEq sel full k j rows i = some b := by
  intro rows
  induction rows with
  | zero => intro i _; exact ⟨true, rfl⟩
  | succ rows ih =>
    intro i hi
    obtain ⟨a0, a1⟩ := offset_inRange_rect sel.Data.length sel.Stride n c i k (by omega) hk hS hD
    obtain ⟨b0, b1⟩ := offset_inRange_rect full.Data.length full.Stride n n i j (by omega) hj
      hS' hD'
    obtain ⟨x, hx⟩ := indexAt_inRange sel.Data _ a0 a1
    obtain ⟨y, hy⟩ := indexAt_inRange full.Data _ b0 b1
    simp only [realColumnEq, hx, hy, Option.bind_eq_bind, Option.some_bind]
    by_cases h : F64.ne x y = true
    · rw [if_pos h]
      exact ⟨false, rfl⟩
    · rw [if_neg h]
      exact ih (i + 1) (by omega)

theorem pairColumnEq_some (sel full : General) (n c k j : Nat) (hk : k + 1 < c) (hj : j + 1 < n)
    (hS : (c : Int) ≤ sel.Stride) (hD : ((n : Int) - 1) * sel.Stride + c ≤ sel.Data.length)
    (hS' : (n : Int) ≤ full.Stride)
    (hD' : ((n : Int) - 1) * full.Stride + n ≤ full.Data.length) :
    ∀ rows i, i + rows ≤ n → ∃ b, pairColumnEq sel full k j rows i = some b := by
  intro rows
  induction rows with
  | zero => intro i _; exact ⟨true, rfl⟩
  | succ rows ih =>
    intro i hi
    obtain ⟨a0, a1⟩ := offset_inRange_rect sel.Data.length sel.Stride n c i k (by omega)
      (by omega) hS hD
    obtain ⟨b0, b1⟩ := offset_inRange_rect full.Data.length full.Stride n n i j (by omega)
      (by omega) hS' hD'
    obtain ⟨a2, a3⟩ := offset_inRange_rect sel.Data.length sel.Stride n c i (k + 1) (by omega)
      hk hS hD
    obtain ⟨b2, b3⟩ := offset_inRange_rect full.Data.length full.Stride n n i (j + 1) (by omega)
      hj hS' hD'
    have e1 : (i : Int) * sel.Stride + ((k + 1 : Nat) : Int) = (i : Int) * sel.Stride + k + 1 := by
      push_cast; omega
    have e2 : (i : Int) * full.Stride + ((j + 1 : Nat) : Int) =
        (i : Int) * full.Stride + j + 1 := by
      push_cast; omega
    rw [e1] at a2 a3
    rw [e2] at b2 b3
    obtain ⟨x, hx⟩ := indexAt_inRange sel.Data _ a0 a1
    obtain ⟨y, hy⟩ := indexAt_inRange full.Data _ b0 b1
    obtain ⟨x1, hx1⟩ := indexAt_inRange sel.Data _ a2 a3
    obtain ⟨y1, hy1⟩ := indexAt_inRange full.Data _ b2 b3
    simp only [pairColumnEq, hx, hy, hx1, hy1, Option.bind_eq_bind, Option.some_bind]
    by_cases h : F64.ne x y = true
    · rw [if_pos h]
      exact ⟨false, rfl⟩
    · rw [if_neg h]
      by_cases h' : F64.ne x1 y1 = true
      · rw [if_pos h']
        exact ⟨false, rfl⟩
      · rw [if_neg h']
        exact ih (i + 1) (by omega)

theorem zip_drop_cons (wi : List F64) (selected : List Bool) (j : Nat) (w : F64) (s : Bool)
    (hw : wi[j]? = some w) (hs : selected[j]? = some s) :
    (wi.zip selected).drop j = (w, s) :: (wi.zip selected).drop (j + 1) := by
  apply drop_eq_cons_of_getElem?
  rw [List.getElem?_zip_eq_some]
  exact ⟨hw, hs⟩

/-- When `loopVR` is left without a mismatch, its counter has advanced by the number of output
columns of the indices it has visited. -/
theorem matchLoop_counter (sel full : General) (n : Nat) (selected : List Bool) (wi : List F64)
    (hlen : wi.length = selected.length) :
    ∀ (cols j k k' : Nat), matchLoop sel full n selected wi cols j k = some (true, k') →
      k' = k + widthSum (((wi.zip selected).drop j).take cols) := by
  intro cols
  induction cols with
  | zero =>
    intro j k k' h
    simp only [matchLoop, Option.some.injEq, Prod.mk.injEq, true_and] at h
    simp [widthSum, h]
  | succ cols ih =>
    intro j k k' h
    cases hs : selected[j]? with
    | none => simp [matchLoop, hs] at h
    | some s =>
      have hj : j < selected.length := by
        by_contra hc
        rw [List.getElem?_eq_none (by omega)] at hs
        cases hs
      have hw : wi[j]? = some wi[j] := by simp [hlen, hj]
      rw [zip_drop_cons wi selected j _ s hw hs, List.take_succ_cons, widthSum_cons]
      simp only [matchLoop, hs, hw, Option.bind_eq_bind, Option.some_bind] at h
      cases s with
      | false =>
        simp only [Bool.false_eq_true, if_false] at h
        have := ih (j + 1) k k' h
        simp only [Bool.false_eq_true, if_false]
        omega
      | true =>
        simp only [if_true] at h ⊢
        by_cases hz : F64.eq wi[j] F64.zero = true
        · rw [if_pos hz] at h ⊢
          cases hr : realColumnEq sel full k j n 0 with
          | none => simp [hr] at h
          | some ok =>
            rw [hr, Option.some_bind] at h
            cases ok with
            | false => simp at h
            | true =>
              simp only [if_true] at h
              have := ih (j + 1) (k + 1) k' h
              omega
        · have hne : F64.ne wi[j] F64.zero = true := by simp [F64.ne, hz]
          rw [if_neg hz, if_pos hne] at h
          rw [if_neg hz]
          cases hr : pairColumnEq sel full k j n 0 with
          | none => simp [hr] at h
          | some ok =>
            rw [hr, Option.some_bind] at h
            cases ok with
            | false => simp at h
            | true =>
              simp only [if_true] at h
              have := ih (j + 1) (k + 2) k' h
              omega

/-- On matrices of the shapes that `dtrevc3Test` allocates, `loopVR` reads no entry outside a
buffer as long as the output columns of the selected indices fit into the selected output. -/
theorem matchLoop_some (sel full : General) (n c : Nat) (selected : List Bool) (wi : List F64)
    (hlen : wi.length = n) (hsl : selected.length = n)
    (hS : (c : Int) ≤ sel.Stride) (hD : ((n : Int) - 1) * sel.Stride + c ≤ sel.Data.length)
    (hS' : (n : Int) ≤ full.Stride)
    (hD' : ((n : Int) - 1) * full.Stride + n ≤ full.Data.length)
    (hpair : ∀ a w, selected[a]? = some true → wi[a]? = some w → F64.ne w F64.zero = true →
      a + 1 < n) :
    ∀ (cols j k : Nat), j + cols ≤ n →
      k + widthSum (((wi.zip selected).drop j).take cols) ≤ c →
      ∃ res, matchLoop sel full n selected wi cols j k = some res := by
  intro cols
  induction cols with
  | zero => intro j k _ _; exact ⟨(true, k), rfl⟩
  | succ cols ih =>
    intro j k hj hk
    have hs : selected[j]? = some selected[j] := by simp [hsl]
    have hw : wi[j]? = some wi[j] := by simp [hlen]
    rw [zip_drop_cons wi selected j _ _ hw hs, List.take_succ_cons, widthSum_cons] at hk
    simp only [matchLoop, hs, hw, Option.bind_eq_bind, Option.some_bind]
    by_cases hsel : selected[j] = true
    · rw [hsel] at hs
      rw [if_pos hsel] at hk ⊢
      by_cases hz : F64.eq wi[j] F64.zero = true
      · rw [if_pos hz] at hk ⊢
        obtain ⟨ok, hr⟩ := realColumnEq_some sel full n c k j (by omega) (by omega) hS hD hS' hD'
          n 0 (by omega)
        rw [hr, Option.some_bind]
        cases ok with
        | false => exact ⟨(false, k), rfl⟩
        | true =>
          simp only [if_true]
          exact ih (j + 1) (k + 1) (by omega) (by omega)
      · have hne : F64.ne wi[j] F64.zero = true := by simp [F64.ne, hz]
        rw [if_neg hz] at hk
        rw [if_neg hz, if_pos hne]
        obtain ⟨ok, hr⟩ := pairColumnEq_some sel full n c k j (by omega)
          (hpair j _ hs hw hne) hS hD hS' hD' n 0 (by omega)
        rw [hr, Option.some_bind]
        cases ok with
        | false => exact ⟨(false, k), rfl⟩
        | true =>
          simp only [if_true]
          exact ih (j + 1) (k + 2) (by omega) (by omega)
    · rw [if_neg hsel] at hk ⊢
      exact ih (j + 1) k (by omega) (by omega)

/-- However `loopVR` is left, its counter has advanced by at most the number of output columns
of the indices it was to visit. -/
theorem matchLoop_counter_le (sel full : General) (n : Nat) (selected : List Bool)
    (wi : List F64) (hlen : wi.length = selected.length) :
    ∀ (cols j k : Nat) (b : Bool) (k' : Nat),
      matchLoop sel full n selected wi cols j k = some (b, k') →
      k' ≤ k + widthSum (((wi.zip selected).drop j).take cols) := by
  intro cols
  induction cols with
  | zero =>
    intro j k b k' h
    simp only [matchLoop, Option.some.injEq, Prod.mk.injEq] at h
    omega
  | succ cols ih =>
    intro j k b k' h
    cases hs : selected[j]? with
    | none => simp [matchLoop, hs] at h
    | some s =>
      have hj : j < selected.length := by
        by_contra hc
        rw [List.getElem?_eq_none (by omega)] at hs
        cases hs
      have hw : wi[j]? = some wi[j] := by simp [hlen, hj]
      rw [zip_drop_cons wi selected j _ s hw hs, List.take_succ_cons, widthSum_cons]
      simp only [matchLoop, hs, hw, Option.bind_eq_bind, Option.some_bind] at h
      cases s with
      | false =>
        simp only [Bool.false_eq_true, if_false] at h
        have := ih (j + 1) k b k' h
        simp only [Bool.false_eq_true, if_false]
        omega
      | true =>
        simp only [if_true] at h ⊢
        by_cases hz : F64.eq wi[j] F64.zero = true
        · rw [if_pos hz] at h ⊢
          cases hr : realColumnEq sel full k j n 0 with
          | none => simp [hr] at h
          | some ok =>
            rw [hr, Option.some_bind] at h
            cases ok with
            | false =>
              simp only [Bool.false_eq_true, if_false, Option.some.injEq, Prod.mk.injEq] at h
              omega
            | true =>
              simp only [if_true] at h
              have := ih (j + 1) (k + 1) b k' h
              omega
        · have hne : F64.ne wi[j] F64.zero = true := by simp [F64.ne, hz]
          rw [if_neg hz, if_pos hne] at h
          rw [if_neg hz]
          cases hr : pairColumnEq sel full k j n 0 with
          | none => simp [hr] at h
          | some ok =>
            rw [hr, Option.some_bind] at h
            cases ok with
            | false =>
              simp only [Bool.false_eq_true, if_false, Option.some.injEq, Prod.mk.injEq] at h
              omega
            | true =>
              simp only [if_true] at h
              have := ih (j + 1) (k + 2) b k' h
              omega

/-- C16 (as stated, refuted): for `n = 2` and `wi = [0, 0]` the expected mask is
`[false, true]` and `mWant = 1`. With the returned mask equal to it, a selected output whose
first entry differs from the full case makes `loopVR` leave at the first row with `match = false`
and `k = 0`, not `k = mWant`. -/
theorem C16_counterexample :
    isSchurForm [F64.zero, F64.zero] = true ∧
    (selectMask 2 [F64.zero, F64.zero]).map (fun st => (st.selectedWant, mWant st)) =
      some ([false, true], 1) ∧
    matchLoop
      { Rows := 2, Cols := 1, Stride := 2, Data := [F64.ofNat 2, F64.nan, F64.one] }
      { Rows := 2, Cols := 2, Stride := 2, Data := [F64.one, F64.one, F64.zero, F64.one] }
      2 [false, true] [F64.zero, F64.zero] 2 0 0 = some (false, 0) := by
  refine ⟨by decide!, by decide!, by decide!⟩

/-- C16 (amended): for every `n` and every `wi` of length `n` in Schur pairing form, with the
returned mask equal to `selectedWant`: the output columns of all indices add up to `mWant`; at a
selected `j` with `wi[j] = 0` the output column `k` reached is at most `mWant - 1` (and
`j ≤ n - 1`), at a selected `j` with `wi[j] ≠ 0` the columns `k, k+1` are at most `mWant - 1`
and `j, j+1` at most `n - 1`; whenever `loopVR` has passed `j` indices without a mismatch its
counter is that `k`; and on an `n × mWant` selected output and an `n × n` full output (each with
a stride of at least its width, in a buffer that holds its last entry) the loop reads no entry
outside a buffer and is left with `k ≤ mWant`, where `k = mWant` when no mismatch was found. -/
theorem C16_column_walk_in_range (n : Nat) (wi : List F64) (hlen : wi.length = n)
    (hS : isSchurForm wi = true) :
    ∃ st, selectMask n wi = some st ∧
      columnBefore st.selectedWant wi n = mWant st ∧
      (∀ j w, st.selectedWant[j]? = some true → wi[j]? = some w →
        (F64.eq w F64.zero = true →
          columnBefore st.selectedWant wi j + 1 ≤ mWant st ∧ j + 1 ≤ n) ∧
        (F64.ne w F64.zero = true →
          columnBefore st.selectedWant wi j + 2 ≤ mWant st ∧ j + 2 ≤ n)) ∧
      (∀ (sel full : General) (j k : Nat),
        matchLoop sel full n st.selectedWant wi j 0 0 = some (true, k) →
        k = columnBefore st.selectedWant wi j) ∧
      (∀ (sel full : General) (b : Bool) (k : Nat),
        matchLoop sel full n st.selectedWant wi n 0 0 = some (b, k) →
        k ≤ mWant st ∧ (b = true → k = mWant st)) ∧
      ∀ (sel full : General), (mWant st : Int) ≤ sel.Stride →
        ((n : Int) - 1) * sel.Stride + mWant st ≤ sel.Data.length →
        (n : Int) ≤ full.Stride → ((n : Int) - 1) * full.Stride + n ≤ full.Data.length →
        ∃ b k, matchLoop sel full n st.selectedWant wi n 0 0 = some (b, k) ∧
          k ≤ mWant st ∧ (b = true → k = mWant st) := by
  obtain ⟨st, hst, _, hwl, ⟨_, _, _, c4, _, c6⟩, _⟩ := selectMask_final n wi hlen hS
  simp only [List.drop_zero] at c4
  have hzl : (wi.zip st.selectedWant).length = n := by simp [hlen, hwl]
  have htot : columnBefore st.selectedWant wi n = mWant st := by
    unfold columnBefore mWant
    rw [List.take_of_length_le (by omega), c4]
  have hlink : ∀ (sel full : General) (j k : Nat),
      matchLoop sel full n st.selectedWant wi j 0 0 = some (true, k) →
      k = columnBefore st.selectedWant wi j := by
    intro sel full j k h
    have := matchLoop_counter sel full n st.selectedWant wi (by omega) j 0 0 k h
    simpa [columnBefore] using this
  have hend : ∀ (sel full : General) (b : Bool) (k : Nat),
      matchLoop sel full n st.selectedWant wi n 0 0 = some (b, k) →
      k ≤ mWant st ∧ (b = true → k = mWant st) := by
    intro sel full b k h
    constructor
    · have := matchLoop_counter_le sel full n st.selectedWant wi (by omega) n 0 0 b k h
      have h2 : widthSum (((wi.zip st.selectedWant).drop 0).take n) = mWant st := htot
      omega
    · intro hb
      subst hb
      rw [hlink sel full n k h, htot]
  refine ⟨st, hst, htot, ?_, hlink, hend, ?_⟩
  · intro j w hs hw
    have hsplit : widthSum (wi.zip st.selectedWant) =
        columnBefore st.selectedWant wi j +
          ((if F64.eq w F64.zero then 1 else 2) +
            widthSum ((wi.zip st.selectedWant).drop (j + 1))) := by
      conv_lhs => rw [← List.take_append_drop j (wi.zip st.selectedWant)]
      rw [widthSum_append, zip_drop_cons wi st.selectedWant j w true hw hs, widthSum_cons]
      rfl
    have hjn : j < n := by
      by_contra hc
      rw [List.getElem?_eq_none (by omega)] at hw
      cases hw
    have hm : mWant st = st.nselr + 2 * st.nselc := rfl
    constructor
    · intro hz
      rw [if_pos hz] at hsplit
      omega
    · intro hne
      have hz : ¬ F64.eq w F64.zero = true := by
        intro hz
        simp [F64.ne, hz] at hne
      rw [if_neg hz] at hsplit
      have := c6 j w (Nat.zero_le _) hs hw hne
      omega
  · intro sel full h1 h2 h3 h4
    obtain ⟨⟨b, k⟩, hres⟩ := matchLoop_some sel full n (mWant st) st.selectedWant wi hlen hwl
      h1 h2 h3 h4 (fun a w hs hw hne => c6 a w (Nat.zero_le _) hs hw hne) n 0 0 (by omega)
      (by
        have : widthSum (((wi.zip st.selectedWant).drop 0).take n) = mWant st := htot
        omega)
    exact ⟨b, k, hres, hend sel full b k hres⟩

/-- Witness of C16 (amended) for `n = 3` and `wi = [0, 1, -1]`. -/
theorem C16_column_walk_in_range_witness :
    ∃ st, selectMask 3 [F64.zero, F64.one, F64.neg F64.one] = some st ∧
      columnBefore st.selectedWant [F64.zero, F64.one, F64.neg F64.one] 3 = mWant st ∧
      (∀ j w, st.selectedWant[j]? = some true →
        [F64.zero, F64.one, F64.neg F64.one][j]? = some w →
        (F64.eq w F64.zero = true →
          columnBefore st.selectedWant [F64.zero, F64.one, F64.neg F64.one] j + 1 ≤ mWant st ∧
            j + 1 ≤ 3) ∧
        (F64.ne w F64.zero = true →
          columnBefore st.selectedWant [F64.zero, F64.one, F64.neg F64.one] j + 2 ≤ mWant st ∧
            j + 2 ≤ 3)) ∧
      (∀ (sel full : General) (j k : Nat),
        matchLoop sel full 3 st.selectedWant [F64.zero, F64.one, F64.neg F64.one] j 0 0 =
          some (true, k) →
        k = columnBefore st.selectedWant [F64.zero, F64.one, F64.neg F64.one] j) ∧
      (∀ (sel full : General) (b : Bool) (k : Nat),
        matchLoop sel full 3 st.selectedWant [F64.zero, F64.one, F64.neg F64.one] 3 0 0 =
          some (b, k) → k ≤ mWant st ∧ (b = true → k = mWant st)) ∧
      ∀ (sel full : General), (mWant st : Int) ≤ sel.Stride →
        (((3 : Nat) : Int) - 1) * sel.Stride + mWant st ≤ sel.Data.length →
        ((3 : Nat) : Int) ≤ full.Stride →
        (((3 : Nat) : Int) - 1) * full.Stride + (3 : Nat) ≤ full.Data.length →
        ∃ b k, matchLoop sel full 3 st.selectedWant [F64.zero, F64.one, F64.neg F64.one] 3 0 0 =
            some (b, k) ∧ k ≤ mWant st ∧ (b = true → k = mWant st) :=
  C16_column_walk_in_range 3 [F64.zero, F64.one, F64.neg F64.one] rfl (by decide!)

/-! ## `residualEVNormalization` against the max-norms of the data model -/

namespace F64

theorem signbit_abs (x : F64) : signbit (abs x) = false := by
  cases x <;> rfl

theorem signbit_mk_pos (r : Nat) : signbit (mk false r) = false := by
  unfold mk
  split <;> rfl

theorem signbit_add_abs (x y : F64) : signbit (add (abs x) (abs y)) = false := by
  cases x with
  | nan => cases y <;> rfl
  | inf s => cases y <;> simp [abs, add, signbit]
  | fin s a =>
    cases y with
    | nan => rfl
    | inf s' => rfl
    | fin s' b =>
      have h : add (abs (fin s a)) (abs (fin s' b)) = mk false (roundNat (a + b) 0) := by
        simp [abs, add]
      rw [h]
      exact signbit_mk_pos _

theorem max_fin (a b : Nat) : max (fin false a) (fin false b) = fin false (Nat.max a b) := by
  unfold max
  rw [if_neg (by simp)]
  simp only [isNaN, Bool.or_false, Bool.false_eq_true, if_false]
  by_cases h1 : (eq (fin false a) zero && eq (fin false a) (fin false b)) = true
  · rw [if_pos h1]
    simp [eq, isNaN, ord, zero] at h1
    simp [signbit, h1.1, ← h1.2]
  · rw [if_neg h1]
    by_cases h2 : lt (fin false b) (fin false a) = true
    · rw [if_pos h2]
      simp [lt, isNaN, ord] at h2
      congr 1
      exact (Nat.max_eq_left (by omega)).symm
    · rw [if_neg h2]
      simp [lt, isNaN, ord] at h2
      congr 1
      exact (Nat.max_eq_right (by omega)).symm

end F64

theorem largest_signbit (vals : List F64) : F64.signbit (largest vals) = false := by
  unfold largest
  split
  · rfl
  · split <;> rfl

/-- A step of `math.Max` on values that are not negative keeps the maximum of the list. -/
theorem largest_max (a v : F64) (rest : List F64) (ha : F64.signbit a = false)
    (hv : F64.signbit v = false) :
    largest (F64.max a v :: rest) = largest (a :: v :: rest) := by
  cases a with
  | nan =>
    cases v with
    | nan => simp [largest, F64.max, F64.isNaN]
    | inf s =>
      cases s with
      | false => simp [largest, F64.max]
      | true => simp [F64.signbit] at hv
    | fin s k =>
      cases s with
      | false => simp [largest, F64.max, F64.isNaN]
      | true => simp [F64.signbit] at hv
  | inf s =>
    cases s with
    | false => simp [largest, F64.max]
    | true => simp [F64.signbit] at ha
  | fin s k =>
    cases s with
    | true => simp [F64.signbit] at ha
    | false =>
      cases v with
      | nan => simp [largest, F64.max, F64.isNaN]
      | inf s' =>
        cases s' with
        | false => simp [largest, F64.max]
        | true => simp [F64.signbit] at hv
      | fin s' k' =>
        cases s' with
        | true => simp [F64.signbit] at hv
        | false =>
          rw [F64.max_fin]
          simp [largest, F64.isNaN, F64.units, Nat.max_assoc]

theorem max_signbit (a v : F64) (ha : F64.signbit a = false) (hv : F64.signbit v = false) :
    F64.signbit (F64.max a v) = false := by
  unfold F64.max
  split
  · rfl
  · split
    · rfl
    · split
      · split <;> assumption
      · split <;> assumption

/-- Folding `math.Max` over values that are not negative gives their maximum. -/
theorem foldl_max_largest : ∀ (vals : List F64) (acc : F64), F64.signbit acc = false →
    (∀ v ∈ vals, F64.signbit v = false) → vals.foldl F64.max acc = largest (acc :: vals) := by
  intro vals
  induction vals with
  | nil =>
    intro acc ha _
    cases acc with
    | nan => simp [largest, F64.isNaN]
    | inf s =>
      cases s with
      | false => simp [largest]
      | true => simp [F64.signbit] at ha
    | fin s k =>
      cases s with
      | false => simp [largest, F64.isNaN, F64.units]
      | true => simp [F64.signbit] at ha
  | cons v rest ih =>
    intro acc ha hall
    have hv := hall v (List.mem_cons_self _ _)
    rw [List.foldl_cons, ih (F64.max acc v) (max_signbit acc v ha hv)
      (fun x hx => hall x (List.mem_cons_of_mem _ hx)), largest_max acc v rest ha hv]

theorem largest_zero_cons (vals : List F64) : largest (F64.zero :: vals) = largest vals := by
  simp [largest, F64.zero, F64.isNaN, F64.units]

theorem columnAbs_signbit (e : General) (j : Nat) : ∀ (rows i : Nat) (vals : List F64),
    columnAbs e j rows i = some vals → ∀ v ∈ vals, F64.signbit v = false := by
  intro rows
  induction rows with
  | zero =>
    intro i vals h v hv
    simp [columnAbs] at h
    subst h
    simp at hv
  | succ rows ih =>
    intro i vals h v hv
    simp only [columnAbs, Option.bind_eq_bind, Option.pure_def] at h
    cases hx : entryAt e i j with
    | none => simp [hx] at h
    | some x =>
      cases hr : columnAbs e j rows (i + 1) with
      | none => simp [hx, hr] at h
      | some rest =>
        simp [hx, hr] at h
        subst h
        rcases List.mem_cons.1 hv with rfl | hv'
        · exact F64.signbit_abs x
        · exact ih (i + 1) rest hr v hv'

theorem pairAbs_signbit (e : General) (j : Nat) : ∀ (rows i : Nat) (vals : List F64),
    pairAbs e j rows i = some vals → ∀ v ∈ vals, F64.signbit v = false := by
  intro rows
  induction rows with
  | zero =>
    intro i vals h v hv
    simp [pairAbs] at h
    subst h
    simp at hv
  | succ rows ih =>
    intro i vals h v hv
    simp only [pairAbs, Option.bind_eq_bind, Option.pure_def] at h
    cases hx : entryAt e i j with
    | none => simp [hx] at h
    | some x =>
      cases hy : entryAt e i (j + 1) with
      | none => simp [hx, hy] at h
      | some y =>
        cases hr : pairAbs e j rows (i + 1) with
        | none => simp [hx, hy, hr] at h
        | some rest =>
          simp [hx, hy, hr] at h
          subst h
          rcases List.mem_cons.1 hv with rfl | hv'
          · exact F64.signbit_add_abs x y
          · exact ih (i + 1) rest hr v hv'

/-- The row loop of a real eigenvector folds `math.Max` over the absolute values of its
column. -/
theorem realNorm_fold (e : General) (j : Nat) : ∀ (rows i : Nat) (acc : F64),
    forLoop (realNormBody e j) rows i acc =
      (columnAbs e j rows i).map (fun vals => vals.foldl F64.max acc) := by
  intro rows
  induction rows with
  | zero => intro i acc; rfl
  | succ rows ih =>
    intro i acc
    rw [forLoop_succ]
    simp only [realNormBody, columnAbs, entryAt, Option.bind_eq_bind, Option.pure_def]
    cases indexAt e.Data (i * e.Stride + j) with
    | none => rfl
    | some x =>
      simp only [Option.some_bind]
      rw [ih]
      cases columnAbs e j rows (i + 1) with
      | none => rfl
      | some rest => rfl

/-- The row loop of a complex pair folds `math.Max` over the sums of the absolute values of its
two columns. -/
theorem pairNorm_fold (e : General) (j : Nat) : ∀ (rows i : Nat) (acc : F64),
    forLoop (pairNormBody e j) rows i acc =
      (pairAbs e j rows i).map (fun vals => vals.foldl F64.max acc) := by
  intro rows
  induction rows with
  | zero => intro i acc; rfl
  | succ rows ih =>
    intro i acc
    have e1 : (i : Int) * e.Stride + ((j + 1 : Nat) : Int) = (i : Int) * e.Stride + j + 1 := by
      push_cast; omega
    rw [forLoop_succ]
    simp only [pairNormBody, pairAbs, entryAt, e1, Option.bind_eq_bind, Option.pure_def]
    cases indexAt e.Data (i * e.Stride + j) with
    | none => rfl
    | some x =>
      simp only [Option.some_bind]
      cases indexAt e.Data (i * e.Stride + j + 1) with
      | none => rfl
      | some y =>
        simp only [Option.some_bind]
        rw [ih]
        cases pairAbs e j rows (i + 1) with
        | none => rfl
        | some rest => rfl

/-- The row loop of a real eigenvector computes the max-norm of its column. -/
theorem realNorm_largest (e : General) (j rows : Nat) :
    forLoop (realNormBody e j) rows 0 F64.zero = (columnAbs e j rows 0).map largest := by
  rw [realNorm_fold]
  cases h : columnAbs e j rows 0 with
  | none => rfl
  | some vals =>
    simp only [Option.map_some']
    rw [foldl_max_largest vals F64.zero rfl (columnAbs_signbit e j rows 0 vals h),
      largest_zero_cons]

/-- The row loop of a complex pair computes the max-norm of the pair. -/
theorem pairNorm_largest (e : General) (j rows : Nat) :
    forLoop (pairNormBody e j) rows 0 F64.zero = (pairAbs e j rows 0).map largest := by
  rw [pairNorm_fold]
  cases h : pairAbs e j rows 0 with
  | none => rfl
  | some vals =>
    simp only [Option.map_some']
    rw [foldl_max_largest vals F64.zero rfl (pairAbs_signbit e j rows 0 vals h),
      largest_zero_cons]

/-- For `wi` in Schur pairing form the norms that the column loop of `residualEVNormalization`
folds over are the max-norms of the data model. -/
theorem eigenvectorNorms_eq_maxNorms (e : General) (n : Nat) (hR : e.Rows.toNat = n) :
    ∀ (k fuel j : Nat) (ws : List F64), ws.length = k → k ≤ fuel → isSchurForm ws = true →
      eigenvectorNorms e fuel j ws = maxNorms e n j ws := by
  intro k
  induction k using Nat.strong_induction_on with
  | _ k ih =>
    intro fuel j ws hk hf hS
    match ws, hk, hS with
    | [], _, _ =>
      rw [eigenvectorNorms_nil]
      rfl
    | [z], hk, hS =>
      simp only [isSchurForm] at hS
      obtain ⟨f, rfl⟩ : ∃ f, fuel = f + 1 := ⟨fuel - 1, by simp at hk; omega⟩
      simp only [eigenvectorNorms, eigenvectorNorms_nil, maxNorms, hS, if_true, hR,
        realNorm_largest, Option.bind_eq_bind, Option.pure_def]
      cases columnAbs e j n 0 with
      | none => rfl
      | some vals => rfl
    | a :: b :: rest, hk, hS =>
      obtain ⟨f, rfl⟩ : ∃ f, fuel = f + 1 := ⟨fuel - 1, by simp at hk; omega⟩
      simp only [isSchurForm, Bool.or_eq_true, Bool.and_eq_true, decide_eq_true_eq] at hS
      rcases hS with ⟨h0, hr⟩ | ⟨⟨h0, _⟩, hr⟩
      · have hne : F64.ne a F64.zero = false := by simp [F64.ne, h0]
        have hrec := ih (b :: rest).length (by simp at hk ⊢; omega) f (j + 1) (b :: rest) rfl
          (by simp at hk hf ⊢; omega) hr
        simp only [eigenvectorNorms, maxNorms, hne, h0, if_true, Bool.false_eq_true, if_false,
          hR, realNorm_largest, hrec, Option.bind_eq_bind, Option.pure_def]
        cases columnAbs e j n 0 with
        | none => rfl
        | some vals => rfl
      · have hz := lt_zero_not_eq_zero a h0
        have hne : F64.ne a F64.zero = true := by simp [F64.ne, hz]
        have hrec := ih rest.length (by simp at hk ⊢; omega) f (j + 2) rest rfl
          (by simp at hk hf ⊢; omega) hr
        simp only [eigenvectorNorms, maxNorms, hne, hz, if_true, Bool.false_eq_true, if_false,
          hR, pairNorm_largest, hrec, Option.bind_eq_bind, Option.pure_def]
        cases pairAbs e j n 0 with
        | none => rfl
        | some vals => rfl

/-- Every max-norm of the data model is `+Inf`, NaN or a finite value that is not negative. -/
theorem maxNorms_signbit (e : General) (n : Nat) :
    ∀ (k j : Nat) (ws norms : List F64), ws.length = k → maxNorms e n j ws = some norms →
      ∀ x ∈ norms, F64.signbit x = false := by
  intro k
  induction k using Nat.strong_induction_on with
  | _ k ih =>
    intro j ws norms hk h x hx
    match ws, hk, h with
    | [], _, h =>
      simp [maxNorms] at h
      subst h
      simp at hx
    | [z], _, h =>
      simp only [maxNorms, Option.bind_eq_bind, Option.pure_def] at h
      split at h
      · cases hc : columnAbs e j n 0 with
        | none => simp [hc] at h
        | some vals =>
          simp [hc] at h
          subst h
          simp at hx
          subst hx
          exact largest_signbit vals
      · cases h
    | a :: b :: rest, hk, h =>
      simp only [maxNorms, Option.bind_eq_bind, Option.pure_def] at h
      split at h
      · cases hc : columnAbs e j n 0 with
        | none => simp [hc] at h
        | some vals =>
          cases hr : maxNorms e n (j + 1) (b :: rest) with
          | none => simp [hc, hr] at h
          | some tl =>
            simp [hc, hr] at h
            subst h
            rcases List.mem_cons.1 hx with rfl | hx'
            · exact largest_signbit vals
            · exact ih (b :: rest).length (by simp at hk ⊢; omega) (j + 1) (b :: rest) tl rfl
                hr x hx'
      · cases hc : pairAbs e j n 0 with
        | none => simp [hc] at h
        | some vals =>
          cases hr : maxNorms e n (j + 2) rest with
          | none => simp [hc, hr] at h
          | some tl =>
            simp [hc, hr] at h
            subst h
            rcases List.mem_cons.1 hx with rfl | hx'
            · exact largest_signbit vals
            · exact ih rest.length (by simp at hk ⊢; omega) (j + 2) rest tl rfl hr x hx'

theorem le_zero_of_signbit (x : F64) (hs : F64.signbit x = false)
    (hn : F64.le x (F64.inf false) = true) : F64.le F64.zero x = true := by
  have tp := F64.top_pos
  cases x with
  | nan => simp [F64.le, F64.isNaN] at hn
  | inf s =>
    cases s with
    | false =>
      simp [F64.le, F64.isNaN, F64.ord, F64.zero]
      omega
    | true => simp [F64.signbit] at hs
  | fin s k =>
    cases s with
    | false => simp [F64.le, F64.isNaN, F64.ord, F64.zero]
    | true => simp [F64.signbit] at hs

theorem min_signbit (a v : F64) (ha : F64.signbit a = false) (hv : F64.signbit v = false) :
    F64.signbit (F64.min a v) = false := by
  unfold F64.min
  split
  · rename_i h
    rcases h with rfl | rfl
    · simp [F64.signbit] at ha
    · simp [F64.signbit] at hv
  · split
    · rfl
    · split
      · split <;> assumption
      · split <;> assumption

theorem min_nan (a v : F64) (ha : F64.signbit a = false) (hv : F64.signbit v = false)
    (h : a = F64.nan ∨ v = F64.nan) : F64.min a v = F64.nan := by
  have h1 : ¬ (a = F64.inf true ∨ v = F64.inf true) := by
    rintro (rfl | rfl)
    · simp [F64.signbit] at ha
    · simp [F64.signbit] at hv
  unfold F64.min
  rw [if_neg h1]
  rcases h with rfl | rfl <;> simp [F64.isNaN]

/-- Folding `math.Min` over values that are not negative gives NaN as soon as the start value or
a member of the list is NaN. -/
theorem foldl_min_nan : ∀ (norms : List F64) (acc : F64), F64.signbit acc = false →
    (∀ x ∈ norms, F64.signbit x = false) → (acc = F64.nan ∨ F64.nan ∈ norms) →
    norms.foldl F64.min acc = F64.nan := by
  intro norms
  induction norms with
  | nil =>
    intro acc _ _ h
    rcases h with h | h
    · exact h
    · simp at h
  | cons y rest ih =>
    intro acc ha hall h
    have hy := hall y (List.mem_cons_self _ _)
    rw [List.foldl_cons]
    apply ih (F64.min acc y) (min_signbit acc y ha hy)
      (fun x hx => hall x (List.mem_cons_of_mem _ hx))
    rcases h with h | h
    · exact Or.inl (min_nan acc y ha hy (Or.inl h))
    · rcases List.mem_cons.1 h with h' | h'
      · exact Or.inl (min_nan acc y ha hy (Or.inr h'.symm))
      · exact Or.inr h'

/-- C14: for `n ≥ 1`, an `n × n` matrix `E` (stored with `Stride ≥ n` in a buffer that holds
its last entry) and `wi` of length `n` in Schur pairing form, the eigenvector max-norms of the
data model exist (`max_i |E[i,j]|` for a real column, `max_i (|E[i,j]| + |E[i,j+1]|)` for a
pair), and `residualEVNormalization(E, wi)` returns `|enrmin - 1|`, where `enrmin` is `math.Min`
folded from `+Inf` over these norms: the largest norm does not occur in the result. When no norm
is NaN (every norm is `≤ +Inf`), `enrmin` is one of the norms and at most each of them; when
some norm is NaN the result is NaN. For `n = 0` the result is `0`. -/
theorem C14_residual_is_min_norm_error (e : General) (wi : List F64) (n : Nat) (hn : 1 ≤ n)
    (hR : e.Rows = n) (hC : e.Cols = n) (hS : (n : Int) ≤ e.Stride)
    (hD : ((n : Int) - 1) * e.Stride + n ≤ e.Data.length) (hlen : wi.length = n)
    (hW : isSchurForm wi = true) :
    (∃ norms, maxNorms e n 0 wi = some norms ∧ norms ≠ [] ∧
      residualEVNormalization e wi =
        some (F64.abs (F64.sub (norms.foldl F64.min (F64.inf false)) F64.one)) ∧
      ((∀ x ∈ norms, F64.le x (F64.inf false) = true) →
        norms.foldl F64.min (F64.inf false) ∈ norms ∧
          ∀ x ∈ norms, F64.le (norms.foldl F64.min (F64.inf false)) x = true) ∧
      (F64.nan ∈ norms → residualEVNormalization e wi = some F64.nan)) ∧
    ∀ (e0 : General) (wi0 : List F64), e0.Rows = 0 →
      residualEVNormalization e0 wi0 = some F64.zero := by
  constructor
  · obtain ⟨st, h1, _⟩ := columnLoop_some e wi n hR (by omega) (by omega) hD hlen n (le_refl _)
    have hRn : e.Rows.toNat = n := by rw [hR]; simp
    have h2 := columnLoop_eq e wi n hR hlen n n 0
      { enrmin := F64.inf false, enrmax := F64.zero, ipair := 0 } wi rfl rfl hlen (le_refl _)
    rw [h1, eigenvectorNorms_eq_maxNorms e n hRn n n 0 wi hlen (le_refl _) hW] at h2
    cases h3 : maxNorms e n 0 wi with
    | none => simp [h3] at h2
    | some norms =>
      rw [h3, Option.map_some'] at h2
      have hst : st.enrmin = norms.foldl F64.min (F64.inf false) := by
        rw [Option.some.inj h2]
      have hsign := maxNorms_signbit e n n 0 wi norms hlen h3
      have hne : norms ≠ [] := by
        obtain ⟨f, rfl⟩ : ∃ f, n = f + 1 := ⟨n - 1, by omega⟩
        rw [← eigenvectorNorms_eq_maxNorms e (f + 1) hRn (f + 1) (f + 1) 0 wi hlen (le_refl _) hW]
          at h3
        cases wi with
        | nil => simp at hlen
        | cons w ws => exact eigenvectorNorms_ne_nil e f 0 w ws norms h3
      have hR0 : e.Rows ≠ 0 := by rw [hR]; omega
      have hres : residualEVNormalization e wi =
          some (F64.abs (F64.sub (norms.foldl F64.min (F64.inf false)) F64.one)) := by
        simp [residualEVNormalization, hR0, hRn, h1, F64.max_self, hst]
      refine ⟨norms, rfl, hne, hres, ?_, ?_⟩
      · intro hall
        have hall0 : ∀ x ∈ norms, F64.le F64.zero x = true :=
          fun x hx => le_zero_of_signbit x (hsign x hx) (hall x hx)
        cases norms with
        | nil => exact absurd rfl hne
        | cons y rest =>
          have hy := List.mem_cons_self y rest
          rw [List.foldl_cons, F64.min_inf y (hall0 y hy) (hall y hy)]
          obtain ⟨m1, m2, m3⟩ := F64.foldl_min_num rest y (hall0 y hy)
            (fun x hx => hall0 x (List.mem_cons_of_mem _ hx))
          refine ⟨?_, ?_⟩
          · rcases m1 with h | h
            · rw [h]
              exact List.mem_cons_self _ _
            · exact List.mem_cons_of_mem _ h
          · intro x hx
            rcases List.mem_cons.1 hx with rfl | hx'
            · exact m2
            · exact m3 x hx'
      · intro hnan
        rw [hres, foldl_min_nan norms (F64.inf false) rfl hsign (Or.inr hnan)]
        rfl
  · intro e0 wi0 h0
    simp [residualEVNormalization, h0]

/-- Witness of C14 on a `3 × 3` matrix with a real eigenvalue and a complex pair: the max-norms
are `1` and `3/2`, and the result is `0`. -/
theorem C14_residual_is_min_norm_error_witness :
    (∃ norms, maxNorms
        { Rows := 3, Cols := 3, Stride := 3,
          Data := [F64.one, F64.zero, F64.dy 1 1, F64.zero, F64.one, F64.dy 1 1,
            F64.zero, F64.zero, F64.one] }
        3 0 [F64.zero, F64.one, F64.neg F64.one] = some norms ∧ norms ≠ [] ∧
      residualEVNormalization
        { Rows := 3, Cols := 3, Stride := 3,
          Data := [F64.one, F64.zero, F64.dy 1 1, F64.zero, F64.one, F64.dy 1 1,
            F64.zero, F64.zero, F64.one] }
        [F64.zero, F64.one, F64.neg F64.one] =
        some (F64.abs (F64.sub (norms.foldl F64.min (F64.inf false)) F64.one)) ∧
      ((∀ x ∈ norms, F64.le x (F64.inf false) = true) →
        norms.foldl F64.min (F64.inf false) ∈ norms ∧
          ∀ x ∈ norms, F64.le (norms.foldl F64.min (F64.inf false)) x = true) ∧
      (F64.nan ∈ norms → residualEVNormalization
        { Rows := 3, Cols := 3, Stride := 3,
          Data := [F64.one, F64.zero, F64.dy 1 1, F64.zero, F64.one, F64.dy 1 1,
            F64.zero, F64.zero, F64.one] }
        [F64.zero, F64.one, F64.neg F64.one] = some F64.nan)) ∧
    ∀ (e0 : General) (wi0 : List F64), e0.Rows = 0 →
      residualEVNormalization e0 wi0 = some F64.zero :=
  C14_residual_is_min_norm_error
    { Rows := 3, Cols := 3, Stride := 3,
      Data := [F64.one, F64.zero, F64.dy 1 1, F64.zero, F64.one, F64.dy 1 1,
        F64.zero, F64.zero, F64.one] }
    [F64.zero, F64.one, F64.neg F64.one] 3 (by decide) rfl rfl (by decide) (by decide) rfl
    (by decide!)

/-- The max-norms of the data model on two concrete matrices: `diag(1, 3)` with two real
eigenvalues has the norms `1` and `3`, and the `3 × 3` matrix above has the norms `1` and
`3/2`. -/
theorem maxNorms_examples :
    maxNorms
        { Rows := 2, Cols := 2, Stride := 2, Data := [F64.one, F64.zero, F64.zero, F64.ofNat 3] }
        2 0 [F64.zero, F64.zero] = some [F64.one, F64.ofNat 3] ∧
    maxNorms
        { Rows := 3, Cols := 3, Stride := 3,
          Data := [F64.one, F64.zero, F64.dy 1 1, F64.zero, F64.one, F64.dy 1 1,
            F64.zero, F64.zero, F64.one] }
        3 0 [F64.zero, F64.one, F64.neg F64.one] = some [F64.one, F64.dy 3 1] := by
  refine ⟨by decide!, by decide!⟩

/-! ## The column matching against the criterion of the spec -/

